import Mathlib

/-! Schema composition middleware (`middleware/schema/schema.go`).

A shallow embedding of the schema builder of the provider: the `Provider`
configuration surface, the token namespacer `assignTo`, the reference rewriter
`fixReference`, the traversal `renamePackage`, the derivative type collector
`registerDerivative` and the harvester `addElements`; and of the methods `Diff`
and `Update` of the resource `Cluster` of the example provider
(`examples/galaxy/main.go`).

Conventions of the embedding.

* A Go `string` is a `Str`, a list of characters.  Go indexes strings by byte
  and the embedding by character; the two agree on ASCII text, and the
  characters that the code looks for (`#`, `/`, `:`) are ASCII.
* A Go `map[string]V` is a `GoMap V`: an association list with at most one
  entry per key, read with `GoMap.get` and written with `GoMap.set`.
* A Go panic (a slice out of range, a failed `contract.Assertf`) is `none`.
-/

namespace Schema

/-- A Go string. -/
abbrev Str := List Char

/-! ## Go maps -/

/-- A Go map with string keys. -/
abbrev GoMap (V : Type) := List (Str × V)

namespace GoMap

variable {V : Type}

/-- The comma-ok read `v, ok := m[k]`. -/
def get : GoMap V → Str → Option V
  | [], _ => none
  | (k', v) :: m, k => if k' = k then some v else get m k

/-- The assignment `m[k] = v`: overwrite the entry of `k`, or add one. -/
def set : GoMap V → Str → V → GoMap V
  | [], k, v => [(k, v)]
  | (k', v') :: m, k, v => if k' = k then (k, v) :: m else (k', v') :: set m k v

/-- The keys of the map, one per entry. -/
def keys (m : GoMap V) : List Str := m.map Prod.fst

end GoMap

/-! ## Go string primitives used by the code -/

/-- The test `strings.HasPrefix(s, p)`. -/
def hasPrefix : Str → Str → Bool
  | _, [] => true
  | [], _ :: _ => false
  | c :: s, d :: p => c = d && hasPrefix s p

/-- The call `strings.TrimPrefix(s, p)`. -/
def trimPrefix (s p : Str) : Str := if hasPrefix s p then s.drop p.length else s

/-- The call `strings.IndexRune(s, c)`; `none` stands for `-1`. -/
def indexRune : Str → Char → Option Nat
  | [], _ => none
  | d :: s, c => if d = c then some 0 else (indexRune s c).map (· + 1)

/-- The slice expression `s[:j]`, which panics when `j > len(s)`. -/
def sliceTo (s : Str) (j : Nat) : Option Str := if j ≤ s.length then some (s.take j) else none

/-- The slice expression `s[i:]`, which panics when `i > len(s)`. -/
def sliceFrom (s : Str) (i : Nat) : Option Str := if i ≤ s.length then some (s.drop i) else none

/-! ## Tokens (`github.com/pulumi/pulumi/sdk/v3/go/common/tokens`)

The token package is a dependency of the repository; these definitions follow
its functions.  The types `tokens.Type`, `tokens.Module`, `tokens.Package`,
`tokens.ModuleName` and `tokens.TypeName` are all the Go type `string`.  A type
token reads `package:module:name`.  The accessors assert that the delimiters
they need are there, and the constructors assert that the name they are given
is legal (`IsQName` for a module name, `IsName` for a type name); a failed
assertion panics. -/

/-- The constant `tokens.TokenDelimiter`. -/
def TokenDelimiter : Char := ':'

/-- The method `Token.Delimiters`: the number of delimiters in the token. -/
def Delimiters (tok : Str) : Nat := tok.count TokenDelimiter

/-- The method `Token.HasModule`. -/
def HasModule (tok : Str) : Bool := decide (0 < Delimiters tok)

/-- The method `Token.HasModuleMember`. -/
def HasModuleMember (tok : Str) : Bool := decide (1 < Delimiters tok)

/-- The text before the first delimiter, `tok[:tok.delimiter(1)]`. -/
def beforeDelimiter : Str → Str
  | [] => []
  | c :: tok => if c = TokenDelimiter then [] else c :: beforeDelimiter tok

/-- The text after the first delimiter, `tok[tok.delimiter(1)+1:]`. -/
def afterDelimiter : Str → Str
  | [] => []
  | c :: tok => if c = TokenDelimiter then tok else afterDelimiter tok

/-- The method `Type.Module`: the text before the second delimiter
(`tok[:tok.delimiter(2)]`), the empty module for a primitive type. -/
def TypeModule (tok : Str) : Option Str :=
  if !HasModule tok then some []
  else if HasModuleMember tok then
    some (beforeDelimiter tok ++ TokenDelimiter :: beforeDelimiter (afterDelimiter tok))
  else none

/-- The method `Module.Name`: the text after the first delimiter of a module token. -/
def ModuleName (mod : Str) : Option Str :=
  if HasModule mod then some (afterDelimiter mod) else none

/-- The method `Type.Name`: the text after the second delimiter
(`tok[tok.delimiter(2)+1:]`), the whole token for a primitive type. -/
def TypeName (tok : Str) : Option Str :=
  if !HasModule tok then some tok
  else if HasModuleMember tok then some (afterDelimiter (afterDelimiter tok))
  else none

/-- The character class `[A-Za-z0-9_.-]` of `tokens.NameRegexpPattern`. -/
def isNameChar (c : Char) : Bool :=
  c.isAlphanum || c == '_' || c == '.' || c == '-'

/-- The test `tokens.IsName`, `s != "" && NameRegexp.FindString(s) == s`: the
string is not empty and each of its characters is of the class. -/
def IsName (s : Str) : Bool := !s.isEmpty && s.all isNameChar

/-- The pieces of a string between the delimiters `/` (`tokens.QNameDelimiter`). -/
def qnameSegments : Str → List Str
  | [] => [[]]
  | c :: s =>
    if c = '/' then [] :: qnameSegments s
    else
      match qnameSegments s with
      | [] => [[c]]
      | seg :: segs => (c :: seg) :: segs

/-- The test `tokens.IsQName`, `s != "" && QNameRegexp.FindString(s) == s` with
the pattern `(name/)*name`: the pieces between the delimiters `/` are legal
names. -/
def IsQName (s : Str) : Bool := (qnameSegments s).all IsName

/-- The constructor `tokens.NewModuleToken`: it asserts `IsQName(nm)`. -/
def NewModuleToken (pkg nm : Str) : Option Str :=
  if IsQName nm then some (pkg ++ TokenDelimiter :: nm) else none

/-- The constructor `tokens.NewTypeToken`: it asserts `IsName(nm)`. -/
def NewTypeToken (mod nm : Str) : Option Str :=
  if IsName nm then some (mod ++ TokenDelimiter :: nm) else none

/-- The parser `tokens.ParseTypeToken`: the string itself when it has a module
member (two delimiters), an error (`none`) otherwise. -/
def ParseTypeToken (s : Str) : Option Str := if HasModuleMember s then some s else none

/-! ## The namespacer and the reference rewriter -/

/-- The type `map[tokens.ModuleName]tokens.ModuleName`. -/
abbrev ModMap := GoMap Str

/-- The function `assignTo` (schema.go, lines 277-283).  The arguments of the
outer constructor are evaluated in order: the module token, then `tk.Name()`. -/
def assignTo (tk pkg : Str) (modMap : ModMap) : Option Str :=
  Option.bind (TypeModule tk) fun module =>
  Option.bind (ModuleName module) fun mod =>
  let mod := match modMap.get mod with
    | some m => m
    | none => mod
  Option.bind (NewModuleToken pkg mod) fun module' =>
  Option.bind (TypeName tk) fun nm =>
  NewTypeToken module' nm

/-- The function `fixReference` (schema.go, lines 285-303). -/
def fixReference (ref pkg : Str) (modMap : ModMap) : Option Str :=
  if !hasPrefix ref "#/".toList then
    some ref
  else
    let s := trimPrefix ref "#/".toList
    match indexRune s '/' with
    | none => some ref
    | some i =>
      Option.bind (sliceTo ref (i + 3)) fun kind =>
      Option.bind (sliceFrom s (i + 2)) fun rest =>
      match ParseTypeToken rest with
      | none => some ref
      | some tk => Option.bind (assignTo tk pkg modMap) fun tk' => some (kind ++ tk')

/-! ## Schema types (`github.com/pulumi/pulumi/pkg/v3/codegen/schema`)

The schema package is a dependency of the repository; these are its struct
declarations.  A Go embedded struct is a parent structure (`extends`), a
pointer is an `Option`, a slice is a `List`; the default of a member is the Go
zero value. -/

/-- A value of type `json.RawMessage`, a byte slice. -/
abbrev RawMessage := Str

/-- A value of interface type (`interface{}`, `any`): nil, or a value that is
opaque here. -/
abbrev Iface := Option Str

/-- The struct `schema.DiscriminatorSpec`. -/
structure DiscriminatorSpec where
  PropertyName : Str := []
  Mapping : GoMap Str := []
deriving DecidableEq

/-- The struct `schema.TypeSpec`, the node that carries a reference. -/
structure TypeSpec where
  Typ : Str := []
  Ref : Str := []
  AdditionalProperties : Option TypeSpec
  Items : Option TypeSpec
  OneOf : List TypeSpec
  Discriminator : Option DiscriminatorSpec := none
  Plain : Bool := false

/-- The struct `schema.DefaultSpec`. -/
structure DefaultSpec where
  Environment : List Str := []
  Language : GoMap RawMessage := []
deriving DecidableEq

/-- The struct `schema.PropertySpec`; it embeds `TypeSpec`. -/
structure PropertySpec extends TypeSpec where
  AdditionalProperties := none
  Items := none
  OneOf := []
  Description : Str := []
  Const : Iface := none
  Default : Iface := none
  DefaultInfo : Option DefaultSpec := none
  DeprecationMessage : Str := []
  Language : GoMap RawMessage := []
  Secret : Bool := false
  ReplaceOnChanges : Bool := false
  WillReplaceOnChanges : Bool := false

/-- The struct `schema.ObjectTypeSpec`. -/
structure ObjectTypeSpec where
  Description : Str := []
  Properties : GoMap PropertySpec := []
  Typ : Str := []
  Required : List Str := []
  Plain : List Str := []
  Language : GoMap RawMessage := []
  IsOverlay : Bool := false

/-- The struct `schema.EnumValueSpec`. -/
structure EnumValueSpec where
  Name : Str := []
  Description : Str := []
  Value : Iface := none
  DeprecationMessage : Str := []
deriving DecidableEq

/-- The struct `schema.ComplexTypeSpec`; it embeds `ObjectTypeSpec`. -/
structure ComplexTypeSpec extends ObjectTypeSpec where
  Enum : List EnumValueSpec := []

/-- The struct `schema.AliasSpec`. -/
structure AliasSpec where
  Name : Option Str := none
  Project : Option Str := none
  Typ : Option Str := none
deriving DecidableEq

/-- The struct `schema.ResourceSpec`; it embeds `ObjectTypeSpec`. -/
structure ResourceSpec extends ObjectTypeSpec where
  InputProperties : GoMap PropertySpec := []
  RequiredInputs : List Str := []
  PlainInputs : List Str := []
  StateInputs : Option ObjectTypeSpec := none
  Aliases : List AliasSpec := []
  DeprecationMessage : Str := []
  IsComponent : Bool := false
  Methods : GoMap Str := []

/-- The struct `schema.FunctionSpec`. -/
structure FunctionSpec where
  Description : Str := []
  Inputs : Option ObjectTypeSpec := none
  Outputs : Option ObjectTypeSpec := none
  DeprecationMessage : Str := []
  Language : GoMap RawMessage := []
  IsOverlay : Bool := false

/-! ## The traversal `renamePackage` (schema.go, lines 305-348)

The closure `rename` walks a `reflect.Value`.  Its four cases are: a pointer
(nil: return, otherwise the pointee), a struct (a `schema.TypeSpec` first gets
its `Ref` rewritten by `fixReference`; then every field of
`reflect.VisibleFields` is walked), an array or slice (every element, in
order), and a map (every value is copied, walked and stored back under its
key).  Every other kind (string, bool, number, interface) is left alone.

`reflect.VisibleFields` lists an embedded struct and, right after it, the
fields that it promotes, so the members of an embedded struct are walked once
inside it and once more as promoted fields.  The definitions below are `rename`
at each type of the schema package that holds a `TypeSpec`.

They are functions on values: what the walk returns for a value that shares no
map, pointee or backing array with another value.  The Go walk writes in place;
a value that shares such an object with one that was walked before reads as
that walk left it.  The section on the collector takes this up for definitions
that are handed to the callback more than once. -/

section rename

variable (pkg : Str) (modMap : ModMap)

/-- The map case of `rename`: each value is walked and stored under its key. -/
def renameMap {V : Type} (f : V → Option V) : GoMap V → Option (GoMap V)
  | [] => some []
  | (k, e) :: m =>
    Option.bind (f e) fun e' =>
    Option.bind (renameMap f m) fun m' => some ((k, e') :: m')

mutual
/-- The walk `rename` at a `schema.TypeSpec`: `Ref` is rewritten, then the
visible fields `Type`, `Ref`, `AdditionalProperties`, `Items`, `OneOf`,
`Discriminator`, `Plain` are walked. -/
def renameTypeSpec : TypeSpec → Option TypeSpec
  | ⟨typ, ref, additionalProperties, items, oneOf, discriminator, plain⟩ =>
    Option.bind (fixReference ref pkg modMap) fun rewritten =>
    Option.bind (renameTypeSpecPtr additionalProperties) fun additionalProperties' =>
    Option.bind (renameTypeSpecPtr items) fun items' =>
    Option.bind (renameTypeSpecs oneOf) fun oneOf' =>
    some ⟨typ, rewritten, additionalProperties', items', oneOf', discriminator, plain⟩
/-- The walk `rename` at a `*schema.TypeSpec`. -/
def renameTypeSpecPtr : Option TypeSpec → Option (Option TypeSpec)
  | none => some none
  | some t => Option.bind (renameTypeSpec t) fun t' => some (some t')
/-- The walk `rename` at a `[]schema.TypeSpec`. -/
def renameTypeSpecs : List TypeSpec → Option (List TypeSpec)
  | [] => some []
  | t :: ts =>
    Option.bind (renameTypeSpec t) fun t' =>
    Option.bind (renameTypeSpecs ts) fun ts' => some (t' :: ts')
end

/-- The walk `rename` at a `schema.PropertySpec`.  The visible fields are the
embedded `TypeSpec`, its promoted fields `Type`, `Ref`, `AdditionalProperties`,
`Items`, `OneOf`, `Discriminator`, `Plain`, and the own fields, none of which
holds a `TypeSpec`. -/
def renamePropertySpec (p : PropertySpec) : Option PropertySpec :=
  Option.bind (renameTypeSpec pkg modMap p.toTypeSpec) fun t =>
  Option.bind (renameTypeSpecPtr pkg modMap t.AdditionalProperties) fun additionalProperties =>
  Option.bind (renameTypeSpecPtr pkg modMap t.Items) fun items =>
  Option.bind (renameTypeSpecs pkg modMap t.OneOf) fun oneOf =>
  some { p with toTypeSpec :=
    { t with AdditionalProperties := additionalProperties, Items := items, OneOf := oneOf } }

/-- The walk `rename` at a `schema.ObjectTypeSpec`: of its fields only
`Properties` holds a `TypeSpec`. -/
def renameObjectTypeSpec (o : ObjectTypeSpec) : Option ObjectTypeSpec :=
  Option.bind (renameMap (renamePropertySpec pkg modMap) o.Properties) fun properties =>
  some { o with Properties := properties }

/-- The walk `rename` at a `*schema.ObjectTypeSpec`. -/
def renameObjectTypeSpecPtr : Option ObjectTypeSpec → Option (Option ObjectTypeSpec)
  | none => some none
  | some o => Option.bind (renameObjectTypeSpec pkg modMap o) fun o' => some (some o')

/-- The walk `rename` at a `schema.ComplexTypeSpec`.  The visible fields are the
embedded `ObjectTypeSpec`, its promoted fields (of which `Properties` is walked
again) and `Enum`. -/
def renameComplexTypeSpec (c : ComplexTypeSpec) : Option ComplexTypeSpec :=
  Option.bind (renameObjectTypeSpec pkg modMap c.toObjectTypeSpec) fun o =>
  Option.bind (renameMap (renamePropertySpec pkg modMap) o.Properties) fun properties =>
  some { c with toObjectTypeSpec := { o with Properties := properties } }

/-- The walk `rename` at a `schema.ResourceSpec`.  The visible fields are the
embedded `ObjectTypeSpec`, its promoted fields (of which `Properties` is walked
again), `InputProperties`, `StateInputs` and fields that hold no `TypeSpec`. -/
def renameResourceSpec (r : ResourceSpec) : Option ResourceSpec :=
  Option.bind (renameObjectTypeSpec pkg modMap r.toObjectTypeSpec) fun o =>
  Option.bind (renameMap (renamePropertySpec pkg modMap) o.Properties) fun properties =>
  Option.bind (renameMap (renamePropertySpec pkg modMap) r.InputProperties) fun inputProperties =>
  Option.bind (renameObjectTypeSpecPtr pkg modMap r.StateInputs) fun stateInputs =>
  some { r with
    toObjectTypeSpec := { o with Properties := properties },
    InputProperties := inputProperties,
    StateInputs := stateInputs }

/-- The walk `rename` at a `schema.FunctionSpec`: `Inputs` and `Outputs` hold
the type-specs. -/
def renameFunctionSpec (f : FunctionSpec) : Option FunctionSpec :=
  Option.bind (renameObjectTypeSpecPtr pkg modMap f.Inputs) fun inputs =>
  Option.bind (renameObjectTypeSpecPtr pkg modMap f.Outputs) fun outputs =>
  some { f with Inputs := inputs, Outputs := outputs }

end rename

/-- The types at which the code instantiates `renamePackage[T any]`. -/
class Renamable (T : Type) where
  /-- The closure `rename` at a value of type `T`. -/
  rename : Str → ModMap → T → Option T

instance : Renamable ComplexTypeSpec := ⟨renameComplexTypeSpec⟩
instance : Renamable ResourceSpec := ⟨renameResourceSpec⟩
instance : Renamable FunctionSpec := ⟨renameFunctionSpec⟩

/-- The zero value of `schema.ComplexTypeSpec`. -/
instance : Inhabited ComplexTypeSpec := ⟨{}⟩
/-- The zero value of `schema.ResourceSpec`. -/
instance : Inhabited ResourceSpec := ⟨{}⟩
/-- The zero value of `schema.FunctionSpec`. -/
instance : Inhabited FunctionSpec := ⟨{}⟩

/-- The function `renamePackage` (schema.go, lines 305-348). -/
def renamePackage {T : Type} [Renamable T] (typ : T) (pkg : Str) (modMap : ModMap) : Option T :=
  Renamable.rename pkg modMap typ

/-! ## The rewrite that the specification describes

Every reference string of every type-spec node is replaced by
`fixReference` of it, once, and nothing else is changed.  A `TypeSpec` embeds no
struct, so `renameTypeSpec` reaches each of its nodes once and serves here too. -/

section rewrite

variable (pkg : Str) (modMap : ModMap)

/-- The rewrite of a property: the references of its type-spec. -/
def rewritePropertySpec (p : PropertySpec) : Option PropertySpec :=
  Option.bind (renameTypeSpec pkg modMap p.toTypeSpec) fun t => some { p with toTypeSpec := t }

/-- The rewrite of an object: the references of its properties, under the same keys. -/
def rewriteObjectTypeSpec (o : ObjectTypeSpec) : Option ObjectTypeSpec :=
  Option.bind (renameMap (rewritePropertySpec pkg modMap) o.Properties) fun properties =>
  some { o with Properties := properties }

/-- The rewrite of an optional object. -/
def rewriteObjectTypeSpecPtr : Option ObjectTypeSpec → Option (Option ObjectTypeSpec)
  | none => some none
  | some o => Option.bind (rewriteObjectTypeSpec pkg modMap o) fun o' => some (some o')

/-- The rewrite of a complex type. -/
def rewriteComplexTypeSpec (c : ComplexTypeSpec) : Option ComplexTypeSpec :=
  Option.bind (rewriteObjectTypeSpec pkg modMap c.toObjectTypeSpec) fun o =>
  some { c with toObjectTypeSpec := o }

/-- The rewrite of a resource. -/
def rewriteResourceSpec (r : ResourceSpec) : Option ResourceSpec :=
  Option.bind (rewriteObjectTypeSpec pkg modMap r.toObjectTypeSpec) fun o =>
  Option.bind (renameMap (rewritePropertySpec pkg modMap) r.InputProperties)
    fun inputProperties =>
  Option.bind (rewriteObjectTypeSpecPtr pkg modMap r.StateInputs) fun stateInputs =>
  some { r with
    toObjectTypeSpec := o, InputProperties := inputProperties, StateInputs := stateInputs }

/-- The rewrite of a function. -/
def rewriteFunctionSpec (f : FunctionSpec) : Option FunctionSpec :=
  Option.bind (rewriteObjectTypeSpecPtr pkg modMap f.Inputs) fun inputs =>
  Option.bind (rewriteObjectTypeSpecPtr pkg modMap f.Outputs) fun outputs =>
  some { f with Inputs := inputs, Outputs := outputs }

/-- The references that the rewriter returns are left as they are by the
rewriter. -/
def RewriterIdempotent : Prop :=
  ∀ ref ref', fixReference ref pkg modMap = some ref' → fixReference ref' pkg modMap = some ref'

/-- The references that the rewriter returns are left as they are by the
rewriter whenever it returns on them. -/
def RewriterStable : Prop :=
  ∀ ref ref' ref'', fixReference ref pkg modMap = some ref' →
    fixReference ref' pkg modMap = some ref'' → ref'' = ref'

end rewrite

/-! ## Contributors and the derivative type collector -/

/-- The type `RegisterDerivativeType` (schema.go, lines 30-34).  The Go value
is a closure; `σ` is the state that it captures and updates. -/
abbrev RegisterDerivativeType (σ : Type) := Str → ComplexTypeSpec → σ → Option (Bool × σ)

/-- A run of `GetSchema(reg)` of a contributor, as seen from the builder: the
contributor returns its fragment or an error, or it calls `reg` and goes on
from the boolean it gets back. -/
inductive Extract (S : Type) where
  | result (r : Except Str S)
  | register (tk : Str) (typ : ComplexTypeSpec) (next : Bool → Extract S)

/-- The interfaces `Resource`, `Function` and `canGetSchema[T]` (schema.go,
lines 36-44 and 242-245); a Go `error` is its message. -/
structure Contributor (S : Type) where
  GetToken : Except Str Str
  GetSchema : Extract S

/-- The call `f.GetSchema(reg)` with the captured state of `reg` passed along. -/
def Extract.run {S σ : Type} (reg : RegisterDerivativeType σ) :
    Extract S → σ → Option (Except Str S × σ)
  | .result r, st => some (r, st)
  | .register tk typ next, st =>
    Option.bind (reg tk typ st) fun (unknown, st') => Extract.run reg (next unknown) st'

/-- The mapping `pkg.Types`. -/
abbrev Types := GoMap ComplexTypeSpec

/-- The closure `registerDerivative` of `generateSchema` (schema.go, lines
210-218); the captured `pkg.Types` is the state. -/
def registerDerivative (pkgName : Str) (moduleMap : ModMap) : RegisterDerivativeType Types :=
  fun tk t types =>
    Option.bind (assignTo tk pkgName moduleMap) fun tkString =>
    match types.get tkString with
    | some _ => some (false, types)
    | none =>
      Option.bind (renamePackage t pkgName moduleMap) fun t' =>
      some (true, types.set tkString t')

/-- A sequence of calls `reg(tk, t)` made during one generation, the captured
state passed from each call to the next. -/
def registerAll {σ : Type} (reg : RegisterDerivativeType σ) :
    List (Str × ComplexTypeSpec) → σ → Option σ
  | [], st => some st
  | (tk, t) :: calls, st =>
    Option.bind (reg tk t st) fun (_, st') => registerAll reg calls st'

/-! ### The collector on definitions that share their objects

A `schema.ComplexTypeSpec` is a struct and is copied when it is passed to the
callback, when `renamePackage` takes and returns it and when it is stored in
`pkg.Types`.  Its member `Properties` is a Go map, and the type-specs below a
property are reached through pointers and slices: a copy of the struct refers
to the same map, pointees and backing arrays.  The walk `rename` writes every
rewritten reference into these objects (`v.SetMapIndex` at line 340 for a
property, `field.SetString` at line 320 for a type-spec behind a pointer or in
a slice) and changes no member of the struct itself.  So after
`renamePackage(t, pkg, modMap)` every copy of `t` reads as the value returned,
and the entry stored at line 216 reads as whatever these objects hold later on.

`registerDerivative` above takes each definition as a value of its own: it is
the callback on definitions that share no object.  The definitions below keep
the objects in a store and hand a definition over by the address of its
objects, so that one definition can be handed over more than once. -/

/-- The objects of the definitions of the contributors: at each address, the
value that every copy of the definition with these objects reads as. -/
abbrev Store := List ComplexTypeSpec

/-- The closure `registerDerivative` of `generateSchema` (schema.go, lines
210-218) on a definition handed over by the address of its objects.  The state
is the store and the captured `pkg.Types`, which holds under each key the
address of the objects of the definition stored there.  The walk of line 216
writes into the objects at the address; an address outside the store is no
definition (`none`). -/
def registerDerivativeAt (pkgName : Str) (moduleMap : ModMap) (tk : Str) (addr : Nat)
    (st : Store × GoMap Nat) : Option (Bool × (Store × GoMap Nat)) :=
  Option.bind (assignTo tk pkgName moduleMap) fun tkString =>
  match st.2.get tkString with
  | some _ => some (false, st)
  | none =>
    Option.bind (List.get? st.1 addr) fun t =>
    Option.bind (renamePackage t pkgName moduleMap) fun t' =>
    some (true, (List.set st.1 addr t', st.2.set tkString addr))

/-- The mapping `pkg.Types` as it reads: under each key, the value of the
objects of the definition stored there. -/
def readTypes (st : Store × GoMap Nat) : GoMap (Option ComplexTypeSpec) :=
  st.2.map fun kv => (kv.1, List.get? st.1 kv.2)

/-- The error `fmt.Errorf("failed to get schema for '%s': %w", tk, err)`. -/
def failedToGetSchema (tk err : Str) : Str :=
  "failed to get schema for '".toList ++ tk ++ "': ".toList ++ err

/-- The function `addElement` (schema.go, lines 262-275): the token, the
element and the error that it returns, and the state of `reg` afterwards. -/
def addElement {S σ : Type} [Renamable S] [Inhabited S] (pkgName : Str)
    (reg : RegisterDerivativeType σ) (modMap : ModMap) (f : Contributor S) (st : σ) :
    Option ((Str × S × Option Str) × σ) :=
  match f.GetToken with
  | .error err => some (([], default, some err), st)
  | .ok tk =>
    Option.bind (assignTo tk pkgName modMap) fun tk =>
    Option.bind (f.GetSchema.run reg st) fun (r, st') =>
    match r with
    | .error err => some (([], default, some (failedToGetSchema tk err)), st')
    | .ok fn =>
      Option.bind (renamePackage fn pkgName modMap) fun element =>
      some ((tk, element, none), st')

/-- The loop of `addElements`, from the values of `errs.Errors` and `m` at the
head of an iteration. -/
def addElementsLoop {S σ : Type} [Renamable S] [Inhabited S] (pkgName : Str)
    (reg : RegisterDerivativeType σ) (modMap : ModMap) :
    List (Contributor S) → List Str → GoMap S → σ → Option (List Str × GoMap S × σ)
  | [], errs, m, st => some (errs, m, st)
  | f :: els, errs, m, st =>
    Option.bind (addElement pkgName reg modMap f st) fun ((tk, element, err), st') =>
    match err with
    | some err => addElementsLoop pkgName reg modMap els (errs ++ [err]) m st'
    | none => addElementsLoop pkgName reg modMap els errs (m.set tk element) st'

/-- The function `addElements` (schema.go, lines 247-260): the errors of the
compound error that it returns, the mapping `m` and the state of `reg`
afterwards. -/
def addElements {S σ : Type} [Renamable S] [Inhabited S] (els : List (Contributor S))
    (m : GoMap S) (pkgName : Str) (reg : RegisterDerivativeType σ) (modMap : ModMap) (st : σ) :
    Option (List Str × GoMap S × σ) :=
  addElementsLoop pkgName reg modMap els [] m st

/-- The calls of `addElement` that the loop of `addElements` makes, one for
each contributor in list order: what each call returned, and the state of `reg`
after the last call. -/
def addElementCalls {S σ : Type} [Renamable S] [Inhabited S] (pkgName : Str)
    (reg : RegisterDerivativeType σ) (modMap : ModMap) :
    List (Contributor S) → σ → Option (List (Str × S × Option Str) × σ)
  | [], st => some ([], st)
  | f :: els, st =>
    Option.bind (addElement pkgName reg modMap f st) fun (out, st') =>
    Option.bind (addElementCalls pkgName reg modMap els st') fun (outs, st'') =>
    some (out :: outs, st'')

/-- The errors of the calls of `addElement` that returned one, in order. -/
def callErrors {S : Type} (outs : List (Str × S × Option Str)) : List Str :=
  outs.filterMap fun out => out.2.2

/-- The assignments `m[tk.String()] = element` for the calls of `addElement`
that returned a nil error, in order. -/
def callInserts {S : Type} (m : GoMap S) (outs : List (Str × S × Option Str)) : GoMap S :=
  outs.foldl (fun m out =>
    match out.2.2 with
    | none => m.set out.1 out.2.1
    | some _ => m) m

/-! ## The builder `Provider` -/

/-- The struct `Provider` (schema.go, lines 46-71).  The embedded `p.Provider`,
the provider that is wrapped, plays no part in the schema and is left out. -/
structure Provider where
  resources : List (Contributor ResourceSpec) := []
  invokes : List (Contributor FunctionSpec) := []
  provider : Option (Contributor ResourceSpec) := none
  schema : Str := []
  languages : GoMap Iface := []
  description : Str := []
  displayName : Str := []
  keywords : List Str := []
  homepage : Str := []
  repository : Str := []
  publisher : Str := []
  logoURL : Str := []
  license : Str := []
  pluginDownloadURL : Str := []
  moduleMap : ModMap := []

/-- The function `Wrap` (schema.go, lines 73-82). -/
def Wrap : Provider := { moduleMap := [], languages := [] }

/-- The loop `for k, v := range src { dst[k] = v }`. -/
def mergeInto {V : Type} (dst src : GoMap V) : GoMap V :=
  src.foldl (fun d kv => d.set kv.1 kv.2) dst

namespace Provider

/-- The method `WithResources` (schema.go, lines 84-88). -/
def WithResources (s : Provider) (resources : List (Contributor ResourceSpec)) : Provider :=
  { s with schema := [], resources := s.resources ++ resources }

/-- The method `WithInvokes` (schema.go, lines 90-94). -/
def WithInvokes (s : Provider) (invokes : List (Contributor FunctionSpec)) : Provider :=
  { s with schema := [], invokes := s.invokes ++ invokes }

/-- The method `WithModuleMap` (schema.go, lines 96-101). -/
def WithModuleMap (s : Provider) (m : ModMap) : Provider :=
  { s with moduleMap := mergeInto s.moduleMap m }

/-- The method `WithProviderResource` (schema.go, lines 103-107); a nil
interface value is `none`. -/
def WithProviderResource (s : Provider) (provider : Option (Contributor ResourceSpec)) :
    Provider :=
  { s with schema := [], provider := provider }

/-- The method `WithLanguageMap` (schema.go, lines 109-115). -/
def WithLanguageMap (s : Provider) (languages : GoMap Iface) : Provider :=
  { s with schema := [], languages := mergeInto s.languages languages }

/-- The method `WithDescription` (schema.go, lines 117-121). -/
def WithDescription (s : Provider) (description : Str) : Provider :=
  { s with schema := [], description := description }

/-- The method `WithLicense` (schema.go, lines 123-127). -/
def WithLicense (s : Provider) (license : Str) : Provider :=
  { s with schema := [], license := license }

/-- The method `WithPluginDownloadURL` (schema.go, lines 129-133). -/
def WithPluginDownloadURL (s : Provider) (pluginDownloadURL : Str) : Provider :=
  { s with schema := [], pluginDownloadURL := pluginDownloadURL }

/-- The method `WithDisplayName` (schema.go, lines 135-139). -/
def WithDisplayName (s : Provider) (name : Str) : Provider :=
  { s with schema := [], displayName := name }

/-- The method `WithKeywords` (schema.go, lines 141-145). -/
def WithKeywords (s : Provider) (keywords : List Str) : Provider :=
  { s with schema := [], keywords := s.keywords ++ keywords }

/-- The method `WithHomepage` (schema.go, lines 147-151). -/
def WithHomepage (s : Provider) (homepage : Str) : Provider :=
  { s with schema := [], homepage := homepage }

/-- The method `WithRepository` (schema.go, lines 153-157). -/
def WithRepository (s : Provider) (repoURL : Str) : Provider :=
  { s with schema := [], repository := repoURL }

/-- The method `WithPublisher` (schema.go, lines 159-163). -/
def WithPublisher (s : Provider) (publisher : Str) : Provider :=
  { s with schema := [], publisher := publisher }

/-- The method `WithLogoURL` (schema.go, lines 165-169). -/
def WithLogoURL (s : Provider) (logoURL : Str) : Provider :=
  { s with schema := [], logoURL := logoURL }

end Provider

/-- The members of `schema.PackageSpec` that `generateSchema` fills. -/
structure PackageSpec where
  Name : Str := []
  Version : Str := []
  DisplayName : Str := []
  Description : Str := []
  Keywords : List Str := []
  Homepage : Str := []
  Repository : Str := []
  Publisher : Str := []
  LogoURL : Str := []
  License : Str := []
  PluginDownloadURL : Str := []
  Provider : ResourceSpec := {}
  Resources : GoMap ResourceSpec := []
  Functions : GoMap FunctionSpec := []
  Types : GoMap ComplexTypeSpec := []
  Language : GoMap RawMessage := []

/-- The value of `ctx.RuntimeInformation()`. -/
structure RunInfo where
  PackageName : Str
  Version : Str

/-- The function `json.Marshal` at the two types it is called with. -/
structure Encoder where
  marshalAny : Iface → Except Str RawMessage
  marshalPackage : PackageSpec → Except Str Str

/-- The errors that `generateSchema` returns: an error of `json.Marshal`, or
the compound `*multierror.Error` with its list `Errors`. -/
inductive GenError where
  | marshal (err : Str)
  | compound (errors : List Str)
deriving DecidableEq

/-- The loop over `s.languages` in `generateSchema` (schema.go, lines 203-209). -/
def marshalLanguages (enc : Encoder) : GoMap Iface → GoMap RawMessage →
    Except Str (GoMap RawMessage)
  | [], language => .ok language
  | (k, v) :: languages, language =>
    match enc.marshalAny v with
    | .error err => .error err
    | .ok bytes => marshalLanguages enc languages (language.set k bytes)

/-- The part of `generateSchema` before `errs.ErrorOrNil()` (schema.go, lines
185-230): an error of `json.Marshal`, or the errors gathered in `errs.Errors`
and the value of `pkg`. -/
def buildPackage (enc : Encoder) (info : RunInfo) (s : Provider) :
    Option (Except Str (List Str × PackageSpec)) :=
  let pkg : PackageSpec :=
    { Name := info.PackageName,
      Version := info.Version,
      DisplayName := s.displayName,
      Description := s.description,
      Keywords := s.keywords,
      Homepage := s.homepage,
      Repository := s.repository,
      Publisher := s.publisher,
      LogoURL := s.logoURL,
      License := s.license,
      PluginDownloadURL := s.pluginDownloadURL,
      Resources := [],
      Functions := [],
      Types := [],
      Language := [] }
  match marshalLanguages enc s.languages pkg.Language with
  | .error err => some (.error err)
  | .ok language =>
    let registerDerivative := registerDerivative info.PackageName s.moduleMap
    Option.bind (addElements s.resources pkg.Resources info.PackageName registerDerivative
      s.moduleMap pkg.Types) fun (errs, resources, types) =>
    Option.bind (addElements s.invokes pkg.Functions info.PackageName registerDerivative
      s.moduleMap types) fun (e, functions, types) =>
    let errs := errs ++ e
    match s.provider with
    | none =>
      some (.ok (errs, { pkg with
        Language := language, Resources := resources, Functions := functions, Types := types }))
    | some provider =>
      Option.bind (addElement info.PackageName registerDerivative s.moduleMap provider types)
        fun ((_, prov, err), types) =>
      let errs := match err with
        | some err => errs ++ [err]
        | none => errs
      some (.ok (errs, { pkg with
        Language := language, Resources := resources, Functions := functions, Types := types,
        Provider := prov }))

namespace Provider

/-- The method `generateSchema` (schema.go, lines 184-240): the error that it
returns (`none` for nil) and the builder afterwards. -/
def generateSchema (enc : Encoder) (info : RunInfo) (s : Provider) :
    Option (Option GenError × Provider) :=
  Option.bind (buildPackage enc info s) fun r =>
  match r with
  | .error err => some (some (.marshal err), s)
  | .ok (errs, pkg) =>
    if errs.length ≠ 0 then some (some (.compound errs), s)
    else
      match enc.marshalPackage pkg with
      | .error err => some (some (.marshal err), s)
      | .ok bytes => some (none, { s with schema := bytes })

/-- The method `GetSchema` (schema.go, lines 171-181): the response or the
error, and the builder afterwards. -/
def GetSchema (enc : Encoder) (info : RunInfo) (s : Provider) :
    Option (Except GenError Str × Provider) :=
  if s.schema = [] then
    Option.bind (generateSchema enc info s) fun (err, s') =>
    match err with
    | some err => some (.error err, s')
    | none => some (.ok s'.schema, s')
  else some (.ok s.schema, s)

end Provider

/-- The calls of `addElement` that `generateSchema` makes: for the resources,
for the invokes, and for the provider resource when there is one; and the types
mapping after the last call. -/
def harvestCalls (info : RunInfo) (s : Provider) :
    Option (List (Str × ResourceSpec × Option Str) × List (Str × FunctionSpec × Option Str) ×
      Option (Str × ResourceSpec × Option Str) × Types) :=
  let registerDerivative := registerDerivative info.PackageName s.moduleMap
  Option.bind (addElementCalls info.PackageName registerDerivative s.moduleMap s.resources [])
    fun (resources, types) =>
  Option.bind (addElementCalls info.PackageName registerDerivative s.moduleMap s.invokes types)
    fun (invokes, types) =>
  match s.provider with
  | none => some (resources, invokes, none, types)
  | some provider =>
    Option.bind (addElement info.PackageName registerDerivative s.moduleMap provider types)
      fun (out, types) => some (resources, invokes, some out, types)

/-- The errors of the calls of `addElement` that `generateSchema` makes. -/
def harvestErrors
    (h : List (Str × ResourceSpec × Option Str) × List (Str × FunctionSpec × Option Str) ×
      Option (Str × ResourceSpec × Option Str) × Types) : List Str :=
  callErrors h.1 ++ callErrors h.2.1 ++
    match h.2.2.1 with
    | some out => out.2.2.toList
    | none => []

/-! ## The namespace remap scenario

The module map is `{vpc: networking}` and the package is `pkg`.  The resource
contributor `pkg:vpc:Subnet` registers the type `pkg:vpc:CidrBlock` and returns
a fragment whose property `cidrBlock` refers to `#/types/pkg:vpc:CidrBlock`. -/

/-- The module map of the scenario. -/
def scenarioModuleMap : ModMap := [("vpc".toList, "networking".toList)]

/-- The type definition that the contributor of the scenario registers. -/
def scenarioCidrBlock : ComplexTypeSpec := { Typ := "object".toList }

/-- The fragment that the contributor of the scenario returns. -/
def scenarioSubnetSpec : ResourceSpec :=
  { Properties := [("cidrBlock".toList, { Ref := "#/types/pkg:vpc:CidrBlock".toList })] }

/-- The resource contributor of the scenario. -/
def scenarioSubnet : Contributor ResourceSpec :=
  { GetToken := .ok "pkg:vpc:Subnet".toList,
    GetSchema := .register "pkg:vpc:CidrBlock".toList scenarioCidrBlock
      fun _ => .result (.ok scenarioSubnetSpec) }

/-- The builder of the scenario. -/
def scenarioProvider : Provider :=
  (Wrap.WithModuleMap scenarioModuleMap).WithResources [scenarioSubnet]

/-- The runtime information of the scenario. -/
def scenarioInfo : RunInfo := ⟨"pkg".toList, "1.0.0".toList⟩

/-- An encoder for the scenario: the document lists the name of the package and
the keys of its resources and types. -/
def scenarioEncoder : Encoder :=
  { marshalAny := fun _ => .ok "null".toList,
    marshalPackage := fun pkg => .ok (pkg.Name ++ " resources".toList ++
      pkg.Resources.keys.foldr (fun k acc => ' ' :: k ++ acc) [] ++ " types".toList ++
      pkg.Types.keys.foldr (fun k acc => ' ' :: k ++ acc) []) }

/-- A resource contributor whose `GetToken` fails. -/
def scenarioNoToken : Contributor ResourceSpec :=
  { GetToken := .error "no token".toList,
    GetSchema := .result (.ok {}) }

/-- A resource contributor whose `GetSchema` fails after it registered a type. -/
def scenarioNoSchema : Contributor ResourceSpec :=
  { GetToken := .ok "pkg:vpc:Gateway".toList,
    GetSchema := .register "pkg:vpc:Route".toList {}
      fun _ => .result (.error "no schema".toList) }

/-- A second resource contributor with the token of `scenarioSubnet`, whose
fragment has the description `second`. -/
def scenarioSubnetAgain : Contributor ResourceSpec :=
  { GetToken := .ok "pkg:vpc:Subnet".toList,
    GetSchema := .result (.ok { Description := "second".toList }) }

/-- The builder of the scenario with the failing contributor added after the
subnet. -/
def scenarioFailingProvider : Provider :=
  scenarioProvider.WithResources [scenarioNoSchema]

/-- A module map with a chain: `a` to `b`, `b` to `c`, `c` to `d`, `d` to `e`. -/
def chainModuleMap : ModMap :=
  [("a".toList, "b".toList), ("b".toList, "c".toList), ("c".toList, "d".toList),
    ("d".toList, "e".toList)]

/-- A definition with one property, which refers to the type `pkg:a:T`. -/
def sharedDefinition : ComplexTypeSpec :=
  { Properties := [("item".toList, { Ref := "#/types/pkg:a:T".toList })] }

/-- The reference strings of the properties of an object. -/
def propertyRefs (properties : GoMap PropertySpec) : GoMap Str :=
  properties.map fun kv => (kv.1, kv.2.Ref)

/-! ## References of a document -/

mutual
/-- The reference strings of a type-spec and of the type-specs below it. -/
def refsTypeSpec : TypeSpec → List Str
  | ⟨_, ref, additionalProperties, items, oneOf, _, _⟩ =>
    ref :: (refsTypeSpecPtr additionalProperties ++ (refsTypeSpecPtr items ++
      refsTypeSpecs oneOf))
/-- The reference strings below an optional type-spec. -/
def refsTypeSpecPtr : Option TypeSpec → List Str
  | none => []
  | some t => refsTypeSpec t
/-- The reference strings below a sequence of type-specs. -/
def refsTypeSpecs : List TypeSpec → List Str
  | [] => []
  | t :: ts => refsTypeSpec t ++ refsTypeSpecs ts
end

/-- The reference strings of the values of a mapping of properties. -/
def refsProperties : GoMap PropertySpec → List Str
  | [] => []
  | (_, p) :: ps => refsTypeSpec p.toTypeSpec ++ refsProperties ps

/-- The reference strings of an object. -/
def refsObjectTypeSpec (o : ObjectTypeSpec) : List Str := refsProperties o.Properties

/-- The reference strings of an optional object. -/
def refsObjectTypeSpecPtr : Option ObjectTypeSpec → List Str
  | none => []
  | some o => refsObjectTypeSpec o

/-- The types of fragment, with the reference strings of a fragment. -/
class HasRefs (T : Type) where
  /-- The reference strings of the type-spec nodes of a fragment. -/
  refs : T → List Str

instance : HasRefs ComplexTypeSpec := ⟨fun c => refsObjectTypeSpec c.toObjectTypeSpec⟩
instance : HasRefs ResourceSpec :=
  ⟨fun r => refsObjectTypeSpec r.toObjectTypeSpec ++
    (refsProperties r.InputProperties ++ refsObjectTypeSpecPtr r.StateInputs)⟩
instance : HasRefs FunctionSpec :=
  ⟨fun f => refsObjectTypeSpecPtr f.Inputs ++ refsObjectTypeSpecPtr f.Outputs⟩

/-- The reference strings of the values of a mapping of fragments. -/
def refsValues {T : Type} [HasRefs T] : GoMap T → List Str
  | [] => []
  | (_, v) :: m => HasRefs.refs v ++ refsValues m

/-- The reference strings found in the resources, functions, types and provider
fragment of a document. -/
def refsPackageSpec (pkg : PackageSpec) : List Str :=
  refsValues pkg.Resources ++ (refsValues pkg.Functions ++ (refsValues pkg.Types ++
    HasRefs.refs pkg.Provider))

/-- The prefix of an internal reference to a type. -/
def typesPrefix : Str := "#/types/".toList

/-- The internal references to types among the given references point at keys
among the given ones. -/
def RefsPointInto (keys refs : List Str) : Prop :=
  ∀ ref ∈ refs, hasPrefix ref typesPrefix = true → ∃ k ∈ keys, ref = typesPrefix ++ k

/-- Every internal reference to a type found in the document points at a key of
the types mapping of the document. -/
def ReferencesClosed (pkg : PackageSpec) : Prop :=
  ∀ ref ∈ refsPackageSpec pkg, hasPrefix ref typesPrefix = true →
    ∃ k ∈ pkg.Types.keys, ref = typesPrefix ++ k

/-- The calls of the callback in a run of `GetSchema(reg)`: the token and the
definition passed, and the boolean returned. -/
def Extract.calls {S σ : Type} (reg : RegisterDerivativeType σ) :
    Extract S → σ → List (Str × ComplexTypeSpec × Bool)
  | .result _, _ => []
  | .register tk typ next, st =>
    match reg tk typ st with
    | none => []
    | some (unknown, st') => (tk, typ, unknown) :: Extract.calls reg (next unknown) st'

/-- A reference that, when it is an internal reference to a type, reads
`#/types/` followed by one of the given tokens, a type token that does not start
with a delimiter. -/
def Names (tokens : List Str) (ref : Str) : Prop :=
  hasPrefix ref typesPrefix = true →
    ∃ c rest, c ≠ TokenDelimiter ∧ HasModuleMember (c :: rest) = true ∧
      (c :: rest) ∈ tokens ∧ ref = typesPrefix ++ c :: rest

/-- A run of `GetSchema(reg)` that registers what it references: the internal
references to types in the fragment it returns, and in every definition for
which the callback returned `true`, name tokens that the run passes to the
callback. -/
def Registers {S σ : Type} [HasRefs S] (reg : RegisterDerivativeType σ) (e : Extract S) :
    Prop :=
  ∀ st r st', e.run reg st = some (r, st') →
    (∀ x, r = .ok x → ∀ ref ∈ HasRefs.refs x, Names ((e.calls reg st).map (·.1)) ref) ∧
    (∀ c ∈ e.calls reg st, c.2.2 = true →
      ∀ ref ∈ HasRefs.refs c.2.1, Names ((e.calls reg st).map (·.1)) ref)

/-- A resource contributor with the fragment of the scenario that registers no
type. -/
def scenarioUnregistered : Contributor ResourceSpec :=
  { GetToken := .ok "pkg:vpc:Subnet".toList,
    GetSchema := .result (.ok scenarioSubnetSpec) }

/-! ## The example provider (`examples/galaxy/main.go`)

The resource `Cluster` of the example, its inputs and its state.  A Go `int` is
an `Int`; the code only compares the worker counts.  The parameters `ctx` and
`id` of the methods are not used by them and are left out. -/

/-- The struct `ClusterArgs` (main.go, lines 51-56). -/
structure ClusterArgs where
  Name : Str := []
  CloudRegionId : Str := []
  MinWorkers : Int := 0
  MaxWorkers : Int := 0
deriving DecidableEq

/-- The struct `ClusterState` (main.go, lines 65-68); it embeds `ClusterArgs`. -/
structure ClusterState extends ClusterArgs where
  ClusterId : Str := []
deriving DecidableEq

/-- The type `p.DiffKind` of the provider library. -/
inductive DiffKind where
  | Add
  | AddReplace
  | Delete
  | DeleteReplace
  | Update
  | UpdateReplace
deriving DecidableEq

/-- The struct `p.PropertyDiff` of the provider library. -/
structure PropertyDiff where
  Kind : DiffKind
  InputDiff : Bool := false
deriving DecidableEq

/-- The struct `p.DiffResponse` of the provider library. -/
structure DiffResponse where
  DeleteBeforeReplace : Bool := false
  HasChanges : Bool := false
  DetailedDiff : GoMap PropertyDiff := []
deriving DecidableEq

/-- The method `Cluster.Diff` (main.go, lines 161-180): the response and the
error (`none` for nil). -/
def Cluster.Diff (olds : ClusterState) (news : ClusterArgs) : DiffResponse × Option Str :=
  let diff : GoMap PropertyDiff := []
  let diff := if news.Name ≠ olds.Name then diff.set "name".toList { Kind := .Update } else diff
  let diff := if news.CloudRegionId ≠ olds.CloudRegionId then
    diff.set "cloudRegionId".toList { Kind := .Update } else diff
  let diff := if news.MinWorkers ≠ olds.MinWorkers then
    diff.set "minWorkers".toList { Kind := .Update } else diff
  let diff := if news.MaxWorkers ≠ olds.MaxWorkers then
    diff.set "maxWorkers".toList { Kind := .Update } else diff
  ({ DeleteBeforeReplace := false,
     HasChanges := decide (diff.length > 0),
     DetailedDiff := diff }, none)

/-- A request built by `http.NewRequest`. -/
structure Request where
  Method : Str
  URL : Str
  Body : Str
deriving DecidableEq

/-- The struct `ExistingGalaxyCluster` (main.go, lines 208-218), of which only
`ClusterId` is read. -/
structure ExistingGalaxyCluster where
  ClusterId : Str := []
deriving DecidableEq

/-- What `Cluster.Update` calls outside itself: `toGalaxyClusterJson`,
`http.NewRequest`, `callGalaxy` (`none` when it panics) and `json.Unmarshal`
into an `ExistingGalaxyCluster`. -/
structure Remote where
  toGalaxyClusterJson : ClusterArgs → Except Str Str
  newRequest : Str → Str → Str → Except Str Request
  callGalaxy : Request → Option (Except Str Str)
  unmarshal : Str → Except Str ExistingGalaxyCluster

/-- The address of the cluster resource of the remote interface. -/
def clusterURL : Str :=
  "https://starbursttelemetry.galaxy.starburst.io/public/api/v1/cluster/".toList

/-- The method `Cluster.Update` (main.go, lines 126-159): the requests passed to
`callGalaxy`, and the state and error returned (`none` when the method
panics). -/
def Cluster.Update (remote : Remote) (olds : ClusterState) (news : ClusterArgs)
    (preview : Bool) : List Request × Option (ClusterState × Option Str) :=
  if !preview && olds.toClusterArgs ≠ news then
    match remote.toGalaxyClusterJson news with
    | .error _ => ([], none)
    | .ok jsonPayload =>
      match remote.newRequest "PATCH".toList (clusterURL ++ olds.ClusterId) jsonPayload with
      | .error _ => ([], none)
      | .ok req =>
        match remote.callGalaxy req with
        | none => ([req], none)
        | some (.error _) => ([req], none)
        | some (.ok resp) =>
          match remote.unmarshal resp with
          | .error _ => ([req], none)
          | .ok createdCluster =>
            ([req], some ({ toClusterArgs := news, ClusterId := createdCluster.ClusterId }, none))
  else ([], some ({}, none))

/-! ## Lemmas on Go maps -/

namespace GoMap

variable {V : Type}

theorem get_set_self (m : GoMap V) (k : Str) (v : V) : (m.set k v).get k = some v := by
  induction m with
  | nil => simp [GoMap.set, GoMap.get]
  | cons e m ih =>
    obtain ⟨k', v'⟩ := e
    by_cases h : k' = k
    · simp [GoMap.set, GoMap.get, h]
    · simp [GoMap.set, GoMap.get, h, ih]

theorem get_set_ne (m : GoMap V) {k k' : Str} (v : V) (h : k' ≠ k) :
    (m.set k v).get k' = m.get k' := by
  induction m with
  | nil => simp [GoMap.set, GoMap.get, Ne.symm h]
  | cons e m ih =>
    obtain ⟨k1, v1⟩ := e
    by_cases h1 : k1 = k
    · subst h1
      simp [GoMap.set, GoMap.get, Ne.symm h]
    · by_cases h2 : k1 = k'
      · subst h2
        simp [GoMap.set, GoMap.get, h1]
      · simp [GoMap.set, GoMap.get, h1, h2, ih]

theorem get_eq_none_iff (m : GoMap V) (k : Str) : m.get k = none ↔ k ∉ m.keys := by
  induction m with
  | nil => simp [GoMap.get, GoMap.keys]
  | cons e m ih =>
    obtain ⟨k1, v1⟩ := e
    simp only [GoMap.keys] at ih
    by_cases h1 : k1 = k
    · subst h1
      simp only [GoMap.get, GoMap.keys, if_true, List.map_cons, List.mem_cons, true_or,
        not_true_eq_false, iff_false]
      exact fun h => Option.noConfusion h
    · have h2 : ¬ k = k1 := fun h => h1 h.symm
      simp only [GoMap.get, GoMap.keys, h1, if_false, List.map_cons, List.mem_cons, h2,
        false_or]
      exact ih

theorem keys_set_of_get_none (m : GoMap V) {k : Str} (v : V) (h : m.get k = none) :
    (m.set k v).keys = m.keys ++ [k] := by
  induction m with
  | nil => simp [GoMap.set, GoMap.keys]
  | cons e m ih =>
    obtain ⟨k1, v1⟩ := e
    by_cases h1 : k1 = k
    · simp [GoMap.get, h1] at h
    · simp only [GoMap.get, h1, if_false] at h
      have := ih h
      simp only [GoMap.keys] at this
      simp [GoMap.set, GoMap.keys, h1, this]

theorem keys_set_of_get_some (m : GoMap V) {k : Str} (v : V) {w : V} (h : m.get k = some w) :
    (m.set k v).keys = m.keys := by
  induction m with
  | nil => simp [GoMap.get] at h
  | cons e m ih =>
    obtain ⟨k1, v1⟩ := e
    by_cases h1 : k1 = k
    · simp [GoMap.set, GoMap.keys, h1]
    · simp only [GoMap.get, h1, if_false] at h
      have := ih h
      simp only [GoMap.keys] at this
      simp [GoMap.set, GoMap.keys, h1, this]

theorem mem_keys_set (m : GoMap V) (k : Str) (v : V) (k' : Str) :
    k' ∈ (m.set k v).keys ↔ k' = k ∨ k' ∈ m.keys := by
  cases h : m.get k with
  | none =>
    rw [keys_set_of_get_none m v h]
    simp [or_comm]
  | some w =>
    rw [keys_set_of_get_some m v h]
    constructor
    · exact Or.inr
    · rintro (rfl | h')
      · by_contra hc
        rw [← get_eq_none_iff, h] at hc
        exact Option.noConfusion hc
      · exact h'

theorem nodup_keys_set (m : GoMap V) (k : Str) (v : V) (h : m.keys.Nodup) :
    (m.set k v).keys.Nodup := by
  cases hk : m.get k with
  | none =>
    rw [keys_set_of_get_none m v hk]
    have hk' := (get_eq_none_iff m k).1 hk
    refine List.Nodup.append h (List.nodup_singleton k) ?_
    intro a ha hb
    rw [List.mem_singleton] at hb
    exact hk' (hb ▸ ha)
  | some w =>
    rw [keys_set_of_get_some m v hk]
    exact h

end GoMap

/-! ## Lemmas on tokens -/

theorem not_mem_beforeDelimiter (tok : Str) : TokenDelimiter ∉ beforeDelimiter tok := by
  induction tok with
  | nil => simp [beforeDelimiter]
  | cons c tok ih =>
    by_cases h : c = TokenDelimiter
    · simp [beforeDelimiter, h]
    · simp [beforeDelimiter, h, ih, Ne.symm h]

theorem beforeDelimiter_append (p r : Str) (hp : TokenDelimiter ∉ p) :
    beforeDelimiter (p ++ TokenDelimiter :: r) = p := by
  induction p with
  | nil => simp [beforeDelimiter]
  | cons c p ih =>
    simp only [List.mem_cons, not_or] at hp
    have hc : c ≠ TokenDelimiter := fun h => hp.1 h.symm
    simp [beforeDelimiter, hc, ih hp.2]

theorem afterDelimiter_append (p r : Str) (hp : TokenDelimiter ∉ p) :
    afterDelimiter (p ++ TokenDelimiter :: r) = r := by
  induction p with
  | nil => simp [afterDelimiter]
  | cons c p ih =>
    simp only [List.mem_cons, not_or] at hp
    have hc : c ≠ TokenDelimiter := fun h => hp.1 h.symm
    simp [afterDelimiter, hc, ih hp.2]

theorem Delimiters_append (a b : Str) : Delimiters (a ++ b) = Delimiters a + Delimiters b := by
  simp [Delimiters, List.count_append]

theorem Delimiters_cons_delimiter (r : Str) :
    Delimiters (TokenDelimiter :: r) = Delimiters r + 1 := by
  simp [Delimiters]

/-- A token splits at its first delimiter. -/
theorem split_at_delimiter (tok : Str) (h : 0 < Delimiters tok) :
    tok = beforeDelimiter tok ++ TokenDelimiter :: afterDelimiter tok := by
  induction tok with
  | nil => simp [Delimiters] at h
  | cons c tok ih =>
    by_cases hc : c = TokenDelimiter
    · simp [beforeDelimiter, afterDelimiter, hc]
    · have h' : 0 < Delimiters tok := by
        simpa [Delimiters, List.count_cons, hc] using h
      simp only [beforeDelimiter, afterDelimiter, hc, if_false, List.cons_append,
        List.cons.injEq, true_and]
      exact ih h'

theorem Delimiters_afterDelimiter (tok : Str) (h : 0 < Delimiters tok) :
    Delimiters tok = Delimiters (afterDelimiter tok) + 1 := by
  have hs := split_at_delimiter tok h
  have hb : Delimiters (beforeDelimiter tok) = 0 := by
    simpa [Delimiters, List.count_eq_zero] using not_mem_beforeDelimiter tok
  conv_lhs => rw [hs]
  rw [Delimiters_append, Delimiters_cons_delimiter, hb]
  omega

theorem isNameChar_delimiter : isNameChar TokenDelimiter = false := by decide

/-- A legal name holds no token delimiter. -/
theorem not_mem_of_isName (n : Str) (h : IsName n = true) : TokenDelimiter ∉ n := by
  intro hmem
  simp only [IsName, Bool.and_eq_true, List.all_eq_true] at h
  have hc := h.2 _ hmem
  rw [isNameChar_delimiter] at hc
  exact Bool.noConfusion hc

theorem mem_qnameSegments (c : Char) :
    ∀ s : Str, c ∈ s → c = '/' ∨ ∃ seg ∈ qnameSegments s, c ∈ seg
  | [], h => by simp at h
  | d :: s, h => by
    by_cases hd : d = '/'
    · simp only [qnameSegments, hd, if_true]
      rcases List.mem_cons.1 h with rfl | h
      · exact Or.inl hd
      · rcases mem_qnameSegments c s h with h | ⟨seg, hs, hc⟩
        · exact Or.inl h
        · exact Or.inr ⟨seg, List.mem_cons_of_mem _ hs, hc⟩
    · simp only [qnameSegments, hd, if_false]
      cases hq : qnameSegments s with
      | nil =>
        rcases List.mem_cons.1 h with rfl | h
        · exact Or.inr ⟨[c], List.mem_singleton.2 rfl, List.mem_singleton.2 rfl⟩
        · rcases mem_qnameSegments c s h with h | ⟨seg, hs, -⟩
          · exact Or.inl h
          · rw [hq] at hs
            exact absurd hs (List.not_mem_nil seg)
      | cons seg0 segs =>
        rcases List.mem_cons.1 h with rfl | h
        · exact Or.inr ⟨c :: seg0, List.mem_cons_self _ _, List.mem_cons_self _ _⟩
        · rcases mem_qnameSegments c s h with h | ⟨seg, hs, hc⟩
          · exact Or.inl h
          · rw [hq] at hs
            rcases List.mem_cons.1 hs with rfl | hs
            · exact Or.inr ⟨d :: seg, List.mem_cons_self _ _, List.mem_cons_of_mem _ hc⟩
            · exact Or.inr ⟨seg, List.mem_cons_of_mem _ hs, hc⟩

/-- A legal qualified name holds no token delimiter. -/
theorem not_mem_of_isQName (m : Str) (h : IsQName m = true) : TokenDelimiter ∉ m := by
  intro hmem
  rcases mem_qnameSegments _ m hmem with h' | ⟨seg, hs, hc⟩
  · exact absurd h' (by decide)
  · simp only [IsQName, List.all_eq_true] at h
    exact not_mem_of_isName seg (h seg hs) hc

/-- A string with a token delimiter is no legal name. -/
theorem isName_eq_false (n : Str) (h : 0 < Delimiters n) : IsName n = false := by
  cases hn : IsName n with
  | false => rfl
  | true =>
    have := not_mem_of_isName n hn
    have h0 : Delimiters n = 0 := by simpa [Delimiters, List.count_eq_zero] using this
    omega

/-- The case of `assignTo` for a token with a module member: the module name is
looked up, the two constructors check the looked-up module name and the name
and put them after the package. -/
theorem assignTo_of_hasModuleMember (tk pkg : Str) (modMap : ModMap)
    (h : HasModuleMember tk = true) :
    assignTo tk pkg modMap =
      Option.bind
        (NewModuleToken pkg
          ((modMap.get (beforeDelimiter (afterDelimiter tk))).getD
            (beforeDelimiter (afterDelimiter tk))))
        fun module' => NewTypeToken module' (afterDelimiter (afterDelimiter tk)) := by
  have h1 : 1 < Delimiters tk := by simpa [HasModuleMember] using h
  have h0 : HasModule tk = true := by simp [HasModule]; omega
  have hm : HasModule (beforeDelimiter tk ++
      TokenDelimiter :: beforeDelimiter (afterDelimiter tk)) = true := by
    simp [HasModule, Delimiters_append, Delimiters_cons_delimiter]
  simp only [assignTo, TypeModule, TypeName, ModuleName, h0, h, hm, Bool.not_true,
    if_true, Option.bind, Bool.false_eq_true, if_false]
  rw [afterDelimiter_append _ _ (not_mem_beforeDelimiter tk)]
  cases modMap.get (beforeDelimiter (afterDelimiter tk)) <;> rfl

/-- The case of `assignTo` for a token without a module member: an assertion
of the token package fails. -/
theorem assignTo_of_not_hasModuleMember (tk pkg : Str) (modMap : ModMap)
    (h : HasModuleMember tk = false) : assignTo tk pkg modMap = none := by
  by_cases h0 : HasModule tk = true
  · simp [assignTo, TypeModule, h0, h, Option.bind]
  · have h0' : HasModule tk = false := by simpa using h0
    have : HasModule ([] : Str) = false := by simp [HasModule, Delimiters]
    simp [assignTo, TypeModule, ModuleName, h0', this, Option.bind]

/-- When `assignTo` returns: the token has a module member, the looked-up module
name is a legal qualified name and the name a legal name; the result is the
package, the looked-up module name and the name. -/
theorem assignTo_eq_some (tk pkg : Str) (modMap : ModMap) (r : Str) :
    assignTo tk pkg modMap = some r ↔
      HasModuleMember tk = true ∧
      IsQName ((modMap.get (beforeDelimiter (afterDelimiter tk))).getD
        (beforeDelimiter (afterDelimiter tk))) = true ∧
      IsName (afterDelimiter (afterDelimiter tk)) = true ∧
      r = pkg ++ TokenDelimiter ::
        ((modMap.get (beforeDelimiter (afterDelimiter tk))).getD
          (beforeDelimiter (afterDelimiter tk)) ++
          TokenDelimiter :: afterDelimiter (afterDelimiter tk)) := by
  cases hmm : HasModuleMember tk with
  | false =>
    rw [assignTo_of_not_hasModuleMember tk pkg modMap hmm]
    simp
  | true =>
    rw [assignTo_of_hasModuleMember tk pkg modMap hmm]
    generalize (modMap.get (beforeDelimiter (afterDelimiter tk))).getD
      (beforeDelimiter (afterDelimiter tk)) = m'
    generalize afterDelimiter (afterDelimiter tk) = n
    cases hq : IsQName m' <;> cases hn : IsName n <;>
      simp [NewModuleToken, NewTypeToken, hq, hn, Option.bind, eq_comm]

theorem hasModuleMember_of_three (p m n : Str) :
    HasModuleMember (p ++ TokenDelimiter :: (m ++ TokenDelimiter :: n)) = true := by
  simp [HasModuleMember, Delimiters_append, Delimiters_cons_delimiter]
  omega

/-- A token with more than two delimiters has a delimiter in its name, and the
namespacer fails on it. -/
theorem assignTo_of_three_delimiters (tk pkg : Str) (modMap : ModMap)
    (h : 2 < Delimiters tk) : assignTo tk pkg modMap = none := by
  cases hr : assignTo tk pkg modMap with
  | none => rfl
  | some r =>
    obtain ⟨-, -, hn, -⟩ := (assignTo_eq_some tk pkg modMap r).1 hr
    have hd1 := Delimiters_afterDelimiter tk (by omega)
    have hd2 := Delimiters_afterDelimiter (afterDelimiter tk) (by omega)
    rw [isName_eq_false _ (by omega)] at hn
    exact Bool.noConfusion hn

/-- The token of the package, a module name and a name, when the names are
legal: it is namespaced to itself for a package name without a delimiter and a
module name that the map leaves as it is, and the namespacer fails on it for a
package name with a delimiter. -/
theorem assignTo_of_result (pkg m n : Str) (M : ModMap)
    (hq : IsQName m = true) (hn : IsName n = true) (hfix : (M.get m).getD m = m) :
    assignTo (pkg ++ TokenDelimiter :: (m ++ TokenDelimiter :: n)) pkg M =
      if TokenDelimiter ∈ pkg then none
      else some (pkg ++ TokenDelimiter :: (m ++ TokenDelimiter :: n)) := by
  have hm := not_mem_of_isQName m hq
  by_cases hpkg : TokenDelimiter ∈ pkg
  · rw [if_pos hpkg]
    apply assignTo_of_three_delimiters
    have hp : 0 < Delimiters pkg := by
      simpa [Delimiters, List.count_pos_iff] using hpkg
    simp only [Delimiters_append, Delimiters_cons_delimiter]
    omega
  · rw [if_neg hpkg, assignTo_eq_some]
    rw [afterDelimiter_append pkg _ hpkg, beforeDelimiter_append m n hm,
      afterDelimiter_append m n hm, hfix]
    exact ⟨hasModuleMember_of_three _ _ _, hq, hn, rfl⟩

/-- A legal module name that the namespacer looked up is left as it is by the
map, when no legal value of the map is remapped to something else. -/
theorem lookup_fixed (M : ModMap) (mod : Str)
    (hchain : ∀ k v, M.get k = some v → IsQName v = true →
      M.get v = none ∨ M.get v = some v)
    (hq : IsQName ((M.get mod).getD mod) = true) :
    (M.get ((M.get mod).getD mod)).getD ((M.get mod).getD mod) = (M.get mod).getD mod := by
  cases hg : M.get mod with
  | none => simp [hg]
  | some v =>
    rw [hg] at hq
    rcases hchain mod v hg hq with h' | h' <;> simp [h']

/-- A token that the namespacer returns is the package, a legal module name that
the map leaves as it is, and a legal name, when no legal value of the map is remapped
to something else. -/
theorem assignTo_result_shape (tk pkg : Str) (M : ModMap) (r : Str)
    (h : assignTo tk pkg M = some r)
    (hchain : ∀ k v, M.get k = some v → IsQName v = true →
      M.get v = none ∨ M.get v = some v) :
    ∃ m n, IsQName m = true ∧ IsName n = true ∧ (M.get m).getD m = m ∧
      r = pkg ++ TokenDelimiter :: (m ++ TokenDelimiter :: n) := by
  obtain ⟨-, hq, hn, hr⟩ := (assignTo_eq_some tk pkg M r).1 h
  exact ⟨_, _, hq, hn, lookup_fixed M _ hchain hq, hr⟩

/-- A token that the namespacer returns is left as it is by the namespacer, when
the package name holds no delimiter and no legal value of the map is remapped to
something else. -/
theorem assignTo_result_fixed (tk pkg : Str) (M : ModMap) (r : Str)
    (h : assignTo tk pkg M = some r)
    (hpkg : TokenDelimiter ∉ pkg)
    (hchain : ∀ k v, M.get k = some v → IsQName v = true →
      M.get v = none ∨ M.get v = some v) :
    assignTo r pkg M = some r := by
  obtain ⟨m, n, hq, hn, hfix, rfl⟩ := assignTo_result_shape tk pkg M r h hchain
  rw [assignTo_of_result pkg m n M hq hn hfix, if_neg hpkg]

/-! ## Lemmas on the reference rewriter -/

theorem indexRune_of_not_mem (s : Str) (c : Char) (h : c ∉ s) : indexRune s c = none := by
  induction s with
  | nil => rfl
  | cons d s ih =>
    simp only [List.mem_cons, not_or] at h
    have hd : d ≠ c := fun e => h.1 e.symm
    simp [indexRune, hd, ih h.2]

theorem indexRune_append (k t : Str) (c : Char) (h : c ∉ k) :
    indexRune (k ++ c :: t) c = some k.length := by
  induction k with
  | nil => simp [indexRune]
  | cons d k ih =>
    simp only [List.mem_cons, not_or] at h
    have hd : d ≠ c := fun e => h.1 e.symm
    simp [indexRune, hd, ih h.2]

/-- The rewriter on a reference `#/K/T` whose kind segment `K` holds no slash:
the slice `s[i+2:]` fails on an empty `T` and drops the first character of a
non-empty one; what is left is parsed and namespaced. -/
theorem fixReference_internal (K T pkg : Str) (modMap : ModMap) (hK : '/' ∉ K) :
    fixReference ('#' :: '/' :: (K ++ '/' :: T)) pkg modMap =
      match T with
      | [] => none
      | _ :: rest =>
        match ParseTypeToken rest with
        | none => some ('#' :: '/' :: (K ++ '/' :: T))
        | some tk =>
          Option.bind (assignTo tk pkg modMap) fun tk' =>
            some ('#' :: '/' :: (K ++ ['/']) ++ tk') := by
  have hpre : hasPrefix ('#' :: '/' :: (K ++ '/' :: T)) "#/".toList = true := by
    simp [hasPrefix]
  have htrim : trimPrefix ('#' :: '/' :: (K ++ '/' :: T)) "#/".toList = K ++ '/' :: T := by
    simp [trimPrefix, hasPrefix]
  have hto : sliceTo ('#' :: '/' :: (K ++ '/' :: T)) (K.length + 3) =
      some ('#' :: '/' :: (K ++ ['/'])) := by
    have h1 : K.length + 3 ≤ ('#' :: '/' :: (K ++ '/' :: T)).length := by
      simp only [List.length_cons, List.length_append]
      omega
    have h2 : List.take (K.length + 1) (K ++ '/' :: T) = K ++ ['/'] := by
      have : K ++ '/' :: T = (K ++ ['/']) ++ T := by simp
      rw [this, List.take_left' (by simp)]
    simp only [sliceTo, h1, if_true]
    show some ('#' :: '/' :: List.take (K.length + 1) (K ++ '/' :: T)) = _
    rw [h2]
  unfold fixReference
  simp only [hpre, htrim, Bool.not_true, Bool.false_eq_true, if_false,
    indexRune_append K T '/' hK, hto, Option.bind]
  cases T with
  | nil => simp [sliceFrom]
  | cons c rest =>
    have h3 : List.drop (K.length + 2) (K ++ '/' :: c :: rest) = rest := by
      have : K ++ '/' :: c :: rest = (K ++ ['/', c]) ++ rest := by simp
      rw [this, List.drop_left' (by simp)]
    have h4 : K.length + 2 ≤ (K ++ '/' :: c :: rest).length := by
      simp only [List.length_cons, List.length_append]
      omega
    simp only [sliceFrom, h4, if_true, h3]

theorem hasModuleMember_cons (c : Char) (rest : Str) (hc : c ≠ TokenDelimiter) :
    HasModuleMember (c :: rest) = HasModuleMember rest := by
  simp [HasModuleMember, Delimiters, List.count_cons, hc]

/-- The first character of a token, when it is no delimiter, is part of the
package, which the namespacer replaces. -/
theorem assignTo_cons (c : Char) (rest pkg : Str) (modMap : ModMap) (hc : c ≠ TokenDelimiter) :
    assignTo (c :: rest) pkg modMap = assignTo rest pkg modMap := by
  cases h : HasModuleMember rest with
  | true =>
    rw [assignTo_of_hasModuleMember _ pkg modMap ((hasModuleMember_cons c rest hc).trans h),
      assignTo_of_hasModuleMember _ pkg modMap h]
    simp [afterDelimiter, hc]
  | false =>
    rw [assignTo_of_not_hasModuleMember _ pkg modMap ((hasModuleMember_cons c rest hc).trans h),
      assignTo_of_not_hasModuleMember _ pkg modMap h]

/-- The rewriter on a reference `#/K/T` whose token `T` has a module member and
does not start with a delimiter: the token is namespaced in place. -/
theorem fixReference_of_token (K pkg : Str) (modMap : ModMap) (c : Char) (rest : Str)
    (hK : '/' ∉ K) (hc : c ≠ TokenDelimiter) (hT : HasModuleMember (c :: rest) = true) :
    fixReference ('#' :: '/' :: (K ++ '/' :: c :: rest)) pkg modMap =
      Option.bind (assignTo (c :: rest) pkg modMap) fun tk' =>
        some ('#' :: '/' :: (K ++ ['/']) ++ tk') := by
  rw [fixReference_internal K (c :: rest) pkg modMap hK]
  have h : HasModuleMember rest = true := (hasModuleMember_cons c rest hc).symm.trans hT
  simp only [ParseTypeToken, h, if_true]
  rw [assignTo_cons c rest pkg modMap hc]

theorem hasPrefix_internal (ref : Str) (h : hasPrefix ref "#/".toList = true) :
    ∃ s, ref = '#' :: '/' :: s := by
  match ref, h with
  | [], h => simp [hasPrefix] at h
  | [a], h => simp [hasPrefix] at h
  | a :: b :: s, h =>
    have h' : a = '#' ∧ b = '/' := by simpa [hasPrefix] using h
    exact ⟨s, by rw [h'.1, h'.2]⟩

theorem indexRune_eq_some (c : Char) (s : Str) :
    ∀ i, indexRune s c = some i → ∃ K T, s = K ++ c :: T ∧ c ∉ K := by
  induction s with
  | nil => intro i h; simp [indexRune] at h
  | cons d s ih =>
    intro i h
    by_cases hd : d = c
    · exact ⟨[], s, by simp [hd], by simp⟩
    · simp only [indexRune, hd, if_false, Option.map_eq_some'] at h
      obtain ⟨j, hj, -⟩ := h
      obtain ⟨K, T, hs, hK⟩ := ih j hj
      exact ⟨d :: K, T, by simp [hs], by simp [hK, Ne.symm hd]⟩

/-- Every reference is returned as it is, or has the form `#/K/T` with a kind
segment `K` that holds no slash. -/
theorem fixReference_cases (ref pkg : Str) (modMap : ModMap) :
    fixReference ref pkg modMap = some ref ∨
    ∃ K T, ref = '#' :: '/' :: (K ++ '/' :: T) ∧ '/' ∉ K := by
  cases hp : hasPrefix ref "#/".toList with
  | false =>
    left
    unfold fixReference
    rw [hp]
    rfl
  | true =>
    obtain ⟨s, rfl⟩ := hasPrefix_internal ref hp
    cases hi : indexRune s '/' with
    | none =>
      left
      have htrim : trimPrefix ('#' :: '/' :: s) "#/".toList = s := by
        simp [trimPrefix, hasPrefix]
      unfold fixReference
      simp only [hp, htrim, hi, Bool.not_true, Bool.false_eq_true, if_false]
    | some i =>
      right
      obtain ⟨K, T, hs, hK⟩ := indexRune_eq_some '/' s i hi
      exact ⟨K, T, by rw [hs], hK⟩

/-- The rewriter on a reference whose token is the package, a legal module name
that the map leaves as it is and a legal name: the reference is returned as it
is, unless the package name holds a delimiter after its first character, in
which case the name that the rewriter finds holds a delimiter and the rewriter
fails. -/
theorem fixReference_of_result (K pkg m n : Str) (M : ModMap) (hK : '/' ∉ K)
    (hq : IsQName m = true) (hn : IsName n = true) (hfix : (M.get m).getD m = m) :
    fixReference
        ('#' :: '/' :: (K ++ '/' :: (pkg ++ TokenDelimiter :: (m ++ TokenDelimiter :: n)))) pkg M =
      if TokenDelimiter ∈ pkg.drop 1 then none
      else some
        ('#' :: '/' :: (K ++ '/' :: (pkg ++ TokenDelimiter :: (m ++ TokenDelimiter :: n)))) := by
  have hm := not_mem_of_isQName m hq
  have h0m : Delimiters m = 0 := by
    simpa [Delimiters, List.count_eq_zero] using hm
  have h0n : Delimiters n = 0 := by
    simpa [Delimiters, List.count_eq_zero] using not_mem_of_isName n hn
  have hint := fixReference_internal K
    (pkg ++ TokenDelimiter :: (m ++ TokenDelimiter :: n)) pkg M hK
  cases pkg with
  | nil =>
    have hnot : ParseTypeToken (m ++ TokenDelimiter :: n) = none := by
      simp [ParseTypeToken, HasModuleMember, Delimiters_append, Delimiters_cons_delimiter,
        h0m, h0n]
    simp only [List.nil_append, hnot] at hint
    rw [List.nil_append, hint]
    simp
  | cons c p =>
    simp only [List.cons_append] at hint
    have hparse : ParseTypeToken (p ++ TokenDelimiter :: (m ++ TokenDelimiter :: n))
        = some (p ++ TokenDelimiter :: (m ++ TokenDelimiter :: n)) := by
      simp [ParseTypeToken, hasModuleMember_of_three]
    simp only [hparse] at hint
    rw [List.cons_append, hint]
    by_cases hp : TokenDelimiter ∈ p
    · have hd : 2 < Delimiters (p ++ TokenDelimiter :: (m ++ TokenDelimiter :: n)) := by
        have hp0 : 0 < Delimiters p := by
          simpa [Delimiters, List.count_pos_iff] using hp
        simp only [Delimiters_append, Delimiters_cons_delimiter]
        omega
      rw [assignTo_of_three_delimiters _ _ _ hd]
      simp [hp, Option.bind]
    · have hass : assignTo (p ++ TokenDelimiter :: (m ++ TokenDelimiter :: n)) (c :: p) M
          = some ((c :: p) ++ TokenDelimiter :: (m ++ TokenDelimiter :: n)) := by
        rw [assignTo_eq_some, afterDelimiter_append p _ hp, beforeDelimiter_append m n hm,
          afterDelimiter_append m n hm, hfix]
        exact ⟨hasModuleMember_of_three _ _ _, hq, hn, rfl⟩
      rw [hass]
      simp [hp, Option.bind]

/-- A reference that the rewriter returns is returned as it is by the rewriter,
or the rewriter fails on it and the package name holds a delimiter after its
first character; this is for a module map in which no legal value is remapped to
something else. -/
theorem fixReference_after (pkg : Str) (M : ModMap) (ref ref' : Str)
    (hchain : ∀ k v, M.get k = some v → IsQName v = true →
      M.get v = none ∨ M.get v = some v)
    (h : fixReference ref pkg M = some ref') :
    fixReference ref' pkg M = some ref' ∨
      (fixReference ref' pkg M = none ∧ TokenDelimiter ∈ pkg.drop 1) := by
  rcases fixReference_cases ref pkg M with hsame | ⟨K, T, rfl, hK⟩
  · rw [hsame] at h
    cases h
    exact Or.inl hsame
  · have hint := fixReference_internal K T pkg M hK
    cases T with
    | nil =>
      rw [hint] at h
      exact Option.noConfusion h
    | cons c0 rest =>
      cases hparse : ParseTypeToken rest with
      | none =>
        simp only [hparse] at hint
        rw [hint] at h
        cases h
        exact Or.inl hint
      | some tk =>
        simp only [hparse] at hint
        rw [hint] at h
        cases hass : assignTo tk pkg M with
        | none => simp [hass, Option.bind] at h
        | some tk' =>
          simp only [hass, Option.bind, Option.some.injEq] at h
          obtain ⟨m, n, hq, hn, hfix, rfl⟩ := assignTo_result_shape tk pkg M tk' hass hchain
          have hform : '#' :: '/' :: (K ++ ['/']) ++
              (pkg ++ TokenDelimiter :: (m ++ TokenDelimiter :: n))
              = '#' :: '/' :: (K ++ '/' ::
                (pkg ++ TokenDelimiter :: (m ++ TokenDelimiter :: n))) := by
            simp
          rw [← h, hform, fixReference_of_result K pkg m n M hK hq hn hfix]
          by_cases hp : TokenDelimiter ∈ pkg.drop 1
          · exact Or.inr ⟨if_pos hp, hp⟩
          · exact Or.inl (if_neg hp)

/-- The rewriter is idempotent for a package name that holds no delimiter after
its first character and a module map in which no legal value is remapped to something
else. -/
theorem fixReference_result_fixed (pkg : Str) (M : ModMap) (ref ref' : Str)
    (hpkg : TokenDelimiter ∉ pkg.drop 1)
    (hchain : ∀ k v, M.get k = some v → IsQName v = true →
      M.get v = none ∨ M.get v = some v)
    (h : fixReference ref pkg M = some ref') : fixReference ref' pkg M = some ref' := by
  rcases fixReference_after pkg M ref ref' hchain h with h' | ⟨-, h'⟩
  · exact h'
  · exact absurd h' hpkg

/-- For a module map in which no legal value is remapped to something else, a
reference that the rewriter returns is left as it is by the rewriter whenever
the rewriter returns on it. -/
theorem rewriterStable_of_chain_free (pkg : Str) (M : ModMap)
    (hchain : ∀ k v, M.get k = some v → IsQName v = true →
      M.get v = none ∨ M.get v = some v) :
    RewriterStable pkg M := by
  intro ref ref' ref'' h h'
  rcases fixReference_after pkg M ref ref' hchain h with h1 | ⟨h1, -⟩
  · rw [h1] at h'
    cases h'
    rfl
  · rw [h1] at h'
    exact Option.noConfusion h'

/-! ## Lemmas on the traversal -/

section traversal

variable (pkg : Str) (modMap : ModMap)

theorem renameTypeSpec_eq_some (t t' : TypeSpec) :
    renameTypeSpec pkg modMap t = some t' ↔
      fixReference t.Ref pkg modMap = some t'.Ref ∧
      renameTypeSpecPtr pkg modMap t.AdditionalProperties = some t'.AdditionalProperties ∧
      renameTypeSpecPtr pkg modMap t.Items = some t'.Items ∧
      renameTypeSpecs pkg modMap t.OneOf = some t'.OneOf ∧
      t'.Typ = t.Typ ∧ t'.Discriminator = t.Discriminator ∧ t'.Plain = t.Plain := by
  obtain ⟨ty, ref, ap, items, oneOf, disc, plain⟩ := t
  obtain ⟨ty', ref', ap', items', oneOf', disc', plain'⟩ := t'
  simp only [renameTypeSpec]
  cases fixReference ref pkg modMap
  all_goals cases renameTypeSpecPtr pkg modMap ap
  all_goals cases renameTypeSpecPtr pkg modMap items
  all_goals cases renameTypeSpecs pkg modMap oneOf
  all_goals simp [Option.bind]
  all_goals tauto

mutual
theorem renameTypeSpec_fixed (hI : RewriterIdempotent pkg modMap) :
    ∀ (t t' : TypeSpec), renameTypeSpec pkg modMap t = some t' →
      renameTypeSpec pkg modMap t' = some t'
  | ⟨ty, ref, ap, items, oneOf, disc, plain⟩, t', h => by
    rw [renameTypeSpec_eq_some] at h ⊢
    obtain ⟨h1, h2, h3, h4, -, -, -⟩ := h
    exact ⟨hI _ _ h1, renameTypeSpecPtr_fixed hI ap _ h2, renameTypeSpecPtr_fixed hI items _ h3,
      renameTypeSpecs_fixed hI oneOf _ h4, rfl, rfl, rfl⟩
theorem renameTypeSpecPtr_fixed (hI : RewriterIdempotent pkg modMap) :
    ∀ (o o' : Option TypeSpec), renameTypeSpecPtr pkg modMap o = some o' →
      renameTypeSpecPtr pkg modMap o' = some o'
  | none, o', h => by
    simp only [renameTypeSpecPtr, Option.some.injEq] at h
    subst h
    rfl
  | some t, o', h => by
    simp only [renameTypeSpecPtr] at h
    cases ht : renameTypeSpec pkg modMap t with
    | none => simp [ht, Option.bind] at h
    | some t' =>
      simp only [ht, Option.bind, Option.some.injEq] at h
      subst h
      simp only [renameTypeSpecPtr, renameTypeSpec_fixed hI t t' ht, Option.bind]
theorem renameTypeSpecs_fixed (hI : RewriterIdempotent pkg modMap) :
    ∀ (l l' : List TypeSpec), renameTypeSpecs pkg modMap l = some l' →
      renameTypeSpecs pkg modMap l' = some l'
  | [], l', h => by
    simp only [renameTypeSpecs, Option.some.injEq] at h
    subst h
    rfl
  | t :: ts, l', h => by
    simp only [renameTypeSpecs] at h
    cases ht : renameTypeSpec pkg modMap t with
    | none => simp [ht, Option.bind] at h
    | some t' =>
      cases hts : renameTypeSpecs pkg modMap ts with
      | none => simp [ht, hts, Option.bind] at h
      | some ts' =>
        simp only [ht, hts, Option.bind, Option.some.injEq] at h
        subst h
        simp only [renameTypeSpecs, renameTypeSpec_fixed hI t t' ht,
          renameTypeSpecs_fixed hI ts ts' hts, Option.bind]
end

/-- With an idempotent rewriter the second walk of the promoted fields of a
property changes nothing. -/
theorem renamePropertySpec_eq_rewrite (hI : RewriterIdempotent pkg modMap) (p : PropertySpec) :
    renamePropertySpec pkg modMap p = rewritePropertySpec pkg modMap p := by
  unfold renamePropertySpec rewritePropertySpec
  cases ht : renameTypeSpec pkg modMap p.toTypeSpec with
  | none => rfl
  | some t =>
    have hfix := renameTypeSpec_fixed pkg modMap hI _ _ ht
    rw [renameTypeSpec_eq_some] at hfix
    obtain ⟨-, h2, h3, h4, -⟩ := hfix
    simp only [Option.bind, h2, h3, h4]
    cases t
    rfl

theorem rewritePropertySpec_fixed (hI : RewriterIdempotent pkg modMap) (p p' : PropertySpec)
    (h : rewritePropertySpec pkg modMap p = some p') :
    rewritePropertySpec pkg modMap p' = some p' := by
  unfold rewritePropertySpec at h ⊢
  cases ht : renameTypeSpec pkg modMap p.toTypeSpec with
  | none => simp [ht, Option.bind] at h
  | some t =>
    simp only [ht, Option.bind, Option.some.injEq] at h
    subst h
    simp only [renameTypeSpec_fixed pkg modMap hI _ _ ht, Option.bind]

theorem renameMap_congr {V : Type} (f g : V → Option V) (h : ∀ v, f v = g v) (m : GoMap V) :
    renameMap f m = renameMap g m := by
  induction m with
  | nil => rfl
  | cons e m ih =>
    obtain ⟨k, v⟩ := e
    simp only [renameMap, h v, ih]

theorem renameMap_fixed {V : Type} (f : V → Option V)
    (hf : ∀ v v', f v = some v' → f v' = some v') :
    ∀ (m m' : GoMap V), renameMap f m = some m' → renameMap f m' = some m' := by
  intro m
  induction m with
  | nil =>
    intro m' h
    simp only [renameMap, Option.some.injEq] at h
    subst h
    rfl
  | cons e m ih =>
    intro m' h
    obtain ⟨k, v⟩ := e
    simp only [renameMap] at h
    cases hv : f v with
    | none => simp [hv, Option.bind] at h
    | some v' =>
      cases hm : renameMap f m with
      | none => simp [hv, hm, Option.bind] at h
      | some m1 =>
        simp only [hv, hm, Option.bind, Option.some.injEq] at h
        subst h
        simp only [renameMap, hf v v' hv, ih m1 hm, Option.bind]

/-- The map case keeps the keys, in their order. -/
theorem renameMap_keys {V : Type} (f : V → Option V) :
    ∀ (m m' : GoMap V), renameMap f m = some m' → m'.keys = m.keys := by
  intro m
  induction m with
  | nil =>
    intro m' h
    simp only [renameMap, Option.some.injEq] at h
    subst h
    rfl
  | cons e m ih =>
    intro m' h
    obtain ⟨k, v⟩ := e
    simp only [renameMap] at h
    cases hv : f v with
    | none => simp [hv, Option.bind] at h
    | some v' =>
      cases hm : renameMap f m with
      | none => simp [hv, hm, Option.bind] at h
      | some m1 =>
        simp only [hv, hm, Option.bind, Option.some.injEq] at h
        subst h
        have := ih m1 hm
        simp only [GoMap.keys] at this
        simp [GoMap.keys, this]

theorem renameObjectTypeSpec_eq_rewrite (hI : RewriterIdempotent pkg modMap)
    (o : ObjectTypeSpec) :
    renameObjectTypeSpec pkg modMap o = rewriteObjectTypeSpec pkg modMap o := by
  unfold renameObjectTypeSpec rewriteObjectTypeSpec
  rw [renameMap_congr _ _ (renamePropertySpec_eq_rewrite pkg modMap hI)]

theorem renameObjectTypeSpecPtr_eq_rewrite (hI : RewriterIdempotent pkg modMap)
    (o : Option ObjectTypeSpec) :
    renameObjectTypeSpecPtr pkg modMap o = rewriteObjectTypeSpecPtr pkg modMap o := by
  cases o with
  | none => rfl
  | some o =>
    simp only [renameObjectTypeSpecPtr, rewriteObjectTypeSpecPtr,
      renameObjectTypeSpec_eq_rewrite pkg modMap hI]

/-- The second walk of the promoted `Properties` after the walk of an embedded
`ObjectTypeSpec` changes nothing when the rewriter is idempotent. -/
theorem renameMap_after_rewriteObjectTypeSpec (hI : RewriterIdempotent pkg modMap)
    (o o' : ObjectTypeSpec) (h : rewriteObjectTypeSpec pkg modMap o = some o') :
    renameMap (renamePropertySpec pkg modMap) o'.Properties = some o'.Properties := by
  unfold rewriteObjectTypeSpec at h
  cases hm : renameMap (rewritePropertySpec pkg modMap) o.Properties with
  | none => simp [hm, Option.bind] at h
  | some ps =>
    simp only [hm, Option.bind, Option.some.injEq] at h
    subst h
    rw [renameMap_congr _ _ (renamePropertySpec_eq_rewrite pkg modMap hI)]
    exact renameMap_fixed _ (rewritePropertySpec_fixed pkg modMap hI) _ _ hm

/-- With an idempotent rewriter `renamePackage` is the rewrite that the
specification describes, at the three types it is called with. -/
theorem renamePackage_eq_rewrite (hI : RewriterIdempotent pkg modMap) :
    (∀ c : ComplexTypeSpec, renamePackage c pkg modMap = rewriteComplexTypeSpec pkg modMap c) ∧
    (∀ r : ResourceSpec, renamePackage r pkg modMap = rewriteResourceSpec pkg modMap r) ∧
    (∀ f : FunctionSpec, renamePackage f pkg modMap = rewriteFunctionSpec pkg modMap f) := by
  refine ⟨fun c => ?_, fun r => ?_, fun f => ?_⟩
  · show renameComplexTypeSpec pkg modMap c = _
    unfold renameComplexTypeSpec rewriteComplexTypeSpec
    rw [renameObjectTypeSpec_eq_rewrite pkg modMap hI]
    cases ho : rewriteObjectTypeSpec pkg modMap c.toObjectTypeSpec with
    | none => rfl
    | some o =>
      simp only [Option.bind, renameMap_after_rewriteObjectTypeSpec pkg modMap hI _ _ ho]
  · show renameResourceSpec pkg modMap r = _
    unfold renameResourceSpec rewriteResourceSpec
    rw [renameObjectTypeSpec_eq_rewrite pkg modMap hI,
      renameObjectTypeSpecPtr_eq_rewrite pkg modMap hI,
      renameMap_congr _ _ (renamePropertySpec_eq_rewrite pkg modMap hI)]
    cases ho : rewriteObjectTypeSpec pkg modMap r.toObjectTypeSpec with
    | none => rfl
    | some o =>
      simp only [Option.bind, renameMap_after_rewriteObjectTypeSpec pkg modMap hI _ _ ho]
  · show renameFunctionSpec pkg modMap f = _
    unfold renameFunctionSpec rewriteFunctionSpec
    rw [renameObjectTypeSpecPtr_eq_rewrite pkg modMap hI,
      renameObjectTypeSpecPtr_eq_rewrite pkg modMap hI]

/-- The rewriter is idempotent for a package name that holds no delimiter after
its first character and a module map in which no legal value is remapped to something
else; `renamePackage` is then the rewrite that the specification describes. -/
theorem renamePackage_eq_rewrite_of_chain_free
    (hpkg : TokenDelimiter ∉ pkg.drop 1)
    (hchain : ∀ k v, modMap.get k = some v → IsQName v = true →
      modMap.get v = none ∨ modMap.get v = some v) :
    RewriterIdempotent pkg modMap ∧
    (∀ c : ComplexTypeSpec, renamePackage c pkg modMap = rewriteComplexTypeSpec pkg modMap c) ∧
    (∀ r : ResourceSpec, renamePackage r pkg modMap = rewriteResourceSpec pkg modMap r) ∧
    (∀ f : FunctionSpec, renamePackage f pkg modMap = rewriteFunctionSpec pkg modMap f) :=
  have hI : RewriterIdempotent pkg modMap := fun ref ref' h =>
    fixReference_result_fixed pkg modMap ref ref' hpkg hchain h
  ⟨hI, renamePackage_eq_rewrite pkg modMap hI⟩

mutual
theorem renameTypeSpec_stable (hS : RewriterStable pkg modMap) :
    ∀ (t t' t'' : TypeSpec), renameTypeSpec pkg modMap t = some t' →
      renameTypeSpec pkg modMap t' = some t'' → t'' = t'
  | ⟨ty, ref, ap, items, oneOf, disc, plain⟩, t', t'', h, h' => by
    rw [renameTypeSpec_eq_some] at h h'
    obtain ⟨h1, h2, h3, h4, -, -, -⟩ := h
    obtain ⟨g1, g2, g3, g4, e1, e2, e3⟩ := h'
    have r1 := hS _ _ _ h1 g1
    have r2 := renameTypeSpecPtr_stable hS ap _ _ h2 g2
    have r3 := renameTypeSpecPtr_stable hS items _ _ h3 g3
    have r4 := renameTypeSpecs_stable hS oneOf _ _ h4 g4
    cases t'
    cases t''
    simp only at r1 r2 r3 r4 e1 e2 e3
    subst r1 r2 r3 r4 e1 e2 e3
    rfl
theorem renameTypeSpecPtr_stable (hS : RewriterStable pkg modMap) :
    ∀ (o o' o'' : Option TypeSpec), renameTypeSpecPtr pkg modMap o = some o' →
      renameTypeSpecPtr pkg modMap o' = some o'' → o'' = o'
  | none, o', o'', h, h' => by
    simp only [renameTypeSpecPtr, Option.some.injEq] at h
    subst h
    simp only [renameTypeSpecPtr, Option.some.injEq] at h'
    exact h'.symm
  | some t, o', o'', h, h' => by
    simp only [renameTypeSpecPtr] at h
    cases ht : renameTypeSpec pkg modMap t with
    | none => simp [ht, Option.bind] at h
    | some t' =>
      simp only [ht, Option.bind, Option.some.injEq] at h
      subst h
      simp only [renameTypeSpecPtr] at h'
      cases ht' : renameTypeSpec pkg modMap t' with
      | none => simp [ht', Option.bind] at h'
      | some t'' =>
        simp only [ht', Option.bind, Option.some.injEq] at h'
        subst h'
        rw [renameTypeSpec_stable hS t t' t'' ht ht']
theorem renameTypeSpecs_stable (hS : RewriterStable pkg modMap) :
    ∀ (l l' l'' : List TypeSpec), renameTypeSpecs pkg modMap l = some l' →
      renameTypeSpecs pkg modMap l' = some l'' → l'' = l'
  | [], l', l'', h, h' => by
    simp only [renameTypeSpecs, Option.some.injEq] at h
    subst h
    simp only [renameTypeSpecs, Option.some.injEq] at h'
    exact h'.symm
  | t :: ts, l', l'', h, h' => by
    simp only [renameTypeSpecs] at h
    cases ht : renameTypeSpec pkg modMap t with
    | none => simp [ht, Option.bind] at h
    | some t' =>
      cases hts : renameTypeSpecs pkg modMap ts with
      | none => simp [ht, hts, Option.bind] at h
      | some ts' =>
        simp only [ht, hts, Option.bind, Option.some.injEq] at h
        subst h
        simp only [renameTypeSpecs] at h'
        cases ht' : renameTypeSpec pkg modMap t' with
        | none => simp [ht', Option.bind] at h'
        | some t'' =>
          cases hts' : renameTypeSpecs pkg modMap ts' with
          | none => simp [ht', hts', Option.bind] at h'
          | some ts'' =>
            simp only [ht', hts', Option.bind, Option.some.injEq] at h'
            subst h'
            rw [renameTypeSpec_stable hS t t' t'' ht ht',
              renameTypeSpecs_stable hS ts ts' ts'' hts hts']
end

/-- When the walk of a property returns, the second walk of the promoted fields
changed nothing: the walk returns what the rewrite returns. -/
theorem rewritePropertySpec_of_rename (hS : RewriterStable pkg modMap) (p p' : PropertySpec)
    (h : renamePropertySpec pkg modMap p = some p') :
    rewritePropertySpec pkg modMap p = some p' := by
  unfold renamePropertySpec at h
  unfold rewritePropertySpec
  cases ht : renameTypeSpec pkg modMap p.toTypeSpec with
  | none => simp [ht, Option.bind] at h
  | some t =>
    simp only [ht, Option.bind] at h ⊢
    have hfirst := (renameTypeSpec_eq_some pkg modMap _ _).1 ht
    obtain ⟨-, h2, h3, h4, -⟩ := hfirst
    cases ha : renameTypeSpecPtr pkg modMap t.AdditionalProperties with
    | none => simp [ha] at h
    | some ap =>
      cases hi : renameTypeSpecPtr pkg modMap t.Items with
      | none => simp [ha, hi] at h
      | some items =>
        cases ho : renameTypeSpecs pkg modMap t.OneOf with
        | none => simp [ha, hi, ho] at h
        | some oneOf =>
          simp only [ha, hi, ho, Option.some.injEq] at h
          have r2 := renameTypeSpecPtr_stable pkg modMap hS _ _ _ h2 ha
          have r3 := renameTypeSpecPtr_stable pkg modMap hS _ _ _ h3 hi
          have r4 := renameTypeSpecs_stable pkg modMap hS _ _ _ h4 ho
          subst r2 r3 r4
          rw [← h]
          cases t
          rfl

/-- A property that the rewrite returns is left as it is by the walk whenever
the walk returns on it. -/
theorem renamePropertySpec_stable (hS : RewriterStable pkg modMap) (p p' p'' : PropertySpec)
    (h : rewritePropertySpec pkg modMap p = some p')
    (h' : renamePropertySpec pkg modMap p' = some p'') : p'' = p' := by
  have h'' := rewritePropertySpec_of_rename pkg modMap hS p' p'' h'
  unfold rewritePropertySpec at h h''
  cases ht : renameTypeSpec pkg modMap p.toTypeSpec with
  | none => simp [ht, Option.bind] at h
  | some t =>
    simp only [ht, Option.bind, Option.some.injEq] at h
    subst h
    cases ht' : renameTypeSpec pkg modMap t with
    | none => simp [ht', Option.bind] at h''
    | some t' =>
      simp only [ht', Option.bind, Option.some.injEq] at h''
      rw [renameTypeSpec_stable pkg modMap hS _ t t' ht ht'] at h''
      exact h''.symm

theorem renameMap_of_some {V : Type} (f g : V → Option V)
    (hfg : ∀ v v', f v = some v' → g v = some v') :
    ∀ (m m' : GoMap V), renameMap f m = some m' → renameMap g m = some m' := by
  intro m
  induction m with
  | nil => intro m' h; exact h
  | cons e m ih =>
    intro m' h
    obtain ⟨k, v⟩ := e
    simp only [renameMap] at h ⊢
    cases hv : f v with
    | none => simp [hv, Option.bind] at h
    | some v' =>
      cases hm : renameMap f m with
      | none => simp [hv, hm, Option.bind] at h
      | some m1 =>
        simp only [hv, hm, Option.bind, Option.some.injEq] at h
        subst h
        simp only [hfg v v' hv, ih m1 hm, Option.bind]

theorem renameMap_stable {V : Type} (f g : V → Option V)
    (hfg : ∀ v v' v'', f v = some v' → g v' = some v'' → v'' = v') :
    ∀ (m m' m'' : GoMap V), renameMap f m = some m' → renameMap g m' = some m'' → m'' = m' := by
  intro m
  induction m with
  | nil =>
    intro m' m'' h h'
    simp only [renameMap, Option.some.injEq] at h
    subst h
    simp only [renameMap, Option.some.injEq] at h'
    exact h'.symm
  | cons e m ih =>
    intro m' m'' h h'
    obtain ⟨k, v⟩ := e
    simp only [renameMap] at h
    cases hv : f v with
    | none => simp [hv, Option.bind] at h
    | some v' =>
      cases hm : renameMap f m with
      | none => simp [hv, hm, Option.bind] at h
      | some m1 =>
        simp only [hv, hm, Option.bind, Option.some.injEq] at h
        subst h
        simp only [renameMap] at h'
        cases hv' : g v' with
        | none => simp [hv', Option.bind] at h'
        | some v'' =>
          cases hm' : renameMap g m1 with
          | none => simp [hv', hm', Option.bind] at h'
          | some m2 =>
            simp only [hv', hm', Option.bind, Option.some.injEq] at h'
            subst h'
            rw [hfg v v' v'' hv hv', ih m1 m2 hm hm']

theorem rewriteObjectTypeSpec_of_rename (hS : RewriterStable pkg modMap)
    (o o' : ObjectTypeSpec) (h : renameObjectTypeSpec pkg modMap o = some o') :
    rewriteObjectTypeSpec pkg modMap o = some o' := by
  unfold renameObjectTypeSpec at h
  unfold rewriteObjectTypeSpec
  cases hm : renameMap (renamePropertySpec pkg modMap) o.Properties with
  | none => simp [hm, Option.bind] at h
  | some ps =>
    simp only [hm, Option.bind, Option.some.injEq] at h
    subst h
    simp only [renameMap_of_some _ _ (rewritePropertySpec_of_rename pkg modMap hS) _ _ hm,
      Option.bind]

theorem rewriteObjectTypeSpecPtr_of_rename (hS : RewriterStable pkg modMap)
    (o o' : Option ObjectTypeSpec) (h : renameObjectTypeSpecPtr pkg modMap o = some o') :
    rewriteObjectTypeSpecPtr pkg modMap o = some o' := by
  cases o with
  | none => exact h
  | some x =>
    simp only [renameObjectTypeSpecPtr] at h
    simp only [rewriteObjectTypeSpecPtr]
    cases hx : renameObjectTypeSpec pkg modMap x with
    | none => simp [hx, Option.bind] at h
    | some x' =>
      simp only [hx, Option.bind, Option.some.injEq] at h
      subst h
      simp only [rewriteObjectTypeSpec_of_rename pkg modMap hS x x' hx, Option.bind]

/-- The second walk of the promoted `Properties` after the walk of an embedded
`ObjectTypeSpec` changes nothing whenever it returns. -/
theorem renameMap_after_rename (hS : RewriterStable pkg modMap)
    (o o' : ObjectTypeSpec) (ps : GoMap PropertySpec)
    (h : renameObjectTypeSpec pkg modMap o = some o')
    (h' : renameMap (renamePropertySpec pkg modMap) o'.Properties = some ps) :
    ps = o'.Properties := by
  have hr := rewriteObjectTypeSpec_of_rename pkg modMap hS o o' h
  unfold rewriteObjectTypeSpec at hr
  cases hm : renameMap (rewritePropertySpec pkg modMap) o.Properties with
  | none => simp [hm, Option.bind] at hr
  | some ps1 =>
    simp only [hm, Option.bind, Option.some.injEq] at hr
    subst hr
    exact renameMap_stable _ _ (renamePropertySpec_stable pkg modMap hS) _ _ _ hm h'

/-- Whenever `renamePackage` returns, and the rewriter leaves what it returns
as it is whenever it returns on it, `renamePackage` returns what the rewrite
that the specification describes returns, at the three types it is called
with. -/
theorem rewrite_of_renamePackage (hS : RewriterStable pkg modMap) :
    (∀ c c' : ComplexTypeSpec, renamePackage c pkg modMap = some c' →
      rewriteComplexTypeSpec pkg modMap c = some c') ∧
    (∀ r r' : ResourceSpec, renamePackage r pkg modMap = some r' →
      rewriteResourceSpec pkg modMap r = some r') ∧
    (∀ f f' : FunctionSpec, renamePackage f pkg modMap = some f' →
      rewriteFunctionSpec pkg modMap f = some f') := by
  refine ⟨fun c c' h => ?_, fun r r' h => ?_, fun f f' h => ?_⟩
  · change renameComplexTypeSpec pkg modMap c = some c' at h
    unfold renameComplexTypeSpec at h
    unfold rewriteComplexTypeSpec
    cases ho : renameObjectTypeSpec pkg modMap c.toObjectTypeSpec with
    | none => simp [ho, Option.bind] at h
    | some o =>
      simp only [ho, Option.bind] at h
      cases hp : renameMap (renamePropertySpec pkg modMap) o.Properties with
      | none => simp [hp] at h
      | some ps =>
        simp only [hp, Option.some.injEq] at h
        have hps := renameMap_after_rename pkg modMap hS _ o ps ho hp
        subst hps
        simp only [rewriteObjectTypeSpec_of_rename pkg modMap hS _ o ho, Option.bind]
        rw [← h]
  · change renameResourceSpec pkg modMap r = some r' at h
    unfold renameResourceSpec at h
    unfold rewriteResourceSpec
    cases ho : renameObjectTypeSpec pkg modMap r.toObjectTypeSpec with
    | none => simp [ho, Option.bind] at h
    | some o =>
      simp only [ho, Option.bind] at h
      cases hp : renameMap (renamePropertySpec pkg modMap) o.Properties with
      | none => simp [hp] at h
      | some ps =>
        simp only [hp] at h
        cases hi : renameMap (renamePropertySpec pkg modMap) r.InputProperties with
        | none => simp [hi] at h
        | some ips =>
          simp only [hi] at h
          cases hs : renameObjectTypeSpecPtr pkg modMap r.StateInputs with
          | none => simp [hs] at h
          | some si =>
            simp only [hs, Option.some.injEq] at h
            have hps := renameMap_after_rename pkg modMap hS _ o ps ho hp
            subst hps
            simp only [rewriteObjectTypeSpec_of_rename pkg modMap hS _ o ho,
              renameMap_of_some _ _ (rewritePropertySpec_of_rename pkg modMap hS) _ _ hi,
              rewriteObjectTypeSpecPtr_of_rename pkg modMap hS _ si hs, Option.bind]
            rw [← h]
  · change renameFunctionSpec pkg modMap f = some f' at h
    unfold renameFunctionSpec at h
    unfold rewriteFunctionSpec
    cases hi : renameObjectTypeSpecPtr pkg modMap f.Inputs with
    | none => simp [hi, Option.bind] at h
    | some i =>
      cases ho : renameObjectTypeSpecPtr pkg modMap f.Outputs with
      | none => simp [hi, ho, Option.bind] at h
      | some o =>
        simp only [hi, ho, Option.bind, Option.some.injEq] at h
        simp only [rewriteObjectTypeSpecPtr_of_rename pkg modMap hS _ i hi,
          rewriteObjectTypeSpecPtr_of_rename pkg modMap hS _ o ho, Option.bind]
        rw [← h]

end traversal

/-! ## Lemmas on the derivative type collector -/

theorem registerDerivative_absent (pkgName : Str) (moduleMap : ModMap) (tk : Str)
    (t t' : ComplexTypeSpec) (types : Types) (key : Str)
    (hkey : assignTo tk pkgName moduleMap = some key) (habs : types.get key = none)
    (hren : renamePackage t pkgName moduleMap = some t') :
    registerDerivative pkgName moduleMap tk t types = some (true, types.set key t') := by
  simp [registerDerivative, hkey, habs, hren, Option.bind]

theorem registerDerivative_present (pkgName : Str) (moduleMap : ModMap) (tk : Str)
    (t v : ComplexTypeSpec) (types : Types) (key : Str)
    (hkey : assignTo tk pkgName moduleMap = some key) (hpres : types.get key = some v) :
    registerDerivative pkgName moduleMap tk t types = some (false, types) := by
  simp [registerDerivative, hkey, hpres, Option.bind]

/-! ## The configuration surface and the cache -/

/-- The thirteen configuration methods that assign `s.schema = ""`. -/
theorem with_methods_reset_schema (s : Provider) :
    (∀ rs, (s.WithResources rs).schema = []) ∧
    (∀ fs, (s.WithInvokes fs).schema = []) ∧
    (∀ r, (s.WithProviderResource r).schema = []) ∧
    (∀ l, (s.WithLanguageMap l).schema = []) ∧
    (∀ x, (s.WithDescription x).schema = []) ∧
    (∀ x, (s.WithLicense x).schema = []) ∧
    (∀ x, (s.WithPluginDownloadURL x).schema = []) ∧
    (∀ x, (s.WithDisplayName x).schema = []) ∧
    (∀ x, (s.WithKeywords x).schema = []) ∧
    (∀ x, (s.WithHomepage x).schema = []) ∧
    (∀ x, (s.WithRepository x).schema = []) ∧
    (∀ x, (s.WithPublisher x).schema = []) ∧
    (∀ x, (s.WithLogoURL x).schema = []) :=
  ⟨fun _ => rfl, fun _ => rfl, fun _ => rfl, fun _ => rfl, fun _ => rfl, fun _ => rfl,
    fun _ => rfl, fun _ => rfl, fun _ => rfl, fun _ => rfl, fun _ => rfl, fun _ => rfl,
    fun _ => rfl⟩

/-- C1 (evaluation at the failing input): `WithModuleMap` does not assign
`s.schema`.  For every builder state and every map the cache slot after the
call is the cache slot before it, and on a builder whose cache holds the
document `{}` the call `WithModuleMap({vpc: networking})` merges the map and
leaves the cache non-empty, so the next `GetSchema` answers from the cache. -/
theorem WithModuleMap_keeps_schema :
    (∀ (s : Provider) (m : ModMap), (s.WithModuleMap m).schema = s.schema) ∧
    (({ schema := "{}".toList } : Provider).WithModuleMap
        [("vpc".toList, "networking".toList)]).schema = "{}".toList ∧
    (({ schema := "{}".toList } : Provider).WithModuleMap
        [("vpc".toList, "networking".toList)]).moduleMap
      = [("vpc".toList, "networking".toList)] ∧
    (∀ (enc : Encoder) (info : RunInfo),
      (Provider.GetSchema enc info
        (({ schema := "{}".toList } : Provider).WithModuleMap
          [("vpc".toList, "networking".toList)])).map Prod.fst
        = some (.ok "{}".toList)) :=
  ⟨fun _ _ => rfl, rfl, rfl, fun _ _ => rfl⟩

/-! ## The derivative type collector -/

/-- C2 (counterexample): with package `pkg`, an empty module map and an empty
types mapping, the first registration of `pkg:vpc:CidrBlock` returns `true`, not
`false`, and the registration that follows returns `false`, not `true`. -/
theorem registerDerivative_first_false_counterexample :
    ¬ (∃ types1 types2,
        registerDerivative "pkg".toList [] "pkg:vpc:CidrBlock".toList {} [] = some (false, types1) ∧
        registerDerivative "pkg".toList [] "pkg:vpc:CidrBlock".toList {} types1
          = some (true, types2)) := by
  rintro ⟨types1, types2, h1, -⟩
  have h : (registerDerivative "pkg".toList [] "pkg:vpc:CidrBlock".toList {} []).map Prod.fst
      = some true := by decide
  rw [h1] at h
  simp at h

/-- C2 (amended): the first registration of a namespace-remapped symbol that
the types mapping lacks returns `true` (the symbol was unknown) and stores the
renamed definition; a registration of the same token that follows returns
`false` (already known) and leaves the mapping as it is. -/
theorem registerDerivative_first_true_then_false (pkgName : Str) (moduleMap : ModMap)
    (tk key : Str) (t1 t2 t1' : ComplexTypeSpec) (types : Types)
    (hkey : assignTo tk pkgName moduleMap = some key)
    (habs : types.get key = none)
    (hren : renamePackage t1 pkgName moduleMap = some t1') :
    registerDerivative pkgName moduleMap tk t1 types = some (true, types.set key t1') ∧
    registerDerivative pkgName moduleMap tk t2 (types.set key t1')
      = some (false, types.set key t1') :=
  ⟨registerDerivative_absent pkgName moduleMap tk t1 t1' types key hkey habs hren,
    registerDerivative_present pkgName moduleMap tk t2 t1' _ key hkey
      (GoMap.get_set_self types key t1')⟩

/-- C2 (witness): two registrations of `pkg:vpc:CidrBlock` under the map
`{vpc: networking}` on an empty types mapping. -/
theorem registerDerivative_first_true_then_false_witness :
    registerDerivative "pkg".toList [("vpc".toList, "networking".toList)]
        "pkg:vpc:CidrBlock".toList {} []
      = some (true, GoMap.set [] "pkg:networking:CidrBlock".toList {}) ∧
    registerDerivative "pkg".toList [("vpc".toList, "networking".toList)]
        "pkg:vpc:CidrBlock".toList {} (GoMap.set [] "pkg:networking:CidrBlock".toList {})
      = some (false, GoMap.set [] "pkg:networking:CidrBlock".toList {}) :=
  registerDerivative_first_true_then_false "pkg".toList [("vpc".toList, "networking".toList)]
    "pkg:vpc:CidrBlock".toList "pkg:networking:CidrBlock".toList {} {} {} []
    (by decide) rfl rfl

/-- The entries of the types mapping after a sequence of registrations of
definitions that share no object, each of which completes: the keys are pairwise
distinct, they are the keys held before and the remapped symbols of the calls,
and the entry of a new symbol is the renamed definition of the first call that
registered it. -/
theorem registerAll_registerDerivative (pkgName : Str) (moduleMap : ModMap)
    (calls : List (Str × ComplexTypeSpec)) :
    ∀ (types : Types),
    (∀ c ∈ calls, (assignTo c.1 pkgName moduleMap).isSome = true ∧
      (renamePackage c.2 pkgName moduleMap).isSome = true) →
    types.keys.Nodup →
    ∃ types', registerAll (registerDerivative pkgName moduleMap) calls types = some types' ∧
      types'.keys.Nodup ∧
      (∀ k, k ∈ types'.keys ↔
        k ∈ types.keys ∨ ∃ c ∈ calls, assignTo c.1 pkgName moduleMap = some k) ∧
      (∀ k v, types.get k = some v → types'.get k = some v) ∧
      (∀ k pre c post, types.get k = none → calls = pre ++ c :: post →
        assignTo c.1 pkgName moduleMap = some k →
        (∀ d ∈ pre, assignTo d.1 pkgName moduleMap ≠ some k) →
        types'.get k = renamePackage c.2 pkgName moduleMap) ∧
      ((∀ c ∈ calls, ∃ k, assignTo c.1 pkgName moduleMap = some k ∧ k ∈ types.keys) →
        types' = types) := by
  induction calls with
  | nil =>
    intro types _ hnd
    refine ⟨types, rfl, hnd, ?_, fun _ _ h => h, ?_, fun _ => rfl⟩
    · intro k
      simp
    · intro k pre c post _ hc
      simp at hc
  | cons c0 calls ih =>
    intro types hok hnd
    obtain ⟨tk, t⟩ := c0
    have hc0 := hok (tk, t) (List.mem_cons_self _ _)
    have hrest : ∀ c ∈ calls, (assignTo c.1 pkgName moduleMap).isSome = true ∧
        (renamePackage c.2 pkgName moduleMap).isSome = true :=
      fun c hc => hok c (List.mem_cons_of_mem _ hc)
    obtain ⟨key, hkey⟩ : ∃ key, assignTo tk pkgName moduleMap = some key :=
      Option.isSome_iff_exists.1 hc0.1
    cases hget : types.get key with
    | some v =>
      have hstep := registerDerivative_present pkgName moduleMap tk t v types key hkey hget
      obtain ⟨types', hrun, hnd', hmem, hkeep, hfirst, hsame⟩ := ih types hrest hnd
      have hkmem : key ∈ types.keys := by
        by_contra hc
        rw [← GoMap.get_eq_none_iff, hget] at hc
        exact Option.noConfusion hc
      refine ⟨types', ?_, hnd', ?_, hkeep, ?_, ?_⟩
      · simp [registerAll, hstep, Option.bind, hrun]
      · intro k
        rw [hmem k]
        constructor
        · rintro (h | ⟨c, hc, hck⟩)
          · exact Or.inl h
          · exact Or.inr ⟨c, List.mem_cons_of_mem _ hc, hck⟩
        · rintro (h | ⟨c, hc, hck⟩)
          · exact Or.inl h
          · rcases List.mem_cons.1 hc with rfl | hc
            · rw [hkey] at hck
              cases hck
              exact Or.inl hkmem
            · exact Or.inr ⟨c, hc, hck⟩
      · intro k pre c post hnone hsplit hck hpre
        cases pre with
        | nil =>
          simp only [List.nil_append, List.cons.injEq] at hsplit
          rw [← hsplit.1, hkey] at hck
          cases hck
          rw [hget] at hnone
          exact Option.noConfusion hnone
        | cons d pre =>
          simp only [List.cons_append, List.cons.injEq] at hsplit
          exact hfirst k pre c post hnone hsplit.2 hck
            (fun e he => hpre e (List.mem_cons_of_mem _ he))
      · intro hall
        exact hsame (fun c hc => hall c (List.mem_cons_of_mem _ hc))
    | none =>
      obtain ⟨t', hren⟩ := Option.isSome_iff_exists.1 hc0.2
      have hstep := registerDerivative_absent pkgName moduleMap tk t t' types key hkey hget hren
      obtain ⟨types', hrun, hnd', hmem, hkeep, hfirst, hsame⟩ :=
        ih (types.set key t') hrest (GoMap.nodup_keys_set types key t' hnd)
      refine ⟨types', ?_, hnd', ?_, ?_, ?_, ?_⟩
      · simp [registerAll, hstep, Option.bind, hrun]
      · intro k
        rw [hmem k, GoMap.mem_keys_set]
        constructor
        · rintro ((rfl | h) | ⟨c, hc, hck⟩)
          · exact Or.inr ⟨(tk, t), List.mem_cons_self _ _, hkey⟩
          · exact Or.inl h
          · exact Or.inr ⟨c, List.mem_cons_of_mem _ hc, hck⟩
        · rintro (h | ⟨c, hc, hck⟩)
          · exact Or.inl (Or.inr h)
          · rcases List.mem_cons.1 hc with rfl | hc
            · rw [hkey] at hck
              cases hck
              exact Or.inl (Or.inl rfl)
            · exact Or.inr ⟨c, hc, hck⟩
      · intro k v hk
        have hne : k ≠ key := by
          rintro rfl
          rw [hget] at hk
          exact Option.noConfusion hk
        exact hkeep k v (by rw [GoMap.get_set_ne types t' hne]; exact hk)
      · intro k pre c post hnone hsplit hck hpre
        cases pre with
        | nil =>
          simp only [List.nil_append, List.cons.injEq] at hsplit
          rw [← hsplit.1, hkey] at hck
          cases hck
          rw [← hsplit.1, hren]
          exact hkeep key t' (GoMap.get_set_self types key t')
        | cons d pre =>
          simp only [List.cons_append, List.cons.injEq] at hsplit
          have hd : assignTo d.1 pkgName moduleMap ≠ some k := hpre d (List.mem_cons_self _ _)
          have hne : k ≠ key := by
            rintro rfl
            rw [← hsplit.1] at hd
            exact hd hkey
          exact hfirst k pre c post (by rw [GoMap.get_set_ne types t' hne]; exact hnone)
            hsplit.2 hck (fun e he => hpre e (List.mem_cons_of_mem _ he))
      · intro hall
        obtain ⟨k, hk, hkm⟩ := hall (tk, t) (List.mem_cons_self _ _)
        rw [hkey] at hk
        cases hk
        exact absurd hkm ((GoMap.get_eq_none_iff types key).1 hget)

/-- C3 (evaluation at the failing input): one definition is handed to the
callback under two symbols, with the module map `{a: b, b: c, c: d, d: e}`.
The first registration stores it under `pkg:b:First`, where its reference reads
`#/types/pkg:c:T`.  The key `pkg:b:Second` of the second registration is absent:
the registration returns `true` and adds that key, and the walk of the
definition rewrites the map that the entry under `pkg:b:First` shares, so that
this entry now reads `#/types/pkg:e:T`.  An entry other than the one added has
changed. -/
theorem registerDerivative_shared_definition :
    ∃ s1 s2,
      registerDerivativeAt "pkg".toList chainModuleMap "x:a:First".toList 0
          ([sharedDefinition], []) = some (true, s1) ∧
      (readTypes s1).map (fun kv => (kv.1, kv.2.map fun t => propertyRefs t.Properties))
        = [("pkg:b:First".toList, some [("item".toList, "#/types/pkg:c:T".toList)])] ∧
      s1.2.get "pkg:b:Second".toList = none ∧
      registerDerivativeAt "pkg".toList chainModuleMap "x:a:Second".toList 0 s1
        = some (true, s2) ∧
      (readTypes s2).map (fun kv => (kv.1, kv.2.map fun t => propertyRefs t.Properties))
        = [("pkg:b:First".toList, some [("item".toList, "#/types/pkg:e:T".toList)]),
           ("pkg:b:Second".toList, some [("item".toList, "#/types/pkg:e:T".toList)])] :=
  ⟨_, _, rfl, rfl, rfl, rfl, rfl⟩

/-! ## The namespacer -/

/-- C4 (counterexample): the namespacer does not return on every token `p:m:n`.
Under the map `{vpc: a b}` the token `x:vpc:T` has the looked-up module name
`a b`, which is no legal qualified name, and the constructor of the module token
panics; under the empty map the token `x::T`, whose module name is empty and has
no mapping, makes the same constructor panic, and the token `x:vpc:T:U`, whose
name `T:U` is no legal name, makes the constructor of the type token panic. -/
theorem assignTo_token_counterexample :
    assignTo "x:vpc:T".toList "pkg".toList [("vpc".toList, "a b".toList)] = none ∧
    assignTo "x::T".toList "pkg".toList [] = none ∧
    assignTo "x:vpc:T:U".toList "pkg".toList [] = none ∧
    ¬ (∀ (p m n pkg : Str) (modMap : ModMap), TokenDelimiter ∉ p → TokenDelimiter ∉ m →
        assignTo (p ++ TokenDelimiter :: (m ++ TokenDelimiter :: n)) pkg modMap =
          some (pkg ++ TokenDelimiter :: ((modMap.get m).getD m ++ TokenDelimiter :: n))) := by
  refine ⟨by decide, by decide, by decide, fun h => ?_⟩
  have := h "x".toList "vpc".toList "T".toList "pkg".toList [("vpc".toList, "a b".toList)]
    (by decide) (by decide)
  revert this
  decide

/-- C4 (amended): on a token `p:m:n` the namespacer returns the token with
package `pkg`, module `modMap[m]` when `m` is a key of the map and `m` otherwise,
and name `n`, when that module is a legal qualified name and `n` is a legal
name; it does so whatever `p` is, and an absent key is no failure.  When the
module is no legal qualified name or `n` is no legal name, the namespacer
panics. -/
theorem assignTo_token (p m n pkg : Str) (modMap : ModMap)
    (hp : TokenDelimiter ∉ p) (hm : TokenDelimiter ∉ m) :
    (IsQName ((modMap.get m).getD m) = true → IsName n = true →
      assignTo (p ++ TokenDelimiter :: (m ++ TokenDelimiter :: n)) pkg modMap =
        some (pkg ++ TokenDelimiter :: ((modMap.get m).getD m ++ TokenDelimiter :: n))) ∧
    (∀ m', modMap.get m = some m' → IsQName m' = true → IsName n = true →
      assignTo (p ++ TokenDelimiter :: (m ++ TokenDelimiter :: n)) pkg modMap =
        some (pkg ++ TokenDelimiter :: (m' ++ TokenDelimiter :: n))) ∧
    (modMap.get m = none → IsQName m = true → IsName n = true →
      assignTo (p ++ TokenDelimiter :: (m ++ TokenDelimiter :: n)) pkg modMap =
        some (pkg ++ TokenDelimiter :: (m ++ TokenDelimiter :: n))) ∧
    (IsQName ((modMap.get m).getD m) = false ∨ IsName n = false →
      assignTo (p ++ TokenDelimiter :: (m ++ TokenDelimiter :: n)) pkg modMap = none) := by
  have h := fun r => assignTo_eq_some (p ++ TokenDelimiter :: (m ++ TokenDelimiter :: n))
    pkg modMap r
  simp only [afterDelimiter_append p _ hp, beforeDelimiter_append m n hm,
    afterDelimiter_append m n hm, hasModuleMember_of_three, true_and] at h
  have hsome : IsQName ((modMap.get m).getD m) = true → IsName n = true →
      assignTo (p ++ TokenDelimiter :: (m ++ TokenDelimiter :: n)) pkg modMap =
        some (pkg ++ TokenDelimiter :: ((modMap.get m).getD m ++ TokenDelimiter :: n)) :=
    fun hq hn => (h _).2 ⟨hq, hn, rfl⟩
  refine ⟨hsome, ?_, ?_, ?_⟩
  · intro m' hm' hq hn
    have := hsome (by rw [hm']; exact hq) hn
    rw [hm'] at this
    exact this
  · intro hnone hq hn
    have := hsome (by rw [hnone]; exact hq) hn
    rw [hnone] at this
    exact this
  · intro hbad
    cases hr : assignTo (p ++ TokenDelimiter :: (m ++ TokenDelimiter :: n)) pkg modMap with
    | none => rfl
    | some r =>
      obtain ⟨hq, hn, -⟩ := (h r).1 hr
      rcases hbad with hb | hb
      · rw [hq] at hb
        exact Bool.noConfusion hb
      · rw [hn] at hb
        exact Bool.noConfusion hb

/-- C4 (witness): `aws:vpc:Subnet` under `{vpc: networking}` and package `pkg`. -/
theorem assignTo_token_witness :
    assignTo ("aws".toList ++ TokenDelimiter :: ("vpc".toList ++ TokenDelimiter :: "Subnet".toList))
        "pkg".toList [("vpc".toList, "networking".toList)]
      = some "pkg:networking:Subnet".toList :=
  (assignTo_token "aws".toList "vpc".toList "Subnet".toList "pkg".toList
    [("vpc".toList, "networking".toList)] (by decide) (by decide)).1 (by decide) (by decide)

/-- C5 (counterexample): under the map `{a: b, b: c}` the token `x:a:T` is
namespaced to `pkg:b:T`, and namespacing that result gives `pkg:c:T`.  With the
package name `a:b` and the empty map the token `x:m:n` is namespaced to
`a:b:m:n`, and the namespacer panics on that result: its name reads `m:n`. -/
theorem assignTo_idempotent_counterexample :
    assignTo "x:a:T".toList "pkg".toList [("a".toList, "b".toList), ("b".toList, "c".toList)]
      = some "pkg:b:T".toList ∧
    assignTo "pkg:b:T".toList "pkg".toList [("a".toList, "b".toList), ("b".toList, "c".toList)]
      = some "pkg:c:T".toList ∧
    assignTo "x:m:n".toList "a:b".toList [] = some "a:b:m:n".toList ∧
    assignTo "a:b:m:n".toList "a:b".toList [] = none ∧
    ¬ (∀ (tk pkg : Str) (M : ModMap) (r : Str), assignTo tk pkg M = some r →
        assignTo r pkg M = some r) := by
  refine ⟨by decide, by decide, by decide, by decide, fun h => ?_⟩
  have := h "x:a:T".toList "pkg".toList [("a".toList, "b".toList), ("b".toList, "c".toList)]
    "pkg:b:T".toList (by decide)
  revert this
  decide

/-- C5 (amended): namespacing is idempotent on every token on which the
namespacer returns, for a package name that holds no token delimiter and a map
in which no value that is a legal module name is itself remapped to something
else (each such value is no key, or a key mapped to itself). -/
theorem assignTo_idempotent (tk pkg : Str) (M : ModMap)
    (hpkg : TokenDelimiter ∉ pkg)
    (hchain : ∀ k v, M.get k = some v → IsQName v = true →
      M.get v = none ∨ M.get v = some v) :
    (∀ r, assignTo tk pkg M = some r → assignTo r pkg M = some r) ∧
    (assignTo tk pkg M).bind (fun r => assignTo r pkg M) = assignTo tk pkg M := by
  have h1 : ∀ r, assignTo tk pkg M = some r → assignTo r pkg M = some r :=
    fun r h => assignTo_result_fixed tk pkg M r h hpkg hchain
  refine ⟨h1, ?_⟩
  cases h : assignTo tk pkg M with
  | none => rfl
  | some r =>
    simp only [Option.bind]
    exact h1 r h

/-- C5 (witness): `x:vpc:Subnet` under `{vpc: networking}` and package `pkg` is
namespaced to `pkg:networking:Subnet`, which is namespaced to itself. -/
theorem assignTo_idempotent_witness :
    assignTo "x:vpc:Subnet".toList "pkg".toList [("vpc".toList, "networking".toList)]
      = some "pkg:networking:Subnet".toList ∧
    assignTo "pkg:networking:Subnet".toList "pkg".toList [("vpc".toList, "networking".toList)]
      = some "pkg:networking:Subnet".toList :=
  ⟨by decide,
    (assignTo_idempotent "x:vpc:Subnet".toList "pkg".toList
      [("vpc".toList, "networking".toList)]
      (by decide)
      (by
        intro k v h _
        simp only [GoMap.get] at h
        split at h
        · cases h
          exact Or.inl (by decide)
        · cases h)).1 _ (by decide)⟩

/-! ## The reference rewriter -/

/-- C6: a reference that does not begin with `#/` is returned as it is. -/
theorem fixReference_external (ref pkg : Str) (modMap : ModMap)
    (h : hasPrefix ref "#/".toList = false) : fixReference ref pkg modMap = some ref := by
  unfold fixReference
  rw [h]
  rfl

/-- C6 (witness): a reference into the schema of another package. -/
theorem fixReference_external_witness :
    fixReference "/aws/v5.0.0/schema.json#/types/aws:ec2:Subnet".toList "pkg".toList
        [("ec2".toList, "compute".toList)]
      = some "/aws/v5.0.0/schema.json#/types/aws:ec2:Subnet".toList :=
  fixReference_external _ _ _ (by decide)

/-- C7 (evaluation at the failing input): on the reference `#/types/`, which has
nothing after the slash of the kind segment, the slice `s[i+2:]` is out of
range and `fixReference` fails, for every package name and module map; the
references `#/types` (no slash after the prefix) and `#/types/x` (a tail that is
no token) are returned as they are. -/
theorem fixReference_empty_tail_fails :
    (∀ (pkg : Str) (modMap : ModMap), fixReference "#/types/".toList pkg modMap = none) ∧
    (∀ (pkg : Str) (modMap : ModMap),
      fixReference "#/types".toList pkg modMap = some "#/types".toList) ∧
    (∀ (pkg : Str) (modMap : ModMap),
      fixReference "#/types/x".toList pkg modMap = some "#/types/x".toList) := by
  refine ⟨fun pkg modMap => ?_, fun pkg modMap => ?_, fun pkg modMap => ?_⟩
  · exact fixReference_internal "types".toList [] pkg modMap (by decide)
  · rfl
  · exact fixReference_internal "types".toList ['x'] pkg modMap (by decide)

/-- C8 (evaluation at the failing input): the text `:vpc:CidrBlock` parses as a
type token and is namespaced to `pkg:networking:CidrBlock`, but the reference
`#/types/:vpc:CidrBlock` is returned as it is: what `fixReference` parses is
`s[i+2:]`, the text after the slash less its first character, here
`vpc:CidrBlock`, which is no type token. -/
theorem fixReference_drops_first_character :
    ParseTypeToken ":vpc:CidrBlock".toList = some ":vpc:CidrBlock".toList ∧
    assignTo ":vpc:CidrBlock".toList "pkg".toList [("vpc".toList, "networking".toList)]
      = some "pkg:networking:CidrBlock".toList ∧
    fixReference "#/types/:vpc:CidrBlock".toList "pkg".toList
        [("vpc".toList, "networking".toList)]
      = some "#/types/:vpc:CidrBlock".toList ∧
    fixReference "#/types/:vpc:CidrBlock".toList "pkg".toList
        [("vpc".toList, "networking".toList)]
      ≠ some "#/types/pkg:networking:CidrBlock".toList := by
  refine ⟨by decide, by decide, by decide, by decide⟩

/-! ## The traversal -/

/-- C9 (evaluation at the failing input): under the module map `{a: b, b: c}`
the rewriter maps `#/types/pkg:a:T` to `#/types/pkg:b:T`, and `renamePackage`
leaves `#/types/pkg:c:T` in the property `cidr` of a complex type: the
properties of the embedded `ObjectTypeSpec` are walked once inside it and once
more as a promoted field, so the reference is rewritten twice.  In a resource
the same reference under `InputProperties`, which is walked once, becomes
`#/types/pkg:b:T`. -/
theorem renamePackage_rewrites_twice :
    fixReference "#/types/pkg:a:T".toList "pkg".toList
        [("a".toList, "b".toList), ("b".toList, "c".toList)]
      = some "#/types/pkg:b:T".toList ∧
    (renamePackage
        ({ Properties := [("cidr".toList, { Ref := "#/types/pkg:a:T".toList })] } :
          ComplexTypeSpec)
        "pkg".toList [("a".toList, "b".toList), ("b".toList, "c".toList)]).map
        (fun y => y.Properties.map (fun kv => (kv.1, kv.2.Ref)))
      = some [("cidr".toList, "#/types/pkg:c:T".toList)] ∧
    (renamePackage
        ({ Properties := [("cidr".toList, { Ref := "#/types/pkg:a:T".toList })],
           InputProperties := [("cidr".toList, { Ref := "#/types/pkg:a:T".toList })] } :
          ResourceSpec)
        "pkg".toList [("a".toList, "b".toList), ("b".toList, "c".toList)]).map
        (fun y => (y.Properties.map (fun kv => (kv.1, kv.2.Ref)),
          y.InputProperties.map (fun kv => (kv.1, kv.2.Ref))))
      = some ([("cidr".toList, "#/types/pkg:c:T".toList)],
          [("cidr".toList, "#/types/pkg:b:T".toList)]) := by
  refine ⟨by decide, by decide, by decide⟩

/-! ## The harvester -/

section harvester

variable {S σ : Type} [Renamable S] [Inhabited S]

/-- A call of `addElement` that returns a nil error: the contributor gave a
token and a fragment, and what is returned is the namespaced token and the
renamed fragment. -/
theorem addElement_ok (pkgName : Str) (reg : RegisterDerivativeType σ) (modMap : ModMap)
    (f : Contributor S) (st st' : σ) (tk' : Str) (element : S)
    (h : addElement pkgName reg modMap f st = some ((tk', element, none), st')) :
    ∃ tk fragment, f.GetToken = .ok tk ∧ assignTo tk pkgName modMap = some tk' ∧
      f.GetSchema.run reg st = some (.ok fragment, st') ∧
      renamePackage fragment pkgName modMap = some element := by
  unfold addElement at h
  cases htok : f.GetToken with
  | error err => simp [htok] at h
  | ok tk =>
    simp only [htok] at h
    cases hkey : assignTo tk pkgName modMap with
    | none => simp [hkey, Option.bind] at h
    | some key =>
      simp only [hkey, Option.bind] at h
      cases hrun : f.GetSchema.run reg st with
      | none => simp [hrun] at h
      | some res =>
        obtain ⟨r, st1⟩ := res
        simp only [hrun] at h
        cases r with
        | error err => simp at h
        | ok fn =>
          simp only at h
          cases hren : renamePackage fn pkgName modMap with
          | none => simp [hren] at h
          | some el =>
            simp only [hren, Option.some.injEq, Prod.mk.injEq, and_true] at h
            obtain ⟨⟨h1, h2⟩, h3⟩ := h
            subst h1 h2 h3
            exact ⟨tk, fn, rfl, hkey, rfl, hren⟩

/-- The loop of `addElements` only appends to the errors it starts from. -/
theorem addElementsLoop_errors (pkgName : Str) (reg : RegisterDerivativeType σ)
    (modMap : ModMap) (els : List (Contributor S)) :
    ∀ (errs : List Str) (m : GoMap S) (st : σ) (errs' : List Str) (m' : GoMap S) (st' : σ),
    addElementsLoop pkgName reg modMap els errs m st = some (errs', m', st') →
    ∃ more, errs' = errs ++ more := by
  induction els with
  | nil =>
    intro errs m st errs' m' st' h
    simp only [addElementsLoop, Option.some.injEq, Prod.mk.injEq] at h
    exact ⟨[], by simp [h.1]⟩
  | cons f els ih =>
    intro errs m st errs' m' st' h
    simp only [addElementsLoop] at h
    cases hstep : addElement pkgName reg modMap f st with
    | none => simp [hstep, Option.bind] at h
    | some res =>
      obtain ⟨⟨tk, element, err⟩, st1⟩ := res
      simp only [hstep, Option.bind] at h
      cases err with
      | some e =>
        obtain ⟨more, hmore⟩ := ih _ _ _ _ _ _ h
        exact ⟨e :: more, by simp [hmore]⟩
      | none => exact ih _ _ _ _ _ _ h

/-- The loop of `addElements` when it ends without an error: the keys of the
mapping are the keys it had and the namespaced tokens of the contributors, and
every entry is one it had or the renamed fragment of a contributor. -/
theorem addElementsLoop_success (pkgName : Str) (reg : RegisterDerivativeType σ)
    (modMap : ModMap) (els : List (Contributor S)) :
    ∀ (m : GoMap S) (st : σ) (m' : GoMap S) (st' : σ),
    addElementsLoop pkgName reg modMap els [] m st = some ([], m', st') →
    (∀ k, k ∈ m'.keys ↔ k ∈ m.keys ∨
      ∃ f ∈ els, ∃ tk, f.GetToken = .ok tk ∧ assignTo tk pkgName modMap = some k) ∧
    (m.keys.Nodup → m'.keys.Nodup) ∧
    (∀ k v, m'.get k = some v → m.get k = some v ∨
      ∃ f ∈ els, ∃ tk fragment st1 st2, f.GetToken = .ok tk ∧
        assignTo tk pkgName modMap = some k ∧
        f.GetSchema.run reg st1 = some (.ok fragment, st2) ∧
        renamePackage fragment pkgName modMap = some v) ∧
    (∀ f ∈ els, ∃ tk k, f.GetToken = .ok tk ∧ assignTo tk pkgName modMap = some k) := by
  induction els with
  | nil =>
    intro m st m' st' h
    simp only [addElementsLoop, Option.some.injEq, Prod.mk.injEq, true_and] at h
    obtain ⟨rfl, -⟩ := h
    exact ⟨fun k => by simp, fun h => h, fun k v h => Or.inl h, fun f hf => by simp at hf⟩
  | cons f els ih =>
    intro m st m' st' h
    simp only [addElementsLoop] at h
    cases hstep : addElement pkgName reg modMap f st with
    | none => simp [hstep, Option.bind] at h
    | some res =>
      obtain ⟨⟨tk', element, err⟩, st1⟩ := res
      simp only [hstep, Option.bind] at h
      cases err with
      | some e =>
        obtain ⟨more, hmore⟩ := addElementsLoop_errors pkgName reg modMap els _ _ _ _ _ _ h
        simp at hmore
      | none =>
        simp only at h
        obtain ⟨tk, fragment, htok, hkey, hrun, hren⟩ :=
          addElement_ok pkgName reg modMap f st st1 tk' element hstep
        obtain ⟨hkeys, hnd, hvals, hall⟩ := ih _ _ _ _ h
        refine ⟨?_, ?_, ?_, ?_⟩
        · intro k
          rw [hkeys k, GoMap.mem_keys_set]
          constructor
          · rintro ((rfl | hk) | ⟨g, hg, hgk⟩)
            · exact Or.inr ⟨f, List.mem_cons_self _ _, tk, htok, hkey⟩
            · exact Or.inl hk
            · exact Or.inr ⟨g, List.mem_cons_of_mem _ hg, hgk⟩
          · rintro (hk | ⟨g, hg, tk2, hg1, hg2⟩)
            · exact Or.inl (Or.inr hk)
            · rcases List.mem_cons.1 hg with rfl | hg
              · rw [htok] at hg1
                cases hg1
                rw [hkey] at hg2
                cases hg2
                exact Or.inl (Or.inl rfl)
              · exact Or.inr ⟨g, hg, tk2, hg1, hg2⟩
        · intro hm
          exact hnd (GoMap.nodup_keys_set m tk' element hm)
        · intro k v hk
          rcases hvals k v hk with hk' | ⟨g, hg, hrest⟩
          · by_cases hkk : k = tk'
            · subst hkk
              rw [GoMap.get_set_self] at hk'
              cases hk'
              exact Or.inr ⟨f, List.mem_cons_self _ _, tk, fragment, st, st1, htok, hkey, hrun,
                hren⟩
            · rw [GoMap.get_set_ne m element hkk] at hk'
              exact Or.inl hk'
          · exact Or.inr ⟨g, List.mem_cons_of_mem _ hg, hrest⟩
        · intro g hg
          rcases List.mem_cons.1 hg with rfl | hg
          · exact ⟨tk, tk', htok, hkey⟩
          · exact hall g hg

/-- C10: when `addElements` runs over contributors that all succeed (it returns
an empty compound error) into an empty destination mapping, every contributor
has a token that is namespaced to a key, the keys of the mapping are exactly
these namespaced tokens, pairwise distinct, each of the form
`pkg:module:name` with the package `pkgName` and a module looked up in the
module map, and the value under a key is `renamePackage` of the fragment that a
contributor with that namespaced token returned. -/
theorem addElements_keys (els : List (Contributor S)) (pkgName : Str)
    (reg : RegisterDerivativeType σ) (modMap : ModMap) (st : σ) (m' : GoMap S) (st' : σ)
    (hrun : addElements els [] pkgName reg modMap st = some ([], m', st')) :
    (∀ f ∈ els, ∃ tk k, f.GetToken = .ok tk ∧ assignTo tk pkgName modMap = some k) ∧
    (∀ k, k ∈ m'.keys ↔
      ∃ f ∈ els, ∃ tk, f.GetToken = .ok tk ∧ assignTo tk pkgName modMap = some k) ∧
    m'.keys.Nodup ∧
    (∀ k ∈ m'.keys, ∃ mod nm,
      k = pkgName ++ TokenDelimiter :: ((modMap.get mod).getD mod ++ TokenDelimiter :: nm)) ∧
    (∀ k v, m'.get k = some v →
      ∃ f ∈ els, ∃ tk fragment st1 st2, f.GetToken = .ok tk ∧
        assignTo tk pkgName modMap = some k ∧
        f.GetSchema.run reg st1 = some (.ok fragment, st2) ∧
        renamePackage fragment pkgName modMap = some v) := by
  obtain ⟨hkeys, hnd, hvals, hall⟩ :=
    addElementsLoop_success pkgName reg modMap els [] st m' st' hrun
  have hkeys' : ∀ k, k ∈ m'.keys ↔
      ∃ f ∈ els, ∃ tk, f.GetToken = .ok tk ∧ assignTo tk pkgName modMap = some k := by
    intro k
    rw [hkeys k]
    simp [GoMap.keys]
  refine ⟨hall, hkeys', hnd (by simp [GoMap.keys]), ?_, ?_⟩
  · intro k hk
    obtain ⟨f, -, tk, -, hkey⟩ := (hkeys' k).1 hk
    obtain ⟨-, -, -, hr⟩ := (assignTo_eq_some tk pkgName modMap k).1 hkey
    exact ⟨beforeDelimiter (afterDelimiter tk), afterDelimiter (afterDelimiter tk), hr⟩
  · intro k v hk
    rcases hvals k v hk with h | h
    · simp [GoMap.get] at h
    · exact h

end harvester

/-- C10 (witness): the namespace remap scenario.  The resources mapping gets the
key `pkg:networking:Subnet`, the types mapping the key
`pkg:networking:CidrBlock`, and the reference of the property reads
`#/types/pkg:networking:CidrBlock`; the package that `generateSchema` builds for
the builder of the scenario holds the same keys and reference. -/
theorem addElements_keys_witness :
    ∃ resources types,
      addElements [scenarioSubnet] [] "pkg".toList
        (registerDerivative "pkg".toList scenarioModuleMap) scenarioModuleMap []
        = some ([], resources, types) ∧
      resources.keys = ["pkg:networking:Subnet".toList] ∧
      types.keys = ["pkg:networking:CidrBlock".toList] ∧
      (resources.get "pkg:networking:Subnet".toList).map (fun r => propertyRefs r.Properties)
        = some [("cidrBlock".toList, "#/types/pkg:networking:CidrBlock".toList)] ∧
      (∀ k, k ∈ resources.keys ↔
        ∃ f ∈ [scenarioSubnet], ∃ tk, f.GetToken = .ok tk ∧
          assignTo tk "pkg".toList scenarioModuleMap = some k) ∧
      (∀ enc : Encoder,
        (buildPackage enc ⟨"pkg".toList, "1.0.0".toList⟩ scenarioProvider).map
          (fun r => r.map fun ep => (ep.1, ep.2.Resources.keys, ep.2.Types.keys,
            (ep.2.Resources.get "pkg:networking:Subnet".toList).map
              fun res => propertyRefs res.Properties))
        = some (.ok ([], ["pkg:networking:Subnet".toList], ["pkg:networking:CidrBlock".toList],
            some [("cidrBlock".toList, "#/types/pkg:networking:CidrBlock".toList)]))) := by
  have heval : addElements [scenarioSubnet] [] "pkg".toList
      (registerDerivative "pkg".toList scenarioModuleMap) scenarioModuleMap []
      = some ([],
          [("pkg:networking:Subnet".toList,
            ({ Properties := [("cidrBlock".toList,
                { Ref := "#/types/pkg:networking:CidrBlock".toList })] } : ResourceSpec))],
          [("pkg:networking:CidrBlock".toList, scenarioCidrBlock)]) := rfl
  exact ⟨_, _, heval, rfl, rfl, rfl,
    (addElements_keys [scenarioSubnet] "pkg".toList
      (registerDerivative "pkg".toList scenarioModuleMap) scenarioModuleMap [] _ _ heval).2.1,
    fun _ => rfl⟩

/-! ## The example provider -/

theorem clusterArgs_ne_iff (a b : ClusterArgs) :
    a ≠ b ↔ a.Name ≠ b.Name ∨ a.CloudRegionId ≠ b.CloudRegionId ∨
      a.MinWorkers ≠ b.MinWorkers ∨ a.MaxWorkers ≠ b.MaxWorkers := by
  obtain ⟨n1, r1, lo1, hi1⟩ := a
  obtain ⟨n2, r2, lo2, hi2⟩ := b
  simp only [ne_eq, ClusterArgs.mk.injEq]
  tauto

/-- C17: `Cluster.Diff` reports the changed inputs.  The detailed diff holds an
entry of kind `Update` under `name`, `cloudRegionId`, `minWorkers` and
`maxWorkers` exactly when that field of `news` differs from the one of
`olds.ClusterArgs`, and no entry under another key; `HasChanges` is true exactly
when `news` differs from `olds.ClusterArgs`; `DeleteBeforeReplace` is false; the
error is nil; and the cluster id of `olds` plays no part. -/
theorem Cluster_Diff_reports_changed_inputs (olds : ClusterState) (news : ClusterArgs) :
    (Cluster.Diff olds news).2 = none ∧
    (Cluster.Diff olds news).1.DeleteBeforeReplace = false ∧
    ((Cluster.Diff olds news).1.HasChanges = true ↔ news ≠ olds.toClusterArgs) ∧
    ((Cluster.Diff olds news).1.DetailedDiff.get "name".toList =
      if news.Name ≠ olds.Name then some { Kind := .Update, InputDiff := false } else none) ∧
    ((Cluster.Diff olds news).1.DetailedDiff.get "cloudRegionId".toList =
      if news.CloudRegionId ≠ olds.CloudRegionId then
        some { Kind := .Update, InputDiff := false } else none) ∧
    ((Cluster.Diff olds news).1.DetailedDiff.get "minWorkers".toList =
      if news.MinWorkers ≠ olds.MinWorkers then
        some { Kind := .Update, InputDiff := false } else none) ∧
    ((Cluster.Diff olds news).1.DetailedDiff.get "maxWorkers".toList =
      if news.MaxWorkers ≠ olds.MaxWorkers then
        some { Kind := .Update, InputDiff := false } else none) ∧
    (∀ k ∈ (Cluster.Diff olds news).1.DetailedDiff.keys,
      k ∈ ["name".toList, "cloudRegionId".toList, "minWorkers".toList, "maxWorkers".toList]) ∧
    (Cluster.Diff olds news).1.DetailedDiff.keys.Nodup ∧
    (∀ clusterId : Str, Cluster.Diff { olds with ClusterId := clusterId } news
      = Cluster.Diff olds news) := by
  have hne := clusterArgs_ne_iff news olds.toClusterArgs
  by_cases h1 : news.Name = olds.Name <;>
  by_cases h2 : news.CloudRegionId = olds.CloudRegionId <;>
  by_cases h3 : news.MinWorkers = olds.MinWorkers <;>
  by_cases h4 : news.MaxWorkers = olds.MaxWorkers <;>
  simp only [Cluster.Diff, h1, h2, h3, h4, ne_eq, not_true_eq_false, not_false_eq_true,
    if_true, if_false, hne, or_self, or_true, true_or, iff_true] <;>
  refine ⟨trivial, trivial, by decide, by decide, by decide, by decide, by decide,
    by decide, by decide, fun _ => trivial⟩

/-- C17 (witness): from two to three minimum workers, with a new cluster id in
`olds`: one entry, under `minWorkers`. -/
theorem Cluster_Diff_reports_changed_inputs_witness :
    (Cluster.Diff
      { Name := "a".toList, CloudRegionId := "r".toList, MinWorkers := 2, MaxWorkers := 4,
        ClusterId := "c-1".toList }
      { Name := "a".toList, CloudRegionId := "r".toList, MinWorkers := 3, MaxWorkers := 4 }).1.HasChanges
      = true ∧
    (Cluster.Diff
      { Name := "a".toList, CloudRegionId := "r".toList, MinWorkers := 2, MaxWorkers := 4,
        ClusterId := "c-1".toList }
      { Name := "a".toList, CloudRegionId := "r".toList, MinWorkers := 3, MaxWorkers := 4
        }).1.DetailedDiff.keys = ["minWorkers".toList] :=
  ⟨(Cluster_Diff_reports_changed_inputs _ _).2.2.1.2 (by decide), by decide⟩

/-- C18: when `preview` is true or `news` equals `olds.ClusterArgs`,
`Cluster.Update` passes no request to `callGalaxy` and returns the zero
`ClusterState` (empty name, region and cluster id, zero worker counts) with a
nil error; the cluster id of `olds` is not carried into the state returned. -/
theorem Cluster_Update_noop (remote : Remote) (olds : ClusterState) (news : ClusterArgs)
    (preview : Bool) (h : preview = true ∨ news = olds.toClusterArgs) :
    Cluster.Update remote olds news preview
      = ([], some ({ Name := [], CloudRegionId := [], MinWorkers := 0, MaxWorkers := 0,
                     ClusterId := [] }, none)) ∧
    (olds.ClusterId ≠ [] →
      ∀ st err, (Cluster.Update remote olds news preview).2 = some (st, err) →
        st.ClusterId ≠ olds.ClusterId ∧ st ≠ olds) := by
  have heval : Cluster.Update remote olds news preview
      = ([], some ({ Name := [], CloudRegionId := [], MinWorkers := 0, MaxWorkers := 0,
                     ClusterId := [] }, none)) := by
    rcases h with h | h
    · simp [Cluster.Update, h]
    · simp [Cluster.Update, h]
  refine ⟨heval, ?_⟩
  intro hid st err hst
  rw [heval] at hst
  simp only [Option.some.injEq, Prod.mk.injEq] at hst
  obtain ⟨rfl, -⟩ := hst
  refine ⟨fun hc => hid hc.symm, fun hc => hid ?_⟩
  rw [← hc]

/-- C18 (witness): a preview of an update that changes the name of the cluster
`c-1` returns the zero state, without a request, also when every remote call
would fail. -/
theorem Cluster_Update_noop_witness :
    Cluster.Update
        ⟨fun _ => .error [], fun _ _ _ => .error [], fun _ => none, fun _ => .error []⟩
        { Name := "a".toList, CloudRegionId := "r".toList, MinWorkers := 1, MaxWorkers := 2,
          ClusterId := "c-1".toList }
        { Name := "b".toList, CloudRegionId := "r".toList, MinWorkers := 1, MaxWorkers := 2 }
        true
      = ([], some ({ Name := [], CloudRegionId := [], MinWorkers := 0, MaxWorkers := 0,
                     ClusterId := [] }, none)) :=
  (Cluster_Update_noop _ _ _ true (Or.inl rfl)).1

/-! ## The cache -/

/-- A generation that returns a nil error stores a document in the cache slot
and changes nothing else. -/
theorem generateSchema_ok (enc : Encoder) (info : RunInfo) (s s' : Provider)
    (h : Provider.generateSchema enc info s = some (none, s')) :
    ∃ bytes, s' = { s with schema := bytes } := by
  unfold Provider.generateSchema at h
  cases hb : buildPackage enc info s with
  | none => simp [hb, Option.bind] at h
  | some r =>
    simp only [hb, Option.bind] at h
    cases r with
    | error err => simp at h
    | ok ep =>
      obtain ⟨errs, pkg⟩ := ep
      simp only at h
      split at h
      · simp at h
      · cases hm : enc.marshalPackage pkg with
        | error err => simp [hm] at h
        | ok bytes =>
          simp only [hm, Option.some.injEq, Prod.mk.injEq, true_and] at h
          exact ⟨bytes, h.symm⟩

/-- A generation that returns an error leaves the builder as it is. -/
theorem generateSchema_error (enc : Encoder) (info : RunInfo) (s s' : Provider) (e : GenError)
    (h : Provider.generateSchema enc info s = some (some e, s')) : s' = s := by
  unfold Provider.generateSchema at h
  cases hb : buildPackage enc info s with
  | none => simp [hb, Option.bind] at h
  | some r =>
    simp only [hb, Option.bind] at h
    cases r with
    | error err =>
      simp only [Option.some.injEq, Prod.mk.injEq] at h
      exact h.2.symm
    | ok ep =>
      obtain ⟨errs, pkg⟩ := ep
      simp only at h
      split at h
      · simp only [Option.some.injEq, Prod.mk.injEq] at h
        exact h.2.symm
      · cases hm : enc.marshalPackage pkg with
        | error err =>
          simp only [hm, Option.some.injEq, Prod.mk.injEq] at h
          exact h.2.symm
        | ok bytes => simp [hm] at h

/-- C14: `GetSchema` returns the cached value.  With a non-empty cache slot it
returns that string with a nil error and leaves the builder as it is, whatever
the contributors are; after a `GetSchema` on an empty cache that returns a
document, the cache slot is that document and the next `GetSchema` returns the
same document and leaves the builder as it is. -/
theorem GetSchema_returns_cache (enc : Encoder) (info : RunInfo) (s : Provider) :
    (s.schema ≠ [] → Provider.GetSchema enc info s = some (.ok s.schema, s)) ∧
    (s.schema ≠ [] → ∀ resources invokes provider,
      Provider.GetSchema enc info
          { s with resources := resources, invokes := invokes, provider := provider }
        = some (.ok s.schema,
          { s with resources := resources, invokes := invokes, provider := provider })) ∧
    (s.schema = [] → ∀ doc s', Provider.GetSchema enc info s = some (.ok doc, s') →
      s'.schema = doc ∧ Provider.GetSchema enc info s' = some (.ok doc, s')) := by
  refine ⟨?_, ?_, ?_⟩
  · intro h
    simp [Provider.GetSchema, h]
  · intro h resources invokes provider
    simp [Provider.GetSchema, h]
  · intro hempty doc s' h
    have h0 := h
    unfold Provider.GetSchema at h
    simp only [hempty, if_true] at h
    cases hg : Provider.generateSchema enc info s with
    | none => simp [hg, Option.bind] at h
    | some r =>
      obtain ⟨err, s1⟩ := r
      simp only [hg, Option.bind] at h
      cases err with
      | some e => simp at h
      | none =>
        simp only [Option.some.injEq, Prod.mk.injEq, Except.ok.injEq] at h
        obtain ⟨hdoc, rfl⟩ := h
        refine ⟨hdoc, ?_⟩
        obtain ⟨bytes, hs1⟩ := generateSchema_ok enc info s s1 hg
        by_cases hb : bytes = []
        · have : s1 = s := by
            rw [hs1, hb]
            cases s
            simp only at hempty
            simp [hempty]
          rw [this]
          rw [this] at h0
          exact h0
        · have hne : s1.schema ≠ [] := by
            rw [hs1]
            exact hb
          rw [← hdoc]
          simp [Provider.GetSchema, hne]

/-- C14 (witness): the first `GetSchema` of the builder of the scenario
generates the document and stores it; the second returns it from the cache. -/
theorem GetSchema_returns_cache_witness :
    ∃ doc s', Provider.GetSchema scenarioEncoder scenarioInfo scenarioProvider
        = some (.ok doc, s') ∧
      doc = "pkg resources pkg:networking:Subnet types pkg:networking:CidrBlock".toList ∧
      s'.schema = doc ∧
      Provider.GetSchema scenarioEncoder scenarioInfo s' = some (.ok doc, s') := by
  have h : Provider.GetSchema scenarioEncoder scenarioInfo scenarioProvider
      = some (.ok "pkg resources pkg:networking:Subnet types pkg:networking:CidrBlock".toList,
          { scenarioProvider with
            schema :=
              "pkg resources pkg:networking:Subnet types pkg:networking:CidrBlock".toList }) :=
    rfl
  have h2 := (GetSchema_returns_cache scenarioEncoder scenarioInfo scenarioProvider).2.2 rfl _ _ h
  exact ⟨_, _, h, rfl, h2.1, h2.2⟩

/-! ## The harvester: every contributor is called -/

theorem callErrors_eq_nil {S : Type} [Inhabited S] (outs : List (Str × S × Option Str)) :
    callErrors outs = [] ↔ ∀ out ∈ outs, out.2.2 = none := by
  induction outs with
  | nil => simp [callErrors]
  | cons out outs ih =>
    simp only [callErrors] at ih
    cases h : out.2.2 with
    | none => simp [callErrors, List.filterMap_cons, h, ih]
    | some e => simp [callErrors, List.filterMap_cons, h]

theorem mem_keys_callInserts {S : Type} [Inhabited S] (outs : List (Str × S × Option Str)) :
    ∀ (m : GoMap S) (k : Str),
    k ∈ (callInserts m outs).keys ↔
      k ∈ m.keys ∨ ∃ out ∈ outs, out.2.2 = none ∧ out.1 = k := by
  induction outs with
  | nil =>
    intro m k
    simp [callInserts]
  | cons out outs ih =>
    intro m k
    have hcons : callInserts m (out :: outs) =
        callInserts (match out.2.2 with
          | none => m.set out.1 out.2.1
          | some _ => m) outs := rfl
    rw [hcons]
    cases h : out.2.2 with
    | none =>
      simp only [h]
      rw [ih, GoMap.mem_keys_set]
      constructor
      · rintro ((rfl | hk) | ⟨o, ho, hn, hk⟩)
        · exact Or.inr ⟨out, List.mem_cons_self _ _, h, rfl⟩
        · exact Or.inl hk
        · exact Or.inr ⟨o, List.mem_cons_of_mem _ ho, hn, hk⟩
      · rintro (hk | ⟨o, ho, hn, hk⟩)
        · exact Or.inl (Or.inr hk)
        · rcases List.mem_cons.1 ho with rfl | ho
          · exact Or.inl (Or.inl hk.symm)
          · exact Or.inr ⟨o, ho, hn, hk⟩
    | some e =>
      simp only [h]
      rw [ih]
      constructor
      · rintro (hk | ⟨o, ho, hn, hk⟩)
        · exact Or.inl hk
        · exact Or.inr ⟨o, List.mem_cons_of_mem _ ho, hn, hk⟩
      · rintro (hk | ⟨o, ho, hn, hk⟩)
        · exact Or.inl hk
        · rcases List.mem_cons.1 ho with rfl | ho
          · rw [h] at hn
            exact Option.noConfusion hn
          · exact Or.inr ⟨o, ho, hn, hk⟩

section calls

variable {S σ : Type} [Renamable S] [Inhabited S]

/-- The loop of `addElements` in terms of its calls of `addElement`. -/
theorem addElementsLoop_eq_calls (pkgName : Str) (reg : RegisterDerivativeType σ)
    (modMap : ModMap) (els : List (Contributor S)) :
    ∀ (errs : List Str) (m : GoMap S) (st : σ),
    addElementsLoop pkgName reg modMap els errs m st =
      (addElementCalls pkgName reg modMap els st).map fun r =>
        (errs ++ callErrors r.1, callInserts m r.1, r.2) := by
  induction els with
  | nil =>
    intro errs m st
    simp [addElementsLoop, addElementCalls, callErrors, callInserts]
  | cons f els ih =>
    intro errs m st
    simp only [addElementsLoop, addElementCalls]
    cases hstep : addElement pkgName reg modMap f st with
    | none => rfl
    | some res =>
      obtain ⟨⟨tk, element, err⟩, st1⟩ := res
      simp only [Option.bind]
      cases err with
      | some e =>
        simp only [ih]
        cases addElementCalls pkgName reg modMap els st1 with
        | none => rfl
        | some r =>
          simp [callErrors, callInserts, List.filterMap_cons]
      | none =>
        simp only [ih]
        cases addElementCalls pkgName reg modMap els st1 with
        | none => rfl
        | some r =>
          simp [callErrors, callInserts, List.filterMap_cons]

/-- The calls of `addElement` pair off with the contributors. -/
theorem addElementCalls_forall₂ (pkgName : Str) (reg : RegisterDerivativeType σ)
    (modMap : ModMap) (els : List (Contributor S)) :
    ∀ (st : σ) (outs : List (Str × S × Option Str)) (st' : σ),
    addElementCalls pkgName reg modMap els st = some (outs, st') →
    List.Forall₂ (fun f out => ∃ st0 st1, addElement pkgName reg modMap f st0 = some (out, st1))
      els outs := by
  induction els with
  | nil =>
    intro st outs st' h
    simp only [addElementCalls, Option.some.injEq, Prod.mk.injEq] at h
    rw [← h.1]
    exact List.Forall₂.nil
  | cons f els ih =>
    intro st outs st' h
    simp only [addElementCalls] at h
    cases hstep : addElement pkgName reg modMap f st with
    | none => simp [hstep, Option.bind] at h
    | some res =>
      obtain ⟨out, st1⟩ := res
      simp only [hstep, Option.bind] at h
      cases hrest : addElementCalls pkgName reg modMap els st1 with
      | none => simp [hrest] at h
      | some r =>
        obtain ⟨outs1, st2⟩ := r
        simp only [hrest, Option.some.injEq, Prod.mk.injEq] at h
        rw [← h.1]
        exact List.Forall₂.cons ⟨st, st1, hstep⟩ (ih st1 outs1 st2 hrest)

/-- A call of `addElement` returns an error exactly when `GetToken` or
`GetSchema` of the contributor does. -/
theorem addElement_error_iff (pkgName : Str) (reg : RegisterDerivativeType σ) (modMap : ModMap)
    (f : Contributor S) (st st' : σ) (out : Str × S × Option Str)
    (h : addElement pkgName reg modMap f st = some (out, st')) :
    out.2.2 ≠ none ↔
      (∃ e, f.GetToken = .error e) ∨
      (∃ tk e st2, f.GetToken = .ok tk ∧ f.GetSchema.run reg st = some (.error e, st2)) := by
  unfold addElement at h
  cases htok : f.GetToken with
  | error err =>
    simp only [htok, Option.some.injEq, Prod.mk.injEq] at h
    rw [← h.1]
    simp
  | ok tk =>
    simp only [htok] at h
    cases hkey : assignTo tk pkgName modMap with
    | none => simp [hkey, Option.bind] at h
    | some key =>
      simp only [hkey, Option.bind] at h
      cases hrun : f.GetSchema.run reg st with
      | none => simp [hrun] at h
      | some res =>
        obtain ⟨r, st1⟩ := res
        simp only [hrun] at h
        cases r with
        | error err =>
          simp only [Option.some.injEq, Prod.mk.injEq] at h
          rw [← h.1]
          simp
        | ok fn =>
          simp only at h
          cases hren : renamePackage fn pkgName modMap with
          | none => simp [hren] at h
          | some el =>
            simp only [hren, Option.some.injEq, Prod.mk.injEq] at h
            rw [← h.1]
            simp

/-- C12: `addElements` never stops early.  Its result is determined by one call
of `addElement` for each contributor, in list order: the compound error holds
the errors of the calls that returned one, in that order, and the mapping gets
the entry of every call that returned none.  A call returns an error exactly
when `GetToken` or `GetSchema` of its contributor fails; the compound error is
empty exactly when no call returned an error; the key of every call without an
error is in the mapping, wherever the call stands in the list. -/
theorem addElements_never_stops_early (els : List (Contributor S)) (m : GoMap S)
    (pkgName : Str) (reg : RegisterDerivativeType σ) (modMap : ModMap) (st : σ) :
    addElements els m pkgName reg modMap st =
      (addElementCalls pkgName reg modMap els st).map
        (fun r => (callErrors r.1, callInserts m r.1, r.2)) ∧
    ∀ outs st', addElementCalls pkgName reg modMap els st = some (outs, st') →
      List.Forall₂ (fun f out => ∃ st0 st1,
          addElement pkgName reg modMap f st0 = some (out, st1) ∧
          (out.2.2 ≠ none ↔
            (∃ e, f.GetToken = .error e) ∨
            (∃ tk e st2, f.GetToken = .ok tk ∧
              f.GetSchema.run reg st0 = some (.error e, st2)))) els outs ∧
      outs.length = els.length ∧
      (callErrors outs = [] ↔ ∀ out ∈ outs, out.2.2 = none) ∧
      (∀ out ∈ outs, out.2.2 = none → out.1 ∈ (callInserts m outs).keys) := by
  refine ⟨?_, ?_⟩
  · unfold addElements
    rw [addElementsLoop_eq_calls]
    simp
  · intro outs st' h
    have hpair := addElementCalls_forall₂ pkgName reg modMap els st outs st' h
    refine ⟨?_, hpair.length_eq.symm, callErrors_eq_nil outs, ?_⟩
    · refine List.Forall₂.imp ?_ hpair
      rintro f out ⟨st0, st1, hcall⟩
      exact ⟨st0, st1, hcall, addElement_error_iff pkgName reg modMap f st0 st1 out hcall⟩
    · intro out hout hnone
      exact (mem_keys_callInserts outs m out.1).2 (Or.inr ⟨out, hout, hnone, rfl⟩)

end calls

/-- C12 (witness): a contributor without a token, one whose `GetSchema` fails
and the subnet of the scenario, in this order: two errors, in order, and the
subnet is in the mapping. -/
theorem addElements_never_stops_early_witness :
    (addElements [scenarioNoToken, scenarioNoSchema, scenarioSubnet] [] "pkg".toList
        (registerDerivative "pkg".toList scenarioModuleMap) scenarioModuleMap []).map
        (fun r => (r.1, r.2.1.keys))
      = some (["no token".toList,
          "failed to get schema for 'pkg:networking:Gateway': no schema".toList],
        ["pkg:networking:Subnet".toList]) := by
  rw [(addElements_never_stops_early [scenarioNoToken, scenarioNoSchema, scenarioSubnet] []
    "pkg".toList (registerDerivative "pkg".toList scenarioModuleMap) scenarioModuleMap []).1]
  rfl

/-! ## Generation failure -/

/-- The part of `generateSchema` before `errs.ErrorOrNil()` in terms of its
calls of `addElement`: an error of `json.Marshal` on a language value comes
first; otherwise the errors gathered are the errors of the calls. -/
theorem buildPackage_of_harvestCalls (enc : Encoder) (info : RunInfo) (s : Provider)
    (h : List (Str × ResourceSpec × Option Str) × List (Str × FunctionSpec × Option Str) ×
      Option (Str × ResourceSpec × Option Str) × Types)
    (hh : harvestCalls info s = some h) :
    (∀ err, marshalLanguages enc s.languages [] = .error err →
      buildPackage enc info s = some (.error err)) ∧
    (∀ language, marshalLanguages enc s.languages [] = .ok language →
      ∃ pkg, buildPackage enc info s = some (.ok (harvestErrors h, pkg)) ∧
        pkg.Resources = callInserts [] h.1 ∧ pkg.Functions = callInserts [] h.2.1 ∧
        pkg.Types = h.2.2.2) := by
  refine ⟨?_, ?_⟩
  · intro err herr
    simp only [buildPackage, herr]
  · intro language hlang
    unfold harvestCalls at hh
    simp only [buildPackage, hlang, addElements, addElementsLoop_eq_calls]
    cases hres : addElementCalls info.PackageName
        (registerDerivative info.PackageName s.moduleMap) s.moduleMap s.resources [] with
    | none => simp [hres, Option.bind] at hh
    | some r1 =>
      obtain ⟨outsR, types1⟩ := r1
      simp only [hres, Option.bind] at hh
      cases hinv : addElementCalls info.PackageName
          (registerDerivative info.PackageName s.moduleMap) s.moduleMap s.invokes types1 with
      | none => simp [hinv] at hh
      | some r2 =>
        obtain ⟨outsI, types2⟩ := r2
        simp only [hinv] at hh
        cases hprov : s.provider with
        | none =>
          simp only [hprov, Option.some.injEq] at hh
          subst hh
          simp [hinv, hprov, Option.bind, Option.map, harvestErrors]
        | some provider =>
          simp only [hprov] at hh
          cases hp : addElement info.PackageName
              (registerDerivative info.PackageName s.moduleMap) s.moduleMap provider types2 with
          | none => simp [hp] at hh
          | some r3 =>
            obtain ⟨⟨tk, prov, err⟩, types3⟩ := r3
            simp only [hp, Option.some.injEq] at hh
            subst hh
            cases err with
            | none => simp [hinv, hprov, Option.bind, Option.map, harvestErrors, hp]
            | some e => simp [hinv, hprov, Option.bind, Option.map, harvestErrors, hp]

/-- The errors of the harvest are not empty when a call returned an error. -/
theorem harvestErrors_ne_nil
    (h : List (Str × ResourceSpec × Option Str) × List (Str × FunctionSpec × Option Str) ×
      Option (Str × ResourceSpec × Option Str) × Types)
    (hfail : (∃ out ∈ h.1, out.2.2 ≠ none) ∨ (∃ out ∈ h.2.1, out.2.2 ≠ none) ∨
      (∃ out, h.2.2.1 = some out ∧ out.2.2 ≠ none)) :
    harvestErrors h ≠ [] := by
  intro hnil
  simp only [harvestErrors, List.append_eq_nil] at hnil
  obtain ⟨⟨h1, h2⟩, h3⟩ := hnil
  rcases hfail with ⟨out, hout, hne⟩ | ⟨out, hout, hne⟩ | ⟨out, hout, hne⟩
  · exact hne ((callErrors_eq_nil h.1).1 h1 out hout)
  · exact hne ((callErrors_eq_nil h.2.1).1 h2 out hout)
  · rw [hout] at h3
    cases hk : out.2.2 with
    | none => exact hne hk
    | some e => simp [hk] at h3

/-- C13: generation failure is atomic on the cache.  When `GetSchema` is called
with an empty cache and a call of `addElement` of the generation returns an
error (for a resource, an invoke or the provider resource; the other calls may
all succeed), `GetSchema` returns an error and the builder is as it was, the
cache slot empty: the error is the compound error with the errors of the
calls, unless `json.Marshal` failed on a language value first. -/
theorem GetSchema_failure_keeps_cache_empty (enc : Encoder) (info : RunInfo) (s : Provider)
    (h : List (Str × ResourceSpec × Option Str) × List (Str × FunctionSpec × Option Str) ×
      Option (Str × ResourceSpec × Option Str) × Types)
    (hempty : s.schema = [])
    (hh : harvestCalls info s = some h)
    (hfail : (∃ out ∈ h.1, out.2.2 ≠ none) ∨ (∃ out ∈ h.2.1, out.2.2 ≠ none) ∨
      (∃ out, h.2.2.1 = some out ∧ out.2.2 ≠ none)) :
    ∃ e, Provider.GetSchema enc info s = some (.error e, s) ∧ s.schema = [] ∧
      (e = .compound (harvestErrors h) ∨
        ∃ err, e = .marshal err ∧ marshalLanguages enc s.languages [] = .error err) := by
  obtain ⟨hmerr, hmok⟩ := buildPackage_of_harvestCalls enc info s h hh
  have hne := harvestErrors_ne_nil h hfail
  cases hlang : marshalLanguages enc s.languages [] with
  | error err =>
    refine ⟨.marshal err, ?_, hempty, Or.inr ⟨err, rfl, rfl⟩⟩
    simp [Provider.GetSchema, hempty, Provider.generateSchema, hmerr err hlang, Option.bind]
  | ok language =>
    obtain ⟨pkg, hb, -⟩ := hmok language hlang
    refine ⟨.compound (harvestErrors h), ?_, hempty, Or.inl rfl⟩
    have hlen : (harvestErrors h).length ≠ 0 := by
      intro hl
      exact hne (List.length_eq_zero.1 hl)
    simp [Provider.GetSchema, hempty, Provider.generateSchema, hb, Option.bind, hne]

/-- C13 (witness): the builder of the scenario with a contributor added whose
`GetSchema` fails; the subnet succeeds, `GetSchema` returns the compound error
and the builder is as it was. -/
theorem GetSchema_failure_keeps_cache_empty_witness :
    ∃ e, Provider.GetSchema scenarioEncoder scenarioInfo scenarioFailingProvider
        = some (.error e, scenarioFailingProvider) ∧
      scenarioFailingProvider.schema = [] ∧
      e = .compound ["failed to get schema for 'pkg:networking:Gateway': no schema".toList] := by
  have hh : harvestCalls scenarioInfo scenarioFailingProvider
      = some ([("pkg:networking:Subnet".toList,
            ({ Properties := [("cidrBlock".toList,
                { Ref := "#/types/pkg:networking:CidrBlock".toList })] } : ResourceSpec), none),
          ([], default,
            some "failed to get schema for 'pkg:networking:Gateway': no schema".toList)],
        [], none,
        [("pkg:networking:CidrBlock".toList, scenarioCidrBlock),
         ("pkg:networking:Route".toList, {})]) := rfl
  obtain ⟨e, hget, hs, he⟩ := GetSchema_failure_keeps_cache_empty scenarioEncoder scenarioInfo
    scenarioFailingProvider _ rfl hh
    (Or.inl ⟨_, List.mem_cons_of_mem _ (List.mem_cons_self _ _), by simp⟩)
  refine ⟨e, hget, hs, ?_⟩
  rcases he with he | ⟨err, -, herr⟩
  · rw [he]
    rfl
  · exact absurd herr (by simp [scenarioFailingProvider, scenarioProvider, Wrap,
      Provider.WithResources, Provider.WithModuleMap, marshalLanguages])

/-! ## The harvester: duplicate symbols -/

section duplicates

variable {S σ : Type} [Renamable S] [Inhabited S]

/-- The loop of `addElements` over two lists, one after the other. -/
theorem addElementsLoop_append (pkgName : Str) (reg : RegisterDerivativeType σ)
    (modMap : ModMap) (pre post : List (Contributor S)) :
    ∀ (errs : List Str) (m : GoMap S) (st : σ),
    addElementsLoop pkgName reg modMap (pre ++ post) errs m st =
      Option.bind (addElementsLoop pkgName reg modMap pre errs m st) fun r =>
        addElementsLoop pkgName reg modMap post r.1 r.2.1 r.2.2 := by
  induction pre with
  | nil =>
    intro errs m st
    simp [addElementsLoop, Option.bind]
  | cons f pre ih =>
    intro errs m st
    simp only [List.cons_append, addElementsLoop]
    cases hstep : addElement pkgName reg modMap f st with
    | none => rfl
    | some res =>
      obtain ⟨⟨tk, element, err⟩, st1⟩ := res
      simp only [Option.bind]
      cases err with
      | some e => exact ih _ _ _
      | none => exact ih _ _ _

/-- The loop of `addElements` leaves the entry of a key as it is when no
contributor of the list has that key as its namespaced token. -/
theorem addElementsLoop_get_of_no_key (pkgName : Str) (reg : RegisterDerivativeType σ)
    (modMap : ModMap) (k : Str) (els : List (Contributor S)) :
    ∀ (m : GoMap S) (st : σ) (m' : GoMap S) (st' : σ),
    addElementsLoop pkgName reg modMap els [] m st = some ([], m', st') →
    (∀ g ∈ els, ∀ tk, g.GetToken = .ok tk → assignTo tk pkgName modMap ≠ some k) →
    m'.get k = m.get k := by
  induction els with
  | nil =>
    intro m st m' st' h _
    simp only [addElementsLoop, Option.some.injEq, Prod.mk.injEq, true_and] at h
    rw [← h.1]
  | cons g els ih =>
    intro m st m' st' h hno
    simp only [addElementsLoop] at h
    cases hstep : addElement pkgName reg modMap g st with
    | none => simp [hstep, Option.bind] at h
    | some res =>
      obtain ⟨⟨tk', element, err⟩, st1⟩ := res
      simp only [hstep, Option.bind] at h
      cases err with
      | some e =>
        obtain ⟨more, hmore⟩ := addElementsLoop_errors pkgName reg modMap els _ _ _ _ _ _ h
        simp at hmore
      | none =>
        simp only at h
        obtain ⟨tk, fragment, htok, hkey, -, -⟩ :=
          addElement_ok pkgName reg modMap g st st1 tk' element hstep
        have hne : k ≠ tk' := by
          rintro rfl
          exact hno g (List.mem_cons_self _ _) tk htok hkey
        rw [ih _ _ _ _ h (fun g' hg' => hno g' (List.mem_cons_of_mem _ hg')),
          GoMap.get_set_ne m element hne]

/-- C11: duplicate symbols are resolved last-wins.  When `addElements` runs over
contributors that all succeed, into an empty mapping, the value under a key is
the renamed fragment of the last contributor in list order whose namespaced
token is that key: the fragment that its `GetSchema` returned when it was
called, after the contributors before it.  The key is in the mapping, whose
keys are pairwise distinct, so it has one entry; the compound error is empty. -/
theorem addElements_last_wins (pre post : List (Contributor S)) (f : Contributor S)
    (pkgName : Str) (reg : RegisterDerivativeType σ) (modMap : ModMap) (st : σ)
    (m' : GoMap S) (st' : σ) (tk k : Str)
    (hrun : addElements (pre ++ f :: post) [] pkgName reg modMap st = some ([], m', st'))
    (htok : f.GetToken = .ok tk)
    (hkey : assignTo tk pkgName modMap = some k)
    (hpost : ∀ g ∈ post, ∀ tk', g.GetToken = .ok tk' → assignTo tk' pkgName modMap ≠ some k) :
    ∃ m1 st1 st2 fragment v,
      addElements pre [] pkgName reg modMap st = some ([], m1, st1) ∧
      f.GetSchema.run reg st1 = some (.ok fragment, st2) ∧
      renamePackage fragment pkgName modMap = some v ∧
      m'.get k = some v ∧
      k ∈ m'.keys ∧ m'.keys.Nodup := by
  have hall := hrun
  unfold addElements at hrun
  rw [addElementsLoop_append] at hrun
  cases hpre : addElementsLoop pkgName reg modMap pre [] [] st with
  | none => simp [hpre, Option.bind] at hrun
  | some r =>
    obtain ⟨e1, m1, st1⟩ := r
    simp only [hpre, Option.bind] at hrun
    obtain ⟨more, hmore⟩ := addElementsLoop_errors pkgName reg modMap _ _ _ _ _ _ _ hrun
    have he1 : e1 = [] := (List.append_eq_nil.1 hmore.symm).1
    subst he1
    simp only [addElementsLoop] at hrun
    cases hstep : addElement pkgName reg modMap f st1 with
    | none => simp [hstep, Option.bind] at hrun
    | some res =>
      obtain ⟨⟨tk', element, err⟩, st2⟩ := res
      simp only [hstep, Option.bind] at hrun
      cases err with
      | some e =>
        obtain ⟨more2, hmore2⟩ := addElementsLoop_errors pkgName reg modMap _ _ _ _ _ _ _ hrun
        simp at hmore2
      | none =>
        simp only at hrun
        obtain ⟨tk2, fragment, htok2, hkey2, hfrag, hren⟩ :=
          addElement_ok pkgName reg modMap f st1 st2 tk' element hstep
        rw [htok] at htok2
        cases htok2
        rw [hkey] at hkey2
        cases hkey2
        have hget := addElementsLoop_get_of_no_key pkgName reg modMap k post _ _ _ _ hrun hpost
        rw [GoMap.get_set_self] at hget
        obtain ⟨-, hnd, -, -⟩ :=
          addElementsLoop_success pkgName reg modMap (pre ++ f :: post) [] st m' st' hall
        have hmem : k ∈ m'.keys := by
          by_contra hc
          rw [← GoMap.get_eq_none_iff, hget] at hc
          exact Option.noConfusion hc
        exact ⟨m1, st1, st2, fragment, element, hpre, hfrag, hren, hget, hmem,
          hnd (by simp [GoMap.keys])⟩

end duplicates

/-- C11 (witness): two resource contributors with the token `pkg:vpc:Subnet`;
the mapping has one entry under `pkg:networking:Subnet`, the fragment of the
second, and no error is reported. -/
theorem addElements_last_wins_witness :
    ∃ m' st', addElements [scenarioSubnet, scenarioSubnetAgain] [] "pkg".toList
        (registerDerivative "pkg".toList scenarioModuleMap) scenarioModuleMap []
        = some ([], m', st') ∧
      m'.keys = ["pkg:networking:Subnet".toList] ∧
      (m'.get "pkg:networking:Subnet".toList).map (fun v => (v.Description, v.Properties.keys))
        = some ("second".toList, []) ∧
      m'.keys.Nodup := by
  have heval : addElements [scenarioSubnet, scenarioSubnetAgain] [] "pkg".toList
      (registerDerivative "pkg".toList scenarioModuleMap) scenarioModuleMap []
      = some ([], [("pkg:networking:Subnet".toList, { Description := "second".toList })],
          [("pkg:networking:CidrBlock".toList, scenarioCidrBlock)]) := rfl
  obtain ⟨-, -, -, -, -, -, -, -, -, -, hcount⟩ :=
    addElements_last_wins [scenarioSubnet] [] scenarioSubnetAgain "pkg".toList
      (registerDerivative "pkg".toList scenarioModuleMap) scenarioModuleMap [] _ _
      "pkg:vpc:Subnet".toList "pkg:networking:Subnet".toList heval rfl (by decide)
      (fun g hg => absurd hg (List.not_mem_nil g))
  exact ⟨_, _, heval, rfl, rfl, hcount⟩

/-! ## Idempotence of the reference rewriter -/

theorem parseTypeToken_eq_some (s tk : Str) (h : ParseTypeToken s = some tk) :
    tk = s ∧ HasModuleMember s = true := by
  unfold ParseTypeToken at h
  split at h
  · rename_i hm
    simp only [Option.some.injEq] at h
    exact ⟨h.symm, hm⟩
  · exact Option.noConfusion h

/-- C16 (counterexample): with the package name `a:b` and the empty module map,
which has no chain, the reference `#/types/x:m:n` is rewritten to
`#/types/a:b:m:n`, and the rewriter panics on that result: the name that it
finds reads `m:n`, which is no legal name.  On the reference `#/types/x::T`,
which has characters after the slash of its kind segment, the rewriter panics
at once (the module name is empty), with the package name `pkg`. -/
theorem fixReference_idempotent_counterexample :
    fixReference "#/types/x:m:n".toList "a:b".toList [] = some "#/types/a:b:m:n".toList ∧
    fixReference "#/types/a:b:m:n".toList "a:b".toList [] = none ∧
    fixReference "#/types/x::T".toList "pkg".toList [] = none ∧
    ¬ (∀ (ref pkg : Str) (M : ModMap),
        (∀ k v, M.get k = some v → M.get v = none ∨ M.get v = some v) →
        (hasPrefix ref "#/".toList = false ∨
          indexRune (trimPrefix ref "#/".toList) '/' = none ∨
          ∃ K c rest, ref = '#' :: '/' :: (K ++ '/' :: c :: rest) ∧ '/' ∉ K) →
        (fixReference ref pkg M).bind (fun r => fixReference r pkg M)
          = fixReference ref pkg M) := by
  refine ⟨by decide, by decide, by decide, fun h => ?_⟩
  have := h "#/types/x:m:n".toList "a:b".toList []
    (fun k v hk => by simp [GoMap.get] at hk)
    (Or.inr (Or.inr ⟨"types".toList, 'x', ":m:n".toList, rfl, by decide⟩))
  revert this
  decide

/-- C16 (amended): rewriting references is idempotent on every reference on
which the rewriter returns, for a module map in which no value is remapped to
something else and a package name that holds no delimiter after its first
character: the rewriter returns on the reference that it returned, and returns
it as it is. -/
theorem fixReference_idempotent (ref pkg : Str) (M : ModMap)
    (hchain : ∀ k v, M.get k = some v → M.get v = none ∨ M.get v = some v)
    (hpkg : TokenDelimiter ∉ pkg.drop 1) :
    (∀ ref', fixReference ref pkg M = some ref' → fixReference ref' pkg M = some ref') ∧
    (fixReference ref pkg M).bind (fun r => fixReference r pkg M) = fixReference ref pkg M := by
  have h1 : ∀ ref', fixReference ref pkg M = some ref' → fixReference ref' pkg M = some ref' :=
    fun ref' h => fixReference_result_fixed pkg M ref ref' hpkg
      (fun k v hk _ => hchain k v hk) h
  refine ⟨h1, ?_⟩
  cases h : fixReference ref pkg M with
  | none => rfl
  | some ref' =>
    simp only [Option.bind]
    exact h1 ref' h

/-- C16 (witness): the reference of the scenario, under `{vpc: networking}` and
the package `pkg`, is rewritten to `#/types/pkg:networking:CidrBlock`, which is
rewritten to itself. -/
theorem fixReference_idempotent_witness :
    fixReference "#/types/pkg:vpc:CidrBlock".toList "pkg".toList scenarioModuleMap
      = some "#/types/pkg:networking:CidrBlock".toList ∧
    fixReference "#/types/pkg:networking:CidrBlock".toList "pkg".toList scenarioModuleMap
      = some "#/types/pkg:networking:CidrBlock".toList :=
  ⟨by decide,
    (fixReference_idempotent "#/types/pkg:vpc:CidrBlock".toList "pkg".toList scenarioModuleMap
      (by
        intro k v h
        simp only [scenarioModuleMap, GoMap.get] at h
        split at h
        · cases h
          exact Or.inl (by decide)
        · cases h)
      (by decide)).1 _ (by decide)⟩

/-! ## References under the traversal -/

section references

variable (pkg : Str) (modMap : ModMap)

theorem refsTypeSpec_eq (t : TypeSpec) :
    refsTypeSpec t = t.Ref :: (refsTypeSpecPtr t.AdditionalProperties ++
      (refsTypeSpecPtr t.Items ++ refsTypeSpecs t.OneOf)) := by
  cases t
  simp [refsTypeSpec]

mutual
theorem refs_renameTypeSpec :
    ∀ (t t' : TypeSpec), renameTypeSpec pkg modMap t = some t' →
      ∀ r' ∈ refsTypeSpec t', ∃ r ∈ refsTypeSpec t, fixReference r pkg modMap = some r'
  | ⟨ty, ref, ap, items, oneOf, disc, plain⟩, t', h => by
    rw [renameTypeSpec_eq_some] at h
    obtain ⟨h1, h2, h3, h4, -, -, -⟩ := h
    intro r' hr'
    rw [refsTypeSpec_eq] at hr'
    rw [refsTypeSpec_eq]
    simp only [List.mem_cons, List.mem_append] at hr' ⊢
    rcases hr' with rfl | hr' | hr' | hr'
    · exact ⟨ref, Or.inl rfl, h1⟩
    · obtain ⟨r, hr, hf⟩ := refs_renameTypeSpecPtr ap _ h2 r' hr'
      exact ⟨r, Or.inr (Or.inl hr), hf⟩
    · obtain ⟨r, hr, hf⟩ := refs_renameTypeSpecPtr items _ h3 r' hr'
      exact ⟨r, Or.inr (Or.inr (Or.inl hr)), hf⟩
    · obtain ⟨r, hr, hf⟩ := refs_renameTypeSpecs oneOf _ h4 r' hr'
      exact ⟨r, Or.inr (Or.inr (Or.inr hr)), hf⟩
theorem refs_renameTypeSpecPtr :
    ∀ (o o' : Option TypeSpec), renameTypeSpecPtr pkg modMap o = some o' →
      ∀ r' ∈ refsTypeSpecPtr o', ∃ r ∈ refsTypeSpecPtr o, fixReference r pkg modMap = some r'
  | none, o', h => by
    simp only [renameTypeSpecPtr, Option.some.injEq] at h
    subst h
    intro r' hr'
    simp [refsTypeSpecPtr] at hr'
  | some t, o', h => by
    simp only [renameTypeSpecPtr] at h
    cases ht : renameTypeSpec pkg modMap t with
    | none => simp [ht, Option.bind] at h
    | some t' =>
      simp only [ht, Option.bind, Option.some.injEq] at h
      subst h
      intro r' hr'
      simp only [refsTypeSpecPtr] at hr' ⊢
      exact refs_renameTypeSpec t t' ht r' hr'
theorem refs_renameTypeSpecs :
    ∀ (l l' : List TypeSpec), renameTypeSpecs pkg modMap l = some l' →
      ∀ r' ∈ refsTypeSpecs l', ∃ r ∈ refsTypeSpecs l, fixReference r pkg modMap = some r'
  | [], l', h => by
    simp only [renameTypeSpecs, Option.some.injEq] at h
    subst h
    intro r' hr'
    simp [refsTypeSpecs] at hr'
  | t :: ts, l', h => by
    simp only [renameTypeSpecs] at h
    cases ht : renameTypeSpec pkg modMap t with
    | none => simp [ht, Option.bind] at h
    | some t' =>
      cases hts : renameTypeSpecs pkg modMap ts with
      | none => simp [ht, hts, Option.bind] at h
      | some ts' =>
        simp only [ht, hts, Option.bind, Option.some.injEq] at h
        subst h
        intro r' hr'
        simp only [refsTypeSpecs, List.mem_append] at hr' ⊢
        rcases hr' with hr' | hr'
        · obtain ⟨r, hr, hf⟩ := refs_renameTypeSpec t t' ht r' hr'
          exact ⟨r, Or.inl hr, hf⟩
        · obtain ⟨r, hr, hf⟩ := refs_renameTypeSpecs ts ts' hts r' hr'
          exact ⟨r, Or.inr hr, hf⟩
end

theorem refs_rewriteProperties :
    ∀ (ps ps' : GoMap PropertySpec),
      renameMap (rewritePropertySpec pkg modMap) ps = some ps' →
      ∀ r' ∈ refsProperties ps', ∃ r ∈ refsProperties ps, fixReference r pkg modMap = some r' := by
  intro ps
  induction ps with
  | nil =>
    intro ps' h r' hr'
    simp only [renameMap, Option.some.injEq] at h
    subst h
    simp [refsProperties] at hr'
  | cons e ps ih =>
    intro ps' h r' hr'
    obtain ⟨k, p⟩ := e
    simp only [renameMap] at h
    cases hp : rewritePropertySpec pkg modMap p with
    | none => simp [hp, Option.bind] at h
    | some p' =>
      cases hps : renameMap (rewritePropertySpec pkg modMap) ps with
      | none => simp [hp, hps, Option.bind] at h
      | some ps1 =>
        simp only [hp, hps, Option.bind, Option.some.injEq] at h
        subst h
        simp only [refsProperties, List.mem_append] at hr' ⊢
        rcases hr' with hr' | hr'
        · unfold rewritePropertySpec at hp
          cases ht : renameTypeSpec pkg modMap p.toTypeSpec with
          | none => simp [ht, Option.bind] at hp
          | some t =>
            simp only [ht, Option.bind, Option.some.injEq] at hp
            subst hp
            obtain ⟨r, hr, hf⟩ := refs_renameTypeSpec pkg modMap _ t ht r' hr'
            exact ⟨r, Or.inl hr, hf⟩
        · obtain ⟨r, hr, hf⟩ := ih ps1 hps r' hr'
          exact ⟨r, Or.inr hr, hf⟩

theorem refs_rewriteObjectTypeSpec (o o' : ObjectTypeSpec)
    (h : rewriteObjectTypeSpec pkg modMap o = some o') :
    ∀ r' ∈ refsObjectTypeSpec o', ∃ r ∈ refsObjectTypeSpec o,
      fixReference r pkg modMap = some r' := by
  unfold rewriteObjectTypeSpec at h
  cases hps : renameMap (rewritePropertySpec pkg modMap) o.Properties with
  | none => simp [hps, Option.bind] at h
  | some ps =>
    simp only [hps, Option.bind, Option.some.injEq] at h
    subst h
    exact refs_rewriteProperties pkg modMap _ _ hps

theorem refs_rewriteObjectTypeSpecPtr (o o' : Option ObjectTypeSpec)
    (h : rewriteObjectTypeSpecPtr pkg modMap o = some o') :
    ∀ r' ∈ refsObjectTypeSpecPtr o', ∃ r ∈ refsObjectTypeSpecPtr o,
      fixReference r pkg modMap = some r' := by
  cases o with
  | none =>
    simp only [rewriteObjectTypeSpecPtr, Option.some.injEq] at h
    subst h
    intro r' hr'
    simp [refsObjectTypeSpecPtr] at hr'
  | some x =>
    simp only [rewriteObjectTypeSpecPtr] at h
    cases hx : rewriteObjectTypeSpec pkg modMap x with
    | none => simp [hx, Option.bind] at h
    | some x' =>
      simp only [hx, Option.bind, Option.some.injEq] at h
      subst h
      exact refs_rewriteObjectTypeSpec pkg modMap x x' hx

/-- When the rewriter leaves what it returns as it is whenever it returns on it,
every reference of a fragment that `renamePackage` returns is `fixReference` of
a reference of the fragment it was given. -/
theorem refs_renamePackage (hS : RewriterStable pkg modMap) :
    (∀ x y : ComplexTypeSpec, renamePackage x pkg modMap = some y →
      ∀ r' ∈ HasRefs.refs y, ∃ r ∈ HasRefs.refs x, fixReference r pkg modMap = some r') ∧
    (∀ x y : ResourceSpec, renamePackage x pkg modMap = some y →
      ∀ r' ∈ HasRefs.refs y, ∃ r ∈ HasRefs.refs x, fixReference r pkg modMap = some r') ∧
    (∀ x y : FunctionSpec, renamePackage x pkg modMap = some y →
      ∀ r' ∈ HasRefs.refs y, ∃ r ∈ HasRefs.refs x, fixReference r pkg modMap = some r') := by
  obtain ⟨hc, hr, hf⟩ := rewrite_of_renamePackage pkg modMap hS
  refine ⟨?_, ?_, ?_⟩
  · intro x y h
    replace h := hc x y h
    unfold rewriteComplexTypeSpec at h
    cases ho : rewriteObjectTypeSpec pkg modMap x.toObjectTypeSpec with
    | none => simp [ho, Option.bind] at h
    | some o =>
      simp only [ho, Option.bind, Option.some.injEq] at h
      subst h
      exact refs_rewriteObjectTypeSpec pkg modMap _ o ho
  · intro x y h
    replace h := hr x y h
    unfold rewriteResourceSpec at h
    cases ho : rewriteObjectTypeSpec pkg modMap x.toObjectTypeSpec with
    | none => simp [ho, Option.bind] at h
    | some o =>
      cases hi : renameMap (rewritePropertySpec pkg modMap) x.InputProperties with
      | none => simp [ho, hi, Option.bind] at h
      | some ips =>
        cases hs : rewriteObjectTypeSpecPtr pkg modMap x.StateInputs with
        | none => simp [ho, hi, hs, Option.bind] at h
        | some si =>
          simp only [ho, hi, hs, Option.bind, Option.some.injEq] at h
          subst h
          intro r' hr'
          simp only [HasRefs.refs, List.mem_append] at hr' ⊢
          rcases hr' with hr' | hr' | hr'
          · obtain ⟨r, hr1, hf1⟩ := refs_rewriteObjectTypeSpec pkg modMap _ o ho r' hr'
            exact ⟨r, Or.inl hr1, hf1⟩
          · obtain ⟨r, hr1, hf1⟩ := refs_rewriteProperties pkg modMap _ ips hi r' hr'
            exact ⟨r, Or.inr (Or.inl hr1), hf1⟩
          · obtain ⟨r, hr1, hf1⟩ := refs_rewriteObjectTypeSpecPtr pkg modMap _ si hs r' hr'
            exact ⟨r, Or.inr (Or.inr hr1), hf1⟩
  · intro x y h
    replace h := hf x y h
    unfold rewriteFunctionSpec at h
    cases hi : rewriteObjectTypeSpecPtr pkg modMap x.Inputs with
    | none => simp [hi, Option.bind] at h
    | some i =>
      cases ho : rewriteObjectTypeSpecPtr pkg modMap x.Outputs with
      | none => simp [hi, ho, Option.bind] at h
      | some o =>
        simp only [hi, ho, Option.bind, Option.some.injEq] at h
        subst h
        intro r' hr'
        simp only [HasRefs.refs, List.mem_append] at hr' ⊢
        rcases hr' with hr' | hr'
        · obtain ⟨r, hr1, hf1⟩ := refs_rewriteObjectTypeSpecPtr pkg modMap _ i hi r' hr'
          exact ⟨r, Or.inl hr1, hf1⟩
        · obtain ⟨r, hr1, hf1⟩ := refs_rewriteObjectTypeSpecPtr pkg modMap _ o ho r' hr'
          exact ⟨r, Or.inr hr1, hf1⟩

end references

/-! ## References and registered types -/

theorem hasPrefix_kind (P : Str) :
    ∀ (K X : Str), '/' ∉ K → '/' ∉ P → hasPrefix (K ++ '/' :: X) (P ++ ['/']) = true → K = P := by
  induction P with
  | nil =>
    intro K X hK _ h
    cases K with
    | nil => rfl
    | cons a K =>
      simp only [List.cons_append, List.nil_append, hasPrefix, Bool.and_true,
        decide_eq_true_eq] at h
      exact absurd (List.mem_cons.2 (Or.inl h.symm)) hK
  | cons p P ih =>
    intro K X hK hP h
    cases K with
    | nil =>
      simp only [List.nil_append, List.cons_append, hasPrefix, Bool.and_eq_true,
        decide_eq_true_eq] at h
      exact absurd (List.mem_cons.2 (Or.inl h.1)) hP
    | cons a K =>
      simp only [List.cons_append, hasPrefix, Bool.and_eq_true, decide_eq_true_eq] at h
      simp only [List.mem_cons, not_or] at hK hP
      rw [h.1, ih K X hK.2 hP.2 h.2]

theorem hasPrefix_typesPrefix_internal (K X : Str) (hK : '/' ∉ K)
    (h : hasPrefix ('#' :: '/' :: (K ++ '/' :: X)) typesPrefix = true) : K = "types".toList := by
  have h2 : hasPrefix (K ++ '/' :: X) ("types".toList ++ ['/']) = true := by
    simpa [typesPrefix, hasPrefix] using h
  exact hasPrefix_kind "types".toList K X hK (by decide) h2

theorem hasPrefix_typesPrefix_append (X : Str) : hasPrefix (typesPrefix ++ X) typesPrefix = true := by
  simp [typesPrefix, hasPrefix]

/-- The rewriter keeps the kind of a reference: what it returns is an internal
reference to a type only if what it was given is one. -/
theorem hasPrefix_of_fixReference (ref ref' pkg : Str) (M : ModMap)
    (h : fixReference ref pkg M = some ref') (hpre : hasPrefix ref' typesPrefix = true) :
    hasPrefix ref typesPrefix = true := by
  rcases fixReference_cases ref pkg M with hsame | ⟨K, T, rfl, hK⟩
  · rw [hsame] at h
    cases h
    exact hpre
  · have hint := fixReference_internal K T pkg M hK
    cases T with
    | nil =>
      rw [hint] at h
      exact Option.noConfusion h
    | cons c rest =>
      cases hparse : ParseTypeToken rest with
      | none =>
        simp only [hparse] at hint
        rw [hint] at h
        cases h
        exact hpre
      | some tk =>
        simp only [hparse] at hint
        rw [hint] at h
        cases hass : assignTo tk pkg M with
        | none => simp [hass, Option.bind] at h
        | some tk' =>
          simp only [hass, Option.bind, Option.some.injEq] at h
          have hform : '#' :: '/' :: (K ++ ['/']) ++ tk' = '#' :: '/' :: (K ++ '/' :: tk') := by
            simp
          rw [← h, hform] at hpre
          rw [hasPrefix_typesPrefix_internal K tk' hK hpre]
          exact hasPrefix_typesPrefix_append _

/-- A reference that names a registered token is rewritten to a reference to the
namespaced token. -/
theorem names_fixReference (tokens : List Str) (ref ref' pkg : Str) (M : ModMap)
    (F : Str → Prop)
    (hnames : Names tokens ref)
    (hfix : fixReference ref pkg M = some ref')
    (hpre : hasPrefix ref' typesPrefix = true)
    (hF : ∀ T ∈ tokens, ∀ k, assignTo T pkg M = some k → F k) :
    ∃ k, F k ∧ ref' = typesPrefix ++ k := by
  obtain ⟨c, rest, hc, hmm, hmem, rfl⟩ := hnames (hasPrefix_of_fixReference ref ref' pkg M hfix hpre)
  have hstep := fixReference_of_token "types".toList pkg M c rest (by decide) hc hmm
  have hform : typesPrefix ++ c :: rest = '#' :: '/' :: ("types".toList ++ '/' :: c :: rest) := rfl
  rw [hform, hstep] at hfix
  cases hk : assignTo (c :: rest) pkg M with
  | none => simp [hk, Option.bind] at hfix
  | some k =>
    simp only [hk, Option.bind, Option.some.injEq] at hfix
    refine ⟨k, hF (c :: rest) hmem k hk, ?_⟩
    rw [← hfix]
    rfl

theorem mem_set {V : Type} (m : GoMap V) (k : Str) (v : V) (e : Str × V)
    (h : e ∈ m.set k v) : e = (k, v) ∨ e ∈ m := by
  induction m with
  | nil =>
    simp only [GoMap.set, List.mem_singleton] at h
    exact Or.inl h
  | cons e0 m ih =>
    obtain ⟨k0, v0⟩ := e0
    simp only [GoMap.set] at h
    split at h
    · rcases List.mem_cons.1 h with h | h
      · exact Or.inl h
      · exact Or.inr (List.mem_cons_of_mem _ h)
    · rcases List.mem_cons.1 h with h | h
      · exact Or.inr (h ▸ List.mem_cons_self _ _)
      · rcases ih h with h | h
        · exact Or.inl h
        · exact Or.inr (List.mem_cons_of_mem _ h)

/-- A run of `GetSchema` against the collector: keys are kept, the key of every
token passed to the callback is in the mapping afterwards, and every new entry
is the renamed definition of a call for which the callback returned `true`. -/
theorem run_registerDerivative {S : Type} (pkg : Str) (M : ModMap) (e : Extract S) :
    ∀ (types : Types) (r : Except Str S) (types' : Types),
    e.run (registerDerivative pkg M) types = some (r, types') →
    (∀ k, k ∈ types.keys → k ∈ types'.keys) ∧
    (∀ c ∈ e.calls (registerDerivative pkg M) types, ∀ k, assignTo c.1 pkg M = some k →
      k ∈ types'.keys) ∧
    (∀ kv ∈ types', kv ∈ types ∨
      ∃ c ∈ e.calls (registerDerivative pkg M) types, c.2.2 = true ∧
        renamePackage c.2.1 pkg M = some kv.2) := by
  induction e with
  | result r0 =>
    intro types r types' h
    simp only [Extract.run, Option.some.injEq, Prod.mk.injEq] at h
    obtain ⟨-, rfl⟩ := h
    exact ⟨fun k hk => hk, fun c hc => by simp [Extract.calls] at hc, fun kv hkv => Or.inl hkv⟩
  | register tk typ next ih =>
    intro types r types' h
    simp only [Extract.run] at h
    cases hreg : registerDerivative pkg M tk typ types with
    | none => simp [hreg, Option.bind] at h
    | some res =>
      obtain ⟨b, types1⟩ := res
      simp only [hreg, Option.bind] at h
      obtain ⟨ih1, ih2, ih3⟩ := ih b types1 r types' h
      have hcalls : (Extract.register tk typ next).calls (registerDerivative pkg M) types
          = (tk, typ, b) :: (next b).calls (registerDerivative pkg M) types1 := by
        simp only [Extract.calls, hreg]
      rw [hcalls]
      -- what the collector did at this call
      have hcol : ∃ key, assignTo tk pkg M = some key ∧ key ∈ types1.keys ∧
          (∀ k, k ∈ types.keys → k ∈ types1.keys) ∧
          (∀ kv ∈ types1, kv ∈ types ∨ (b = true ∧ renamePackage typ pkg M = some kv.2)) := by
        unfold registerDerivative at hreg
        cases hkey : assignTo tk pkg M with
        | none => simp [hkey, Option.bind] at hreg
        | some key =>
          simp only [hkey, Option.bind] at hreg
          cases hget : GoMap.get types key with
          | some v =>
            simp only [hget, Option.some.injEq, Prod.mk.injEq] at hreg
            obtain ⟨-, rfl⟩ := hreg
            refine ⟨key, rfl, ?_, fun k hk => hk, fun kv hkv => Or.inl hkv⟩
            by_contra hc
            rw [← GoMap.get_eq_none_iff, hget] at hc
            exact Option.noConfusion hc
          | none =>
            simp only [hget] at hreg
            cases hren : renamePackage typ pkg M with
            | none => simp [hren] at hreg
            | some t' =>
              simp only [hren, Option.some.injEq, Prod.mk.injEq] at hreg
              obtain ⟨rfl, rfl⟩ := hreg
              refine ⟨key, rfl, (GoMap.mem_keys_set types key t' key).2 (Or.inl rfl),
                fun k hk => (GoMap.mem_keys_set types key t' k).2 (Or.inr hk), ?_⟩
              intro kv hkv
              rcases mem_set types key t' kv hkv with rfl | hkv
              · exact Or.inr ⟨rfl, rfl⟩
              · exact Or.inl hkv
      obtain ⟨key, hkey, hkmem, hmono, hnew⟩ := hcol
      refine ⟨fun k hk => ih1 k (hmono k hk), ?_, ?_⟩
      · intro c hc k hk
        rcases List.mem_cons.1 hc with rfl | hc
        · rw [hkey] at hk
          cases hk
          exact ih1 _ hkmem
        · exact ih2 c hc k hk
      · intro kv hkv
        rcases ih3 kv hkv with h1 | ⟨c, hc, hb, hren⟩
        · rcases hnew kv h1 with h0 | ⟨hb, hren⟩
          · exact Or.inl h0
          · exact Or.inr ⟨(tk, typ, b), List.mem_cons_self _ _, hb, hren⟩
        · exact Or.inr ⟨c, List.mem_cons_of_mem _ hc, hb, hren⟩

theorem RefsPointInto.mono {keys keys' refs : List Str} (h : RefsPointInto keys refs)
    (hsub : ∀ k, k ∈ keys → k ∈ keys') : RefsPointInto keys' refs := by
  intro ref href hpre
  obtain ⟨k, hk, hr⟩ := h ref href hpre
  exact ⟨k, hsub k hk, hr⟩

theorem mem_refsValues {T : Type} [HasRefs T] (m : GoMap T) (ref : Str)
    (h : ref ∈ refsValues m) : ∃ kv ∈ m, ref ∈ HasRefs.refs kv.2 := by
  induction m with
  | nil => simp [refsValues] at h
  | cons e m ih =>
    obtain ⟨k, v⟩ := e
    simp only [refsValues, List.mem_append] at h
    rcases h with h | h
    · exact ⟨(k, v), List.mem_cons_self _ _, h⟩
    · obtain ⟨kv, hkv, hr⟩ := ih h
      exact ⟨kv, List.mem_cons_of_mem _ hkv, hr⟩

/-- A run of `GetSchema` that registers what it references, against the
collector: the references of the new entries of the types mapping and of the
renamed fragment point at keys of the types mapping after the run. -/
theorem run_references {S : Type} [Renamable S] [HasRefs S] (pkg : Str) (M : ModMap)
    (e : Extract S)
    (hrefsC : ∀ x y : ComplexTypeSpec, renamePackage x pkg M = some y →
      ∀ r' ∈ HasRefs.refs y, ∃ r ∈ HasRefs.refs x, fixReference r pkg M = some r')
    (hrefsS : ∀ x y : S, renamePackage x pkg M = some y →
      ∀ r' ∈ HasRefs.refs y, ∃ r ∈ HasRefs.refs x, fixReference r pkg M = some r')
    (hreg : Registers (registerDerivative pkg M) e)
    (types : Types) (r : Except Str S) (types' : Types)
    (hrun : e.run (registerDerivative pkg M) types = some (r, types')) :
    (∀ k, k ∈ types.keys → k ∈ types'.keys) ∧
    (∀ kv ∈ types', kv ∈ types ∨ RefsPointInto types'.keys (HasRefs.refs kv.2)) ∧
    (∀ x y, r = .ok x → renamePackage x pkg M = some y →
      RefsPointInto types'.keys (HasRefs.refs y)) := by
  obtain ⟨h1, h2, h3⟩ := run_registerDerivative pkg M e types r types' hrun
  obtain ⟨hd1, hd2⟩ := hreg types r types' hrun
  have hF : ∀ T ∈ (e.calls (registerDerivative pkg M) types).map (·.1), ∀ k,
      assignTo T pkg M = some k → k ∈ types'.keys := by
    intro T hT k hk
    obtain ⟨c, hc, rfl⟩ := List.mem_map.1 hT
    exact h2 c hc k hk
  refine ⟨h1, ?_, ?_⟩
  · intro kv hkv
    rcases h3 kv hkv with h0 | ⟨c, hc, hb, hren⟩
    · exact Or.inl h0
    · right
      intro r' hr' hpre
      obtain ⟨r0, hr0, hfix⟩ := hrefsC c.2.1 kv.2 hren r' hr'
      obtain ⟨k, hk, hkr⟩ := names_fixReference _ r0 r' pkg M (· ∈ types'.keys)
        (hd2 c hc hb r0 hr0) hfix hpre hF
      exact ⟨k, hk, hkr⟩
  · intro x y hx hren r' hr' hpre
    obtain ⟨r0, hr0, hfix⟩ := hrefsS x y hren r' hr'
    obtain ⟨k, hk, hkr⟩ := names_fixReference _ r0 r' pkg M (· ∈ types'.keys)
      (hd1 x hx r0 hr0) hfix hpre hF
    exact ⟨k, hk, hkr⟩

section closure

variable {S : Type} [Renamable S] [Inhabited S] [HasRefs S] (pkg : Str) (M : ModMap)

/-- A call of `addElement` without an error, for a contributor that registers
what it references. -/
theorem addElement_references (f : Contributor S)
    (hrefsC : ∀ x y : ComplexTypeSpec, renamePackage x pkg M = some y →
      ∀ r' ∈ HasRefs.refs y, ∃ r ∈ HasRefs.refs x, fixReference r pkg M = some r')
    (hrefsS : ∀ x y : S, renamePackage x pkg M = some y →
      ∀ r' ∈ HasRefs.refs y, ∃ r ∈ HasRefs.refs x, fixReference r pkg M = some r')
    (hreg : Registers (registerDerivative pkg M) f.GetSchema)
    (types types' : Types) (tk : Str) (element : S)
    (h : addElement pkg (registerDerivative pkg M) M f types = some ((tk, element, none), types')) :
    (∀ k, k ∈ types.keys → k ∈ types'.keys) ∧
    (∀ kv ∈ types', kv ∈ types ∨ RefsPointInto types'.keys (HasRefs.refs kv.2)) ∧
    RefsPointInto types'.keys (HasRefs.refs element) := by
  obtain ⟨tk0, fragment, -, -, hrun, hren⟩ :=
    addElement_ok pkg (registerDerivative pkg M) M f types types' tk element h
  obtain ⟨h1, h2, h3⟩ :=
    run_references pkg M f.GetSchema hrefsC hrefsS hreg types _ types' hrun
  exact ⟨h1, h2, h3 fragment element rfl hren⟩

/-- The loop of `addElements` without an error, over contributors that register
what they reference. -/
theorem addElementsLoop_references
    (hrefsC : ∀ x y : ComplexTypeSpec, renamePackage x pkg M = some y →
      ∀ r' ∈ HasRefs.refs y, ∃ r ∈ HasRefs.refs x, fixReference r pkg M = some r')
    (hrefsS : ∀ x y : S, renamePackage x pkg M = some y →
      ∀ r' ∈ HasRefs.refs y, ∃ r ∈ HasRefs.refs x, fixReference r pkg M = some r')
    (els : List (Contributor S)) :
    (∀ f ∈ els, Registers (registerDerivative pkg M) f.GetSchema) →
    ∀ (m : GoMap S) (types : Types) (m' : GoMap S) (types' : Types),
    addElementsLoop pkg (registerDerivative pkg M) M els [] m types = some ([], m', types') →
    (∀ k, k ∈ types.keys → k ∈ types'.keys) ∧
    (∀ kv ∈ types', kv ∈ types ∨ RefsPointInto types'.keys (HasRefs.refs kv.2)) ∧
    (∀ kv ∈ m', kv ∈ m ∨ RefsPointInto types'.keys (HasRefs.refs kv.2)) := by
  induction els with
  | nil =>
    intro _ m types m' types' h
    simp only [addElementsLoop, Option.some.injEq, Prod.mk.injEq, true_and] at h
    obtain ⟨rfl, rfl⟩ := h
    exact ⟨fun k hk => hk, fun kv hkv => Or.inl hkv, fun kv hkv => Or.inl hkv⟩
  | cons f els ih =>
    intro hdisc m types m' types' h
    simp only [addElementsLoop] at h
    cases hstep : addElement pkg (registerDerivative pkg M) M f types with
    | none => simp [hstep, Option.bind] at h
    | some res =>
      obtain ⟨⟨tk, element, err⟩, types1⟩ := res
      simp only [hstep, Option.bind] at h
      cases err with
      | some e =>
        obtain ⟨more, hmore⟩ :=
          addElementsLoop_errors pkg (registerDerivative pkg M) M els _ _ _ _ _ _ h
        simp at hmore
      | none =>
        simp only at h
        obtain ⟨a1, a2, a3⟩ := addElement_references pkg M f hrefsC hrefsS
          (hdisc f (List.mem_cons_self _ _)) types types1 tk element hstep
        obtain ⟨b1, b2, b3⟩ :=
          ih (fun g hg => hdisc g (List.mem_cons_of_mem _ hg)) _ _ _ _ h
        refine ⟨fun k hk => b1 k (a1 k hk), ?_, ?_⟩
        · intro kv hkv
          rcases b2 kv hkv with h1 | h1
          · rcases a2 kv h1 with h0 | h0
            · exact Or.inl h0
            · exact Or.inr (h0.mono b1)
          · exact Or.inr h1
        · intro kv hkv
          rcases b3 kv hkv with h1 | h1
          · rcases mem_set m tk element kv h1 with rfl | h0
            · exact Or.inr (a3.mono b1)
            · exact Or.inl h0
          · exact Or.inr h1

end closure

/-- C15 (counterexample): a resource contributor returns the fragment of the
scenario and registers no type.  The generation succeeds, the document holds
the reference `#/types/pkg:networking:CidrBlock`, and its types mapping is
empty. -/
theorem references_closed_counterexample :
    ∃ pkg, buildPackage scenarioEncoder scenarioInfo
        ((Wrap.WithModuleMap scenarioModuleMap).WithResources [scenarioUnregistered])
        = some (.ok ([], pkg)) ∧
      (Provider.GetSchema scenarioEncoder scenarioInfo
        ((Wrap.WithModuleMap scenarioModuleMap).WithResources [scenarioUnregistered])).map
          Prod.fst
        = some (.ok "pkg resources pkg:networking:Subnet types".toList) ∧
      refsPackageSpec pkg = ["#/types/pkg:networking:CidrBlock".toList] ∧
      pkg.Types.keys = [] ∧
      ¬ ReferencesClosed pkg := by
  refine ⟨_, rfl, rfl, rfl, rfl, ?_⟩
  intro h
  obtain ⟨k, hk, -⟩ := h "#/types/pkg:networking:CidrBlock".toList
    (List.mem_singleton.2 rfl) (by decide)
  exact absurd hk (List.not_mem_nil k)

/-- Under the chained module map `{vpc: net, net: core}` the contributor of the
scenario, which registers the type that its fragment refers to, gives a document
whose reference reads `#/types/pkg:core:CidrBlock`, rewritten twice by the walk
of the promoted `Properties`, while the key of the registered type is
`pkg:net:CidrBlock`, namespaced once. -/
theorem chained_map_reference_misses_key :
    ∃ pkg, buildPackage scenarioEncoder scenarioInfo
        ((Wrap.WithModuleMap [("vpc".toList, "net".toList), ("net".toList, "core".toList)]).WithResources
          [scenarioSubnet])
        = some (.ok ([], pkg)) ∧
      refsPackageSpec pkg = ["#/types/pkg:core:CidrBlock".toList] ∧
      pkg.Types.keys = ["pkg:net:CidrBlock".toList] ∧
      ¬ ReferencesClosed pkg := by
  refine ⟨_, rfl, rfl, rfl, ?_⟩
  intro h
  obtain ⟨k, hk, hr⟩ := h "#/types/pkg:core:CidrBlock".toList
    (List.mem_singleton.2 rfl) (by decide)
  rw [List.mem_singleton.1 hk] at hr
  revert hr
  decide

/-- C15 (amended): after a successful generation, every internal reference to a
type found in the resources, functions, types and provider fragment of the
document points at a key of its types mapping, when every contributor registers
what it references and no value of the module map that is a legal module name
is itself remapped to something else. -/
theorem generation_references_closed (enc : Encoder) (info : RunInfo) (s : Provider)
    (pkg : PackageSpec)
    (hgen : buildPackage enc info s = some (.ok ([], pkg)))
    (hchain : ∀ k v, s.moduleMap.get k = some v → IsQName v = true →
      s.moduleMap.get v = none ∨ s.moduleMap.get v = some v)
    (hres : ∀ f ∈ s.resources,
      Registers (registerDerivative info.PackageName s.moduleMap) f.GetSchema)
    (hinv : ∀ f ∈ s.invokes,
      Registers (registerDerivative info.PackageName s.moduleMap) f.GetSchema)
    (hprov : ∀ f, s.provider = some f →
      Registers (registerDerivative info.PackageName s.moduleMap) f.GetSchema) :
    ReferencesClosed pkg := by
  have hS : RewriterStable info.PackageName s.moduleMap :=
    rewriterStable_of_chain_free info.PackageName s.moduleMap hchain
  obtain ⟨hC, hR, hF⟩ := refs_renamePackage info.PackageName s.moduleMap hS
  simp only [buildPackage, addElements] at hgen
  cases hlang : marshalLanguages enc s.languages [] with
  | error err => simp [hlang] at hgen
  | ok language =>
    simp only [hlang] at hgen
    cases h1 : addElementsLoop info.PackageName
        (registerDerivative info.PackageName s.moduleMap) s.moduleMap s.resources [] [] [] with
    | none => simp [h1, Option.bind] at hgen
    | some r1 =>
      obtain ⟨errs1, resources, types1⟩ := r1
      simp only [h1, Option.bind] at hgen
      cases h2 : addElementsLoop info.PackageName
          (registerDerivative info.PackageName s.moduleMap) s.moduleMap s.invokes [] [] types1 with
      | none => simp [h2] at hgen
      | some r2 =>
        obtain ⟨errs2, functions, types2⟩ := r2
        simp only [h2] at hgen
        -- the two loops ended without an error
        have herrs : errs1 = [] ∧ errs2 = [] := by
          cases hp : s.provider with
          | none =>
            simp only [hp, Option.some.injEq, Except.ok.injEq, Prod.mk.injEq,
              List.append_eq_nil] at hgen
            exact hgen.1
          | some provider =>
            simp only [hp] at hgen
            cases h3 : addElement info.PackageName
                (registerDerivative info.PackageName s.moduleMap) s.moduleMap provider types2 with
            | none => simp [h3] at hgen
            | some r3 =>
              obtain ⟨⟨tk, prov, err⟩, types3⟩ := r3
              cases err with
              | some e => simp [h3] at hgen
              | none =>
                simp only [h3, Option.some.injEq, Except.ok.injEq, Prod.mk.injEq,
                  List.append_eq_nil] at hgen
                exact hgen.1
        obtain ⟨rfl, rfl⟩ := herrs
        obtain ⟨a1, a2, a3⟩ := addElementsLoop_references info.PackageName s.moduleMap hC hR
          s.resources hres [] [] resources types1 h1
        obtain ⟨b1, b2, b3⟩ := addElementsLoop_references info.PackageName s.moduleMap hC hF
          s.invokes hinv [] types1 functions types2 h2
        have hres2 : ∀ kv ∈ resources, RefsPointInto types2.keys (HasRefs.refs kv.2) := by
          intro kv hkv
          rcases a3 kv hkv with h0 | h0
          · exact absurd h0 (List.not_mem_nil kv)
          · exact h0.mono b1
        have hfun2 : ∀ kv ∈ functions, RefsPointInto types2.keys (HasRefs.refs kv.2) := by
          intro kv hkv
          rcases b3 kv hkv with h0 | h0
          · exact absurd h0 (List.not_mem_nil kv)
          · exact h0
        have htypes2 : ∀ kv ∈ types2, RefsPointInto types2.keys (HasRefs.refs kv.2) := by
          intro kv hkv
          rcases b2 kv hkv with h0 | h0
          · rcases a2 kv h0 with h00 | h00
            · exact absurd h00 (List.not_mem_nil kv)
            · exact h00.mono b1
          · exact h0
        -- the document: its mappings, and the provider fragment
        have hdoc : ∃ types3 prov, pkg.Resources = resources ∧ pkg.Functions = functions ∧
            pkg.Types = types3 ∧ pkg.Provider = prov ∧
            (∀ k, k ∈ types2.keys → k ∈ types3.keys) ∧
            (∀ kv ∈ types3, kv ∈ types2 ∨ RefsPointInto types3.keys (HasRefs.refs kv.2)) ∧
            RefsPointInto types3.keys (HasRefs.refs prov) := by
          cases hp : s.provider with
          | none =>
            simp only [hp, Option.some.injEq, Except.ok.injEq, Prod.mk.injEq] at hgen
            obtain ⟨-, rfl⟩ := hgen
            refine ⟨types2, _, rfl, rfl, rfl, rfl, fun k hk => hk, fun kv hkv => Or.inl hkv, ?_⟩
            intro ref href
            simp [HasRefs.refs, refsObjectTypeSpec, refsProperties, refsObjectTypeSpecPtr] at href
          | some provider =>
            simp only [hp] at hgen
            cases h3 : addElement info.PackageName
                (registerDerivative info.PackageName s.moduleMap) s.moduleMap provider types2 with
            | none => simp [h3] at hgen
            | some r3 =>
              obtain ⟨⟨tk, prov, err⟩, types3⟩ := r3
              cases err with
              | some e => simp [h3] at hgen
              | none =>
                simp only [h3, Option.some.injEq, Except.ok.injEq, Prod.mk.injEq] at hgen
                obtain ⟨-, rfl⟩ := hgen
                obtain ⟨c1, c2, c3⟩ := addElement_references info.PackageName s.moduleMap
                  provider hC hR (hprov provider hp) types2 types3 tk prov h3
                exact ⟨types3, prov, rfl, rfl, rfl, rfl, c1, c2, c3⟩
        obtain ⟨types3, prov, hR3, hF3, hT3, hP3, d1, d2, d3⟩ := hdoc
        intro ref href hpre
        simp only [refsPackageSpec, List.mem_append, hR3, hF3, hT3, hP3] at href
        rw [hT3]
        rcases href with href | href | href | href
        · obtain ⟨kv, hkv, hr⟩ := mem_refsValues resources ref href
          exact ((hres2 kv hkv).mono d1) ref hr hpre
        · obtain ⟨kv, hkv, hr⟩ := mem_refsValues functions ref href
          exact ((hfun2 kv hkv).mono d1) ref hr hpre
        · obtain ⟨kv, hkv, hr⟩ := mem_refsValues types3 ref href
          rcases d2 kv hkv with h0 | h0
          · exact ((htypes2 kv h0).mono d1) ref hr hpre
          · exact h0 ref hr hpre
        · exact d3 ref href hpre

/-- A run that registers one type and returns a fragment registers what it
references when the references of the fragment and of the definition name that
type. -/
theorem registers_register_result {S σ : Type} [HasRefs S] (reg : RegisterDerivativeType σ)
    (tk : Str) (typ : ComplexTypeSpec) (x : S)
    (htyp : ∀ ref ∈ HasRefs.refs typ, Names [tk] ref)
    (hx : ∀ ref ∈ HasRefs.refs x, Names [tk] ref) :
    Registers reg (Extract.register tk typ fun _ => Extract.result (.ok x)) := by
  intro st r st' hrun
  simp only [Extract.run] at hrun
  cases hreg : reg tk typ st with
  | none => simp [hreg, Option.bind] at hrun
  | some res =>
    obtain ⟨b, st1⟩ := res
    simp only [hreg, Option.bind, Option.some.injEq, Prod.mk.injEq] at hrun
    have hcalls : (Extract.register tk typ fun _ => Extract.result (.ok x)).calls reg st
        = [(tk, typ, b)] := by
      simp only [Extract.calls, hreg]
    rw [hcalls]
    refine ⟨?_, ?_⟩
    · intro y hy ref href
      rw [← hrun.1] at hy
      cases hy
      exact hx ref href
    · intro c hc _ ref href
      rw [List.mem_singleton] at hc
      subst hc
      exact htyp ref href

/-- The contributor of the scenario registers what it references, whatever the
callback does. -/
theorem scenarioSubnet_registers {σ : Type} (reg : RegisterDerivativeType σ) :
    Registers reg scenarioSubnet.GetSchema := by
  refine registers_register_result reg _ _ _ ?_ ?_
  · intro ref href
    simp [HasRefs.refs, scenarioCidrBlock, refsObjectTypeSpec, refsProperties] at href
  · intro ref href _
    have : ref = "#/types/pkg:vpc:CidrBlock".toList := by
      simpa [HasRefs.refs, scenarioSubnetSpec, refsObjectTypeSpec, refsProperties,
        refsTypeSpec, refsTypeSpecPtr, refsTypeSpecs, refsObjectTypeSpecPtr] using href
    subst this
    exact ⟨'p', "kg:vpc:CidrBlock".toList, by decide, by decide, List.mem_singleton.2 rfl, rfl⟩

/-- C15 (witness): the namespace remap scenario; the one reference of the
document points at the one key of its types mapping. -/
theorem generation_references_closed_witness :
    ∃ pkg, buildPackage scenarioEncoder scenarioInfo scenarioProvider = some (.ok ([], pkg)) ∧
      refsPackageSpec pkg = ["#/types/pkg:networking:CidrBlock".toList] ∧
      pkg.Types.keys = ["pkg:networking:CidrBlock".toList] ∧
      ReferencesClosed pkg := by
  refine ⟨_, rfl, rfl, rfl, ?_⟩
  refine generation_references_closed scenarioEncoder scenarioInfo scenarioProvider _ rfl
    ?_ ?_ ?_ ?_
  · intro k v h _
    change GoMap.get [("vpc".toList, "networking".toList)] k = some v at h
    simp only [GoMap.get] at h
    split at h
    · cases h
      exact Or.inl (by decide)
    · cases h
  · intro f hf
    change f ∈ [scenarioSubnet] at hf
    rw [List.mem_singleton] at hf
    subst hf
    exact scenarioSubnet_registers _
  · intro f hf
    exact absurd hf (List.not_mem_nil f)
  · intro f hf
    exact Option.noConfusion hf

end Schema
